import Mathlib

/-!
# Verification of the jdlint classification-and-reconciliation engine

This file gives a shallow embedding of the core of `jdlint.py`: the
compiled-regex grammar matchers, the hierarchy walker `lint_dir`, the
duplicate detector `_error_if_dups`, the JDex resolver `_get_jdex_entries`
(single-file, flat and nested layouts) and the reconciler
`lint_dir_and_jdex`, together with theorems about them.

Modelling conventions:
* Python strings are Lean `String`s; regex matching is modelled by explicit
  recursive functions on `List Char`.  `.` in a pattern matches any character
  except a newline; `[0-9]` is `Char.isDigit`; `\s` is the Python whitespace
  class (ASCII subset); `re.IGNORECASE` is modelled by ASCII `Char.toLower`
  folding (all patterns in the source are ASCII).
* Python `dict`s (which preserve insertion order) are association lists.
* The filesystem is an inductive tree; `os.scandir` enumerates children in
  the order of the list held by a directory node.  The ignore-pattern glob
  matcher is an external collaborator and is abstracted as an injected
  predicate on (nesting path, name), exactly the interface the source
  consumes it through.
* Python's stable `sorted` with a comparison key is modelled by
  `List.insertionSort` (a stable sort) with the corresponding key order.
-/

namespace Jdlint

/-! ## Ordering-valued comparators

Python compares the sort keys produced by `_sort_error` / `_sort_file` with
tuple/list/string lexicographic comparison on code points.  We model this
with explicit `Ordering`-valued comparators. -/

def cmpNat (a b : Nat) : Ordering :=
  if a < b then .lt else if b < a then .gt else .eq

def cmpChar (a b : Char) : Ordering := cmpNat a.toNat b.toNat

def cmpList {α : Type} (c : α → α → Ordering) : List α → List α → Ordering
  | [], [] => .eq
  | [], _ :: _ => .lt
  | _ :: _, [] => .gt
  | a :: as, b :: bs =>
    match c a b with
    | .eq => cmpList c as bs
    | o => o

def cmpStr (a b : String) : Ordering := cmpList cmpChar a.data b.data

def cmpProd {α β : Type} (c₁ : α → α → Ordering) (c₂ : β → β → Ordering)
    (x y : α × β) : Ordering :=
  match c₁ x.1 y.1 with
  | .eq => c₂ x.2 y.2
  | o => o

/-- Lawfulness of a comparator: antisymmetric under `swap`, transitive on
`≠ .gt`, and `.eq` implies equality. -/
structure LawCmp {α : Type} (c : α → α → Ordering) : Prop where
  symm : ∀ a b, c a b = (c b a).swap
  le_trans : ∀ {a b d}, c a b ≠ .gt → c b d ≠ .gt → c a d ≠ .gt
  eq_eq : ∀ {a b}, c a b = .eq → a = b

theorem LawCmp.refl_eq {α : Type} {c : α → α → Ordering} (h : LawCmp c)
    (a : α) : c a a = .eq := by
  have hs := h.symm a a
  cases hh : c a a <;> rw [hh] at hs <;> simp [Ordering.swap] at hs <;> assumption

theorem LawCmp.total {α : Type} {c : α → α → Ordering} (h : LawCmp c)
    (a b : α) : c a b ≠ .gt ∨ c b a ≠ .gt := by
  have hs := h.symm a b
  cases hh : c b a
  · exact Or.inr (by simp [hh])
  · exact Or.inr (by simp [hh])
  · rw [hh] at hs
    simp only [Ordering.swap] at hs
    exact Or.inl (by simp [hs])

theorem LawCmp.lt_of_swap_gt {α : Type} {c : α → α → Ordering} (h : LawCmp c)
    {a b : α} (hab : c a b = .gt) : c b a = .lt := by
  have hs := h.symm a b
  rw [hab] at hs
  cases hh : c b a <;> rw [hh] at hs <;> simp [Ordering.swap] at hs <;> rfl

theorem lawCmpNat : LawCmp cmpNat := by
  constructor
  · intro a b
    unfold cmpNat
    rcases Nat.lt_trichotomy a b with h | h | h
    · simp [h, Nat.lt_asymm h, Ordering.swap]
    · simp [h, Ordering.swap]
    · simp [h, Nat.lt_asymm h, Ordering.swap]
  · intro a b d hab hbd
    unfold cmpNat at *
    by_cases h1 : a < b <;> by_cases h2 : b < d <;>
      simp [h1, h2] at hab hbd ⊢ <;> omega
  · intro a b hab
    unfold cmpNat at hab
    by_cases h1 : a < b <;> by_cases h2 : b < a <;> simp [h1, h2] at hab <;> omega

theorem lawCmpChar : LawCmp cmpChar := by
  constructor
  · intro a b; exact lawCmpNat.symm a.toNat b.toNat
  · intro a b d hab hbd; exact lawCmpNat.le_trans hab hbd
  · intro a b hab
    have h2 : a.toNat = b.toNat := lawCmpNat.eq_eq hab
    have h3 : a.val = b.val := by
      have ha := Char.ofNat_toNat a
      have hb := Char.ofNat_toNat b
      rw [h2] at ha
      rw [ha] at hb
      exact congrArg Char.val hb
    exact Char.eq_of_val_eq h3

theorem lawCmpList {α : Type} {c : α → α → Ordering} (h : LawCmp c) :
    LawCmp (cmpList c) := by
  constructor
  · intro a b
    induction a generalizing b with
    | nil => cases b <;> simp [cmpList, Ordering.swap]
    | cons x xs ih =>
      cases b with
      | nil => simp [cmpList, Ordering.swap]
      | cons y ys =>
        simp only [cmpList]
        have hxy := h.symm x y
        cases hyx : c y x <;> rw [hyx] at hxy <;>
          simp only [Ordering.swap] at hxy <;>
          simp [hxy, Ordering.swap, ih ys]
  · intro a b d hab hbd
    induction a generalizing b d with
    | nil =>
      cases d with
      | nil => simp [cmpList]
      | cons z zs => simp [cmpList]
    | cons x xs ih =>
      cases b with
      | nil => simp [cmpList] at hab
      | cons y ys =>
        cases d with
        | nil => simp [cmpList] at hbd
        | cons z zs =>
          simp only [cmpList] at hab hbd ⊢
          cases hxy : c x y <;> rw [hxy] at hab
          · cases hyz : c y z <;> rw [hyz] at hbd
            · have hxz : c x z ≠ .gt :=
                h.le_trans (show c x y ≠ .gt by simp [hxy])
                  (show c y z ≠ .gt by simp [hyz])
              cases hh : c x z
              · simp
              · exfalso
                have h' : x = z := h.eq_eq hh
                subst h'
                have hs := h.symm x y
                rw [hxy, hyz] at hs
                simp [Ordering.swap] at hs
              · exact absurd hh hxz
            · have h' : y = z := h.eq_eq hyz
              subst h'
              rw [hxy]
              exact fun hcon => nomatch hcon
            · simp at hbd
          · have h' : x = y := h.eq_eq hxy
            subst h'
            cases hyz : c x z <;> rw [hyz] at hbd <;> simp_all
            exact ih hab hbd
          · simp at hab
  · intro a b hab
    induction a generalizing b with
    | nil => cases b <;> simp_all [cmpList]
    | cons x xs ih =>
      cases b with
      | nil => simp [cmpList] at hab
      | cons y ys =>
        simp only [cmpList] at hab
        cases hxy : c x y <;> rw [hxy] at hab <;> try simp_all
        exact ⟨h.eq_eq hxy, ih hab⟩

theorem lawCmpStr : LawCmp cmpStr := by
  constructor
  · intro a b; exact (lawCmpList lawCmpChar).symm a.data b.data
  · intro a b d hab hbd; exact (lawCmpList lawCmpChar).le_trans hab hbd
  · intro a b hab
    have h2 : a.data = b.data := (lawCmpList lawCmpChar).eq_eq hab
    cases a
    cases b
    exact congrArg String.mk h2

theorem lawCmpProd {α β : Type} {c₁ : α → α → Ordering} {c₂ : β → β → Ordering}
    (h₁ : LawCmp c₁) (h₂ : LawCmp c₂) : LawCmp (cmpProd c₁ c₂) := by
  constructor
  · intro a b
    simp only [cmpProd]
    have h := h₁.symm a.1 b.1
    cases hh : c₁ b.1 a.1 <;> rw [hh] at h <;>
      simp only [Ordering.swap] at h <;>
      simp [h, Ordering.swap, h₂.symm a.2 b.2]
  · intro a b d hab hbd
    simp only [cmpProd] at *
    cases hxy : c₁ a.1 b.1 <;> rw [hxy] at hab
    · cases hyz : c₁ b.1 d.1 <;> rw [hyz] at hbd
      · have hxz : c₁ a.1 d.1 ≠ .gt :=
          h₁.le_trans (show c₁ a.1 b.1 ≠ .gt by simp [hxy])
            (show c₁ b.1 d.1 ≠ .gt by simp [hyz])
        cases hh : c₁ a.1 d.1
        · simp
        · exfalso
          have h' : a.1 = d.1 := h₁.eq_eq hh
          have hs := h₁.symm a.1 b.1
          rw [hxy, h', hyz] at hs
          simp [Ordering.swap] at hs
        · exact absurd hh hxz
      · have h' : b.1 = d.1 := h₁.eq_eq hyz
        rw [← h', hxy]
        exact fun hcon => nomatch hcon
      · simp at hbd
    · have h' : a.1 = b.1 := h₁.eq_eq hxy
      rw [h']
      cases hyz : c₁ b.1 d.1 <;> rw [hyz] at hbd <;> simp_all
      exact h₂.le_trans hab hbd
    · simp at hab
  · intro a b hab
    simp only [cmpProd] at hab
    cases hxy : c₁ a.1 b.1 <;> rw [hxy] at hab <;> try simp_all
    have h1 : a.1 = b.1 := h₁.eq_eq hxy
    have h2 : a.2 = b.2 := h₂.eq_eq hab
    exact Prod.ext h1 h2

/-! ## Data model -/

/-- `File` — a file or folder detected by jdlint (name, full path, list of
ancestor names). -/
structure File where
  name : String
  full_path : String
  nested_under : List String
deriving DecidableEq, Repr

/-- The closed primary error taxonomy (`ErrorType` in the source), one
constructor per dataclass, carrying exactly the fields of that dataclass. -/
inductive ErrorType where
  | areaDifferentFromJDex (area jdex_name : String)
  | areaNotInJDex (area : String)
  | categoryDifferentFromJDex (category jdex_name : String)
  | categoryInWrongArea (category_area file_area : String)
  | categoryNotInJDex (category : String)
  | duplicateArea (area : String)
  | duplicateCategory (category : String)
  | duplicateId (id : String)
  | fileOutsideId
  | idDifferentFromJDex (id jdex_name : String)
  | idInWrongCategory (id_ac file_ac : String)
  | idNotInJDex (id : String)
  | invalidAreaName
  | invalidCategoryName
  | invalidIDName
  | nonemptyInbox (num_items : Nat)
deriving DecidableEq, Repr

/-- The `type` tag of each primary error kind. -/
def ErrorType.typeName : ErrorType → String
  | .areaDifferentFromJDex _ _ => "AREA_DIFFERENT_FROM_JDEX"
  | .areaNotInJDex _ => "AREA_NOT_IN_JDEX"
  | .categoryDifferentFromJDex _ _ => "CATEGORY_DIFFERENT_FROM_JDEX"
  | .categoryInWrongArea _ _ => "CATEGORY_IN_WRONG_AREA"
  | .categoryNotInJDex _ => "CATEGORY_NOT_IN_JDEX"
  | .duplicateArea _ => "DUPLICATE_AREA"
  | .duplicateCategory _ => "DUPLICATE_CATEGORY"
  | .duplicateId _ => "DUPLICATE_ID"
  | .fileOutsideId => "FILE_OUTSIDE_ID"
  | .idDifferentFromJDex _ _ => "ID_DIFFERENT_FROM_JDEX"
  | .idInWrongCategory _ _ => "ID_IN_WRONG_CATEGORY"
  | .idNotInJDex _ => "ID_NOT_IN_JDEX"
  | .invalidAreaName => "INVALID_AREA_NAME"
  | .invalidCategoryName => "INVALID_CATEGORY_NAME"
  | .invalidIDName => "INVALID_ID_NAME"
  | .nonemptyInbox _ => "NONEMPTY_INBOX"

/-- The closed JDex error taxonomy (`JDexErrorType` in the source). -/
inductive JDexErrorType where
  | areaHeaderDifferentFromArea (area jdex_name : String)
  | areaHeaderWithoutArea (area : String)
  | categoryInWrongArea (category_area file_area : String)
  | duplicateArea (area : String)
  | duplicateAreaHeader (area : String)
  | duplicateCategory (category : String)
  | duplicateId (id : String)
  | fileOutsideCategory
  | idInWrongCategory (id_ac file_ac : String)
  | invalidAreaName
  | invalidCategoryName
  | invalidIDName
deriving DecidableEq, Repr

/-- The `type` tag of each JDex error kind. -/
def JDexErrorType.typeName : JDexErrorType → String
  | .areaHeaderDifferentFromArea _ _ => "JDEX_AREA_HEADER_DIFFERENT_FROM_AREA"
  | .areaHeaderWithoutArea _ => "JDEX_AREA_HEADER_WITHOUT_AREA"
  | .categoryInWrongArea _ _ => "JDEX_CATEGORY_IN_WRONG_AREA"
  | .duplicateArea _ => "JDEX_DUPLICATE_AREA"
  | .duplicateAreaHeader _ => "JDEX_DUPLICATE_AREA_HEADER"
  | .duplicateCategory _ => "JDEX_DUPLICATE_CATEGORY"
  | .duplicateId _ => "JDEX_DUPLICATE_ID"
  | .fileOutsideCategory => "JDEX_FILE_OUTSIDE_CATEGORY"
  | .idInWrongCategory _ _ => "JDEX_ID_IN_WRONG_CATEGORY"
  | .invalidAreaName => "JDEX_INVALID_AREA_NAME"
  | .invalidCategoryName => "JDEX_INVALID_CATEGORY_NAME"
  | .invalidIDName => "JDEX_INVALID_ID_NAME"

/-- A detected primary error together with its offending files. -/
structure Error where
  error : ErrorType
  files : List File
deriving DecidableEq, Repr

/-- A detected JDex error together with its offending files. -/
structure JDexError where
  error : JDexErrorType
  files : List File
deriving DecidableEq, Repr

/-! ## The sort keys (`_sort_error`, `_sort_file`) and stable sorting -/

/-- `_sort_file`: sort key of a file — (nesting path, name). -/
def sortFileKey (f : File) : List String × String := (f.nested_under, f.name)

def cmpFileKey : (List String × String) → (List String × String) → Ordering :=
  cmpProd (cmpList cmpStr) cmpStr

def cmpFile (f g : File) : Ordering := cmpFileKey (sortFileKey f) (sortFileKey g)

/-- `_sort_error`: sort key of an error — (type name, file keys). -/
def sortErrorKey (e : Error) : String × List (List String × String) :=
  (e.error.typeName, e.files.map sortFileKey)

def sortJdexErrorKey (e : JDexError) : String × List (List String × String) :=
  (e.error.typeName, e.files.map sortFileKey)

def cmpErrKey : (String × List (List String × String)) →
    (String × List (List String × String)) → Ordering :=
  cmpProd cmpStr (cmpList cmpFileKey)

theorem lawCmpFileKey : LawCmp cmpFileKey :=
  lawCmpProd (lawCmpList lawCmpStr) lawCmpStr

theorem lawCmpErrKey : LawCmp cmpErrKey :=
  lawCmpProd lawCmpStr (lawCmpList lawCmpFileKey)

/-- The `≤` order on files induced by `_sort_file`. -/
def fileLe (f g : File) : Prop := cmpFile f g ≠ Ordering.gt

/-- The `≤` order on primary errors induced by `_sort_error`. -/
def errLe (e₁ e₂ : Error) : Prop :=
  cmpErrKey (sortErrorKey e₁) (sortErrorKey e₂) ≠ Ordering.gt

/-- The `≤` order on JDex errors induced by `_sort_error`. -/
def jdexErrLe (e₁ e₂ : JDexError) : Prop :=
  cmpErrKey (sortJdexErrorKey e₁) (sortJdexErrorKey e₂) ≠ Ordering.gt

instance : DecidableRel fileLe := fun f g => by unfold fileLe; infer_instance

instance : DecidableRel errLe := fun e₁ e₂ => by unfold errLe; infer_instance

instance : DecidableRel jdexErrLe := fun e₁ e₂ => by
  unfold jdexErrLe; infer_instance

/-- Python's stable `sorted(files, key=_sort_file)`. -/
def sortFiles (fs : List File) : List File := List.insertionSort fileLe fs

/-- Python's stable `sorted(errors, key=_sort_error)`. -/
def sortErrors (es : List Error) : List Error := List.insertionSort errLe es

/-- Python's stable `sorted(jdex_errors, key=_sort_error)`. -/
def sortJdexErrors (es : List JDexError) : List JDexError :=
  List.insertionSort jdexErrLe es

/-! ## Registries and the duplicate detector -/

/-- A registry: an insertion-ordered mapping from number keys to the list of
`(label, File)` pairs registered under that key (a Python `dict` of lists). -/
abbrev Registry := List (String × List (String × File))

/-- `_insert_append`: add the value as a singleton if the key is absent,
else append it to the key's existing list (insertion order preserved, as in
a Python dict). -/
def insertAppend (k : String) (v : String × File) : Registry → Registry
  | [] => [(k, [v])]
  | (k₂, vs) :: rest =>
    if k₂ = k then (k₂, vs ++ [v]) :: rest
    else (k₂, vs) :: insertAppend k v rest

/-- Association-list lookup (Python `d[k]` / `k in d`). -/
def lookupReg (k : String) : Registry → Option (List (String × File))
  | [] => none
  | (k₂, vs) :: rest => if k₂ = k then some vs else lookupReg k rest

/-- `_error_if_dups`: one duplicate error per key used more than once, its
files every entry registered under the key, sorted by `_sort_file`. -/
def errorIfDups {E : Type} (mk : String → List File → E) (d : Registry) :
    List E :=
  (d.filter fun kv => decide (kv.2.length > 1)).map fun kv =>
    mk kv.1 (sortFiles (kv.2.map Prod.snd))

/-! ## The grammar matchers

Each compiled regex of the source is modelled as an explicit function from
the character list of the candidate name to the tuple of captured groups (or
`none` when `fullmatch` fails).  `.` matches any character except `'\n'`;
`+` requires at least one character. -/

/-- `.`-compatibility of a whole segment: `.+`/`.+?` can only produce
newline-free text. -/
def noNl (s : List Char) : Bool := s.all (· ≠ '\n')

/-- Strip a literal pattern segment from the front of the subject. -/
def stripLitL : List Char → List Char → Option (List Char)
  | [], s => some s
  | _ :: _, [] => none
  | p :: ps, c :: cs => if c = p then stripLitL ps cs else none

/-- Python's whitespace class `\s` (ASCII part). -/
def isPyWs (c : Char) : Bool :=
  c = ' ' || c = '\t' || c = '\n' || c = '\r' || c = '\x0b' || c = '\x0c'

/-- The lazy group `(.+?)` followed by a fixed tail pattern: return the
shortest non-empty newline-free prefix whose remainder satisfies the tail
pattern, as the regex backtracking engine does on a `fullmatch`. -/
def lazySplit (tailOk : List Char → Bool) : List Char → Option (List Char)
  | [] => none
  | c :: rest =>
    if c = '\n' then none
    else if tailOk rest then some [c]
    else (lazySplit tailOk rest).map (c :: ·)

/-- Tail pattern `(\.md)?`. -/
def mdTailOk : List Char → Bool
  | [] => true
  | ['.', 'm', 'd'] => true
  | _ => false

/-- Tail pattern `\s*(//.*)?` of the single-file JDex line grammars. -/
def commentTailOk : List Char → Bool
  | [] => true
  | '/' :: '/' :: t => noNl t
  | c :: rest => isPyWs c && commentTailOk rest

/-- `valid_area_re = "([0-9])0-(?:\1)9 (.+)"`; groups (decade digit, label). -/
def validAreaMatchL : List Char → Option (Char × List Char)
  | d :: '0' :: '-' :: d₂ :: '9' :: ' ' :: rest =>
    if d.isDigit && d₂ = d && !rest.isEmpty && noNl rest then some (d, rest)
    else none
  | _ => none

/-- `generic_category_re = "([0-9])[0-9] .+"`; group 1 is the first digit. -/
def genericCategoryMatchL : List Char → Option Char
  | d₁ :: d₂ :: ' ' :: rest =>
    if d₁.isDigit && d₂.isDigit && !rest.isEmpty && noNl rest then some d₁
    else none
  | _ => none

/-- `generic_id_re = "([0-9][0-9])\.([0-9][0-9]) (.+)"`; groups
(category digits, id digits, label). -/
def genericIdMatchL : List Char → Option (List Char × List Char × List Char)
  | a :: b :: '.' :: c :: d :: ' ' :: rest =>
    if a.isDigit && b.isDigit && c.isDigit && d.isDigit &&
        !rest.isEmpty && noNl rest then
      some ([a, b], [c, d], rest)
    else none
  | _ => none

/-- `inbox_re = "[0-9][0-9]\.01 .+"`. -/
def inboxMatchL : List Char → Bool
  | a :: b :: '.' :: '0' :: '1' :: ' ' :: rest =>
    a.isDigit && b.isDigit && !rest.isEmpty && noNl rest
  | _ => false

/-- `_valid_category_re(a) = "(" + a + "[0-9]) (.+)"` for the discovered
area key `a` (always a single digit, so a regex literal); groups
(category key, label). -/
def validCategoryMatchL (a : List Char) (s : List Char) :
    Option (List Char × List Char) :=
  match stripLitL a s with
  | none => none
  | some r =>
    match r with
    | c₂ :: ' ' :: rest =>
      if c₂.isDigit && !rest.isEmpty && noNl rest then some (a ++ [c₂], rest)
      else none
    | _ => none

/-- `_valid_id_re(ac) = "(" + ac + "\.[0-9][0-9]) (.+)"` for the discovered
category key `ac` (always two digits); groups (id key, label). -/
def validIdMatchL (ac : List Char) (s : List Char) :
    Option (List Char × List Char) :=
  match stripLitL ac s with
  | none => none
  | some r =>
    match r with
    | '.' :: d₁ :: d₂ :: ' ' :: rest =>
      if d₁.isDigit && d₂.isDigit && !rest.isEmpty && noNl rest then
        some (ac ++ '.' :: [d₁, d₂], rest)
      else none
    | _ => none

/-- `jdex_note_header_re = "([0-9])0\. (.+?)(\.md)?"`; groups
(decade digit, label). -/
def jdexNoteHeaderMatchL : List Char → Option (Char × List Char)
  | d :: '0' :: '.' :: ' ' :: rest =>
    if d.isDigit then (lazySplit mdTailOk rest).map (fun g₂ => (d, g₂))
    else none
  | _ => none

/-- `jdex_note_generic_id_re = "([0-9][0-9])\.([0-9][0-9]) (.+?)(\.md)?"`;
groups (category digits, id digits, label). -/
def jdexNoteGenericIdMatchL :
    List Char → Option (List Char × List Char × List Char)
  | a :: b :: '.' :: c :: d :: ' ' :: rest =>
    if a.isDigit && b.isDigit && c.isDigit && d.isDigit then
      (lazySplit mdTailOk rest).map (fun g₃ => ([a, b], [c, d], g₃))
    else none
  | _ => none

/-- `_jdex_note_id_re(ac) = "(" + ac + "\.[0-9][0-9]) (.+?)(\.md)?"`; groups
(id key, label). -/
def jdexNoteIdMatchL (ac : List Char) (s : List Char) :
    Option (List Char × List Char) :=
  match stripLitL ac s with
  | none => none
  | some r =>
    match r with
    | '.' :: d₁ :: d₂ :: ' ' :: rest =>
      if d₁.isDigit && d₂.isDigit then
        (lazySplit mdTailOk rest).map (fun g₂ => (ac ++ '.' :: [d₁, d₂], g₂))
      else none
    | _ => none

/-! ### Single-file JDex line grammars (local to `_process_single_file_jdex`) -/

/-- `jdex_line_area_re = "([0-9])0-(?:\1)9 (.+?)\s*(//.*)?"`. -/
def jdexLineAreaMatchL : List Char → Option (Char × List Char)
  | d :: '0' :: '-' :: d₂ :: '9' :: ' ' :: rest =>
    if d.isDigit && d₂ = d then
      (lazySplit commentTailOk rest).map (fun g₂ => (d, g₂))
    else none
  | _ => none

/-- `jdex_line_category_re = "([0-9][0-9]) (.+?)\s*(//.*)?"`. -/
def jdexLineCategoryMatchL : List Char → Option (List Char × List Char)
  | a :: b :: ' ' :: rest =>
    if a.isDigit && b.isDigit then
      (lazySplit commentTailOk rest).map (fun g₂ => ([a, b], g₂))
    else none
  | _ => none

/-- `jdex_line_id_re = "([0-9][0-9].[0-9][0-9]) (.+?)\s*(//.*)?"` — note the
unescaped `.`, which matches any non-newline character. -/
def jdexLineIdMatchL : List Char → Option (List Char × List Char)
  | a :: b :: x :: c :: d :: ' ' :: rest =>
    if a.isDigit && b.isDigit && x ≠ '\n' && c.isDigit && d.isDigit then
      (lazySplit commentTailOk rest).map (fun g₂ => ([a, b, x, c, d], g₂))
    else none
  | _ => none

/-! ### Flat-JDex note grammars (local to `_process_flat_jdex_structure`)

These are compiled with `re.IGNORECASE`; all their letters are ASCII, so the
case folding is modelled with ASCII `Char.toLower`. -/

/-- Strip a (lowercase, ASCII) literal case-insensitively. -/
def stripCiL : List Char → List Char → Option (List Char)
  | [], s => some s
  | _ :: _, [] => none
  | p :: ps, c :: cs => if c.toLower = p then stripCiL ps cs else none

/-- Feed each candidate remainder through an optional group `(pat)?`:
both the unstripped and (when it matches) the stripped remainder survive. -/
def optStrip (pat : List Char) (ss : List (List Char)) : List (List Char) :=
  ss.flatMap fun s =>
    match stripCiL pat s with
    | some r => [s, r]
    | none => [s]

/-- Tail `( area management)?( index)?(\.md)?` of the flat area grammar. -/
def flatAreaTailOk (s : List Char) : Bool :=
  (optStrip ".md".data
      (optStrip " index".data
        (optStrip " area management".data [s]))).any List.isEmpty

/-- Tail `( category management)?( index)?(\.md)?` of the flat category
grammar (standard zeros). -/
def flatCatTailOk (s : List Char) : Bool :=
  (optStrip ".md".data
      (optStrip " index".data
        (optStrip " category management".data [s]))).any List.isEmpty

/-- Tail `( (category|area) management)?( index)?(\.md)?` of the flat
category grammar (alternative zeros). -/
def flatCatTailAltOk (s : List Char) : Bool :=
  (optStrip ".md".data
      (optStrip " index".data
        (optStrip " area management".data
          (optStrip " category management".data [s])))).any List.isEmpty

/-- The flat-JDex area-note grammar `area_re`:
`"([0-9])0\.00 (.+?)( area management)?( index)?(\.md)?"`, or with
`alt_zeros`, `"0([0-9])\.00 (.+?)( area management)?( index)?(\.md)?"`;
groups (decade digit, label). -/
def flatAreaMatchL (altZeros : Bool) : List Char → Option (Char × List Char)
  | a :: b :: '.' :: '0' :: '0' :: ' ' :: rest =>
    if altZeros then
      if a = '0' && b.isDigit then
        (lazySplit flatAreaTailOk rest).map (fun g₂ => (b, g₂))
      else none
    else
      if a.isDigit && b = '0' then
        (lazySplit flatAreaTailOk rest).map (fun g₂ => (a, g₂))
      else none
  | _ => none

/-- The flat-JDex category-note grammar `category_re`:
`"([0-9][1-9])\.00 (.+?)( category management)?( index)?(\.md)?"`, or with
`alt_zeros`, `"([0-9][0-9])\.00 (.+?)( (category|area) management)?( index)?(\.md)?"`;
groups (category digits, label). -/
def flatCatMatchL (altZeros : Bool) : List Char → Option (List Char × List Char)
  | a :: b :: '.' :: '0' :: '0' :: ' ' :: rest =>
    if altZeros then
      if a.isDigit && b.isDigit then
        (lazySplit flatCatTailAltOk rest).map (fun g₂ => ([a, b], g₂))
      else none
    else
      if a.isDigit && ('1' ≤ b && b ≤ '9') then
        (lazySplit flatCatTailOk rest).map (fun g₂ => ([a, b], g₂))
      else none
  | _ => none

/-! ## The filesystem model and the hierarchy walker (`lint_dir`) -/

/-- A filesystem node: a plain file or a directory with its children in the
order `os.scandir` yields them. -/
inductive FSEntry where
  | file (name : String)
  | dir (name : String) (children : List FSEntry)

mutual

def FSEntry.decEq : (a b : FSEntry) → Decidable (a = b)
  | .file a, .file b =>
    if h : a = b then .isTrue (by rw [h]) else .isFalse (by simp [h])
  | .file _, .dir _ _ => .isFalse nofun
  | .dir _ _, .file _ => .isFalse nofun
  | .dir a as, .dir b bs =>
    if h : a = b then
      match FSEntry.decEqList as bs with
      | .isTrue h₂ => .isTrue (by rw [h, h₂])
      | .isFalse h₂ => .isFalse (fun hc => h₂ (by cases hc; rfl))
    else .isFalse (fun hc => h (by cases hc; rfl))

def FSEntry.decEqList : (a b : List FSEntry) → Decidable (a = b)
  | [], [] => .isTrue rfl
  | [], _ :: _ => .isFalse nofun
  | _ :: _, [] => .isFalse nofun
  | a :: as, b :: bs =>
    match FSEntry.decEq a b, FSEntry.decEqList as bs with
    | .isTrue h₁, .isTrue h₂ => .isTrue (by rw [h₁, h₂])
    | .isFalse h₁, _ => .isFalse (fun hc => h₁ (by cases hc; rfl))
    | .isTrue _, .isFalse h₂ => .isFalse (fun hc => h₂ (by cases hc; rfl))

end

instance : DecidableEq FSEntry := FSEntry.decEq

def FSEntry.name : FSEntry → String
  | .file n => n
  | .dir n _ => n

/-- The injected ignore predicate (`_entry_is_ignored` consumes the
externally-defined glob patterns only through this interface):
`ign nested_under name` decides whether the entry is skipped. -/
abbrev IgnorePred := List String → String → Bool

/-- `_print_area`: pretty-print an area number. -/
def printArea (d : String) : String := d ++ "0-" ++ d ++ "9"

/-- Build the `File` record for a directory entry. -/
def mkFile (parentPath : String) (nested : List String) (name : String) :
    File :=
  { name := name, full_path := parentPath ++ "/" ++ name, nested_under := nested }

/-- The mutable state threaded through `lint_dir`'s traversal: the error
accumulator and the three registries. -/
structure WalkState where
  errors : List Error
  used_areas : Registry
  used_categories : Registry
  used_ids : Registry
deriving DecidableEq, Repr

def emptyWalkState : WalkState := ⟨[], [], [], []⟩

/-- One step of the innermost loop of `lint_dir`: classify an entry at the
ID level (inside the category with key `acKey`), including `check_inbox` and
`check_if_out_of_id`. -/
def processId (ign : IgnorePred) (acKey : String) (nested : List String)
    (dirPath : String) (st : WalkState) (e : FSEntry) : WalkState :=
  if ign nested e.name then st
  else
    match e with
    | .file n =>
      { st with errors :=
          st.errors ++ [⟨.fileOutsideId, [mkFile dirPath nested n]⟩] }
    | .dir n children =>
      let id_file := mkFile dirPath nested n
      match validIdMatchL acKey.data n.data with
      | some (k, lbl) =>
        let st₂ := { st with
          used_ids :=
            insertAppend (String.mk k) (String.mk lbl, id_file) st.used_ids }
        if inboxMatchL n.data && children.length != 0 then
          { st₂ with errors :=
              st₂.errors ++ [⟨.nonemptyInbox children.length, [id_file]⟩] }
        else st₂
      | none =>
        match genericIdMatchL n.data with
        | some (g₁, _, _) =>
          { st with errors :=
              st.errors ++
                [⟨.idInWrongCategory (String.mk g₁) acKey, [id_file]⟩] }
        | none =>
          { st with errors := st.errors ++ [⟨.invalidIDName, [id_file]⟩] }

/-- One step of the middle loop of `lint_dir`: classify an entry at the
category level (inside the area with key `aKey` and name `areaName`) and,
when it is a valid category, recurse into its children. -/
def processCat (ign : IgnorePred) (aKey : String) (areaName : String)
    (areaPath : String) (st : WalkState) (e : FSEntry) : WalkState :=
  if ign [areaName] e.name then st
  else
    match e with
    | .file n =>
      { st with errors :=
          st.errors ++ [⟨.fileOutsideId, [mkFile areaPath [areaName] n]⟩] }
    | .dir n children =>
      let cat_file := mkFile areaPath [areaName] n
      match validCategoryMatchL aKey.data n.data with
      | some (k, lbl) =>
        let st₂ := { st with
          used_categories :=
            insertAppend (String.mk k) (String.mk lbl, cat_file)
              st.used_categories }
        children.foldl
          (processId ign (String.mk k) [areaName, n] (areaPath ++ "/" ++ n))
          st₂
      | none =>
        match genericCategoryMatchL n.data with
        | some g =>
          { st with errors :=
              st.errors ++
                [⟨.categoryInWrongArea (String.mk [g]) aKey, [cat_file]⟩] }
        | none =>
          { st with errors :=
              st.errors ++ [⟨.invalidCategoryName, [cat_file]⟩] }

/-- One step of the outer loop of `lint_dir`: classify an entry at the area
level and, when it is a valid area, recurse into its children. -/
def processArea (ign : IgnorePred) (rootPath : String) (st : WalkState)
    (e : FSEntry) : WalkState :=
  if ign [] e.name then st
  else
    match e with
    | .file n =>
      { st with errors :=
          st.errors ++ [⟨.fileOutsideId, [mkFile rootPath [] n]⟩] }
    | .dir n children =>
      let area_file := mkFile rootPath [] n
      match validAreaMatchL n.data with
      | some (d, lbl) =>
        let st₂ := { st with
          used_areas :=
            insertAppend (String.mk [d]) (String.mk lbl, area_file)
              st.used_areas }
        children.foldl
          (processCat ign (String.mk [d]) n (rootPath ++ "/" ++ n)) st₂
      | none =>
        { st with errors := st.errors ++ [⟨.invalidAreaName, [area_file]⟩] }

/-- `LintResults`: errors plus the three registries. -/
structure LintResults where
  errors : List Error
  used_areas : Registry
  used_categories : Registry
  used_ids : Registry
deriving DecidableEq, Repr

/-- The traversal state after walking all root entries. -/
def walkState (ign : IgnorePred) (rootPath : String)
    (rootEntries : List FSEntry) : WalkState :=
  rootEntries.foldl (processArea ign rootPath) emptyWalkState

/-- `lint_dir`: walk the tree, then run duplicate detection over the three
registries, then sort all errors by `_sort_error`. -/
def lintDir (ign : IgnorePred) (rootPath : String)
    (rootEntries : List FSEntry) : LintResults :=
  let st := walkState ign rootPath rootEntries
  let errs := st.errors ++
    errorIfDups (fun k fs => ⟨.duplicateArea k, fs⟩) st.used_areas ++
    errorIfDups (fun k fs => ⟨.duplicateCategory k, fs⟩) st.used_categories ++
    errorIfDups (fun k fs => ⟨.duplicateId k, fs⟩) st.used_ids
  { errors := sortErrors errs
    used_areas := st.used_areas
    used_categories := st.used_categories
    used_ids := st.used_ids }

/-! ## The JDex resolver (`_get_jdex_entries` and its helpers) -/

/-- `_JDexAccumulator`: errors plus the four JDex registries. -/
structure JDexAcc where
  errors : List JDexError
  areas : Registry
  categories : Registry
  ids : Registry
  headers : Registry
deriving DecidableEq, Repr

def emptyJDexAcc : JDexAcc := ⟨[], [], [], [], []⟩

/-- `_JDexResults`: the canonical name tables of a resolved JDex
(insertion-ordered dictionaries from key to formatted canonical name). -/
structure JDexResults where
  areas : List (String × String)
  categories : List (String × String)
  ids : List (String × String)
deriving DecidableEq, Repr

/-- Ordered-dict assignment `d[k] = v`: replace in place, or append. -/
def dictInsert (k v : String) : List (String × String) → List (String × String)
  | [] => [(k, v)]
  | (k₂, v₂) :: rest =>
    if k₂ = k then (k₂, v) :: rest else (k₂, v₂) :: dictInsert k v rest

/-- Ordered-dict lookup. -/
def dictGet (k : String) : List (String × String) → Option String
  | [] => none
  | (k₂, v) :: rest => if k₂ = k then some v else dictGet k rest

/-- Python `str.strip()` (the whitespace characters that can occur in the
modelled inputs; Python also strips some further Unicode space characters). -/
def pyStrip (s : String) : String :=
  String.mk (((s.data.dropWhile isPyWs).reverse.dropWhile isPyWs).reverse)

/-- One line of `_process_single_file_jdex`: try the area, category and id
line grammars in order; first match wins; unmatched lines are dropped. -/
def processJdexLine (st : JDexResults) (line : String) : JDexResults :=
  let e := pyStrip line
  match jdexLineAreaMatchL e.data with
  | some (d, g₂) =>
    { st with
      areas :=
        dictInsert (String.mk [d])
          (String.mk [d] ++ "0-09 " ++ String.mk g₂) st.areas }
  | none =>
    match jdexLineCategoryMatchL e.data with
    | some (g₁, g₂) =>
      { st with
        categories :=
          dictInsert (String.mk g₁)
            (String.mk g₁ ++ " " ++ String.mk g₂) st.categories }
    | none =>
      match jdexLineIdMatchL e.data with
      | some (g₁, g₂) =>
        { st with
          ids :=
            dictInsert (String.mk g₁)
              (String.mk g₁ ++ " " ++ String.mk g₂) st.ids }
      | none => st

/-- `_process_single_file_jdex`: fold the line processor over the lines of
the file. -/
def processSingleFileJdex (lines : List String) : JDexResults :=
  lines.foldl processJdexLine ⟨[], [], []⟩

/-- One file of `_process_flat_jdex_structure`: register any area-note,
category-note and header-note matches; a header match stops classification,
otherwise the file must also match the generic ID-note grammar or an
invalid-JDex-ID-name error is produced. -/
def processFlatFile (ign : IgnorePred) (altZeros : Bool) (jdexPath : String)
    (acc : JDexAcc) (name : String) : JDexAcc :=
  if ign [] name then acc
  else
    let file := mkFile jdexPath [] name
    let acc₁ :=
      match flatAreaMatchL altZeros name.data with
      | some (d, g₂) =>
        { acc with areas :=
            insertAppend (String.mk [d]) (String.mk g₂, file) acc.areas }
      | none => acc
    let acc₂ :=
      match flatCatMatchL altZeros name.data with
      | some (g₁, g₂) =>
        { acc₁ with categories :=
            insertAppend (String.mk g₁) (String.mk g₂, file) acc₁.categories }
      | none => acc₁
    match jdexNoteHeaderMatchL name.data with
    | some (d, g₂) =>
      { acc₂ with headers :=
          insertAppend (String.mk [d]) (String.mk g₂, file) acc₂.headers }
    | none =>
      match jdexNoteGenericIdMatchL name.data with
      | some (g₁, g₂, g₃) =>
        { acc₂ with
          ids :=
            insertAppend (String.mk g₁ ++ "." ++ String.mk g₂)
              (String.mk g₃, file) acc₂.ids }
      | none =>
        { acc₂ with errors :=
            acc₂.errors ++ [⟨.invalidIDName, [file]⟩] }

/-- `_process_flat_jdex_structure` over the buffered root-level file names. -/
def processFlatJdex (ign : IgnorePred) (altZeros : Bool) (jdexPath : String)
    (acc : JDexAcc) (files : List String) : JDexAcc :=
  files.foldl (processFlatFile ign altZeros jdexPath) acc

/-- Innermost loop of `_process_nested_jdex_structure`: classify one entry
of a JDex category directory as an ID note (files and directories are
treated alike at this level). -/
def processJdexId (ign : IgnorePred) (acKey : String) (nested : List String)
    (dirPath : String) (acc : JDexAcc) (e : FSEntry) : JDexAcc :=
  if ign nested e.name then acc
  else
    let id_file := mkFile dirPath nested e.name
    match jdexNoteIdMatchL acKey.data e.name.data with
    | some (k, lbl) =>
      { acc with ids :=
          insertAppend (String.mk k) (String.mk lbl, id_file) acc.ids }
    | none =>
      match jdexNoteGenericIdMatchL e.name.data with
      | some (g₁, _, _) =>
        { acc with errors :=
            acc.errors ++
              [⟨.idInWrongCategory (String.mk g₁) acKey, [id_file]⟩] }
      | none =>
        { acc with errors := acc.errors ++ [⟨.invalidIDName, [id_file]⟩] }

/-- Middle loop of `_process_nested_jdex_structure`: classify one entry of a
JDex area directory as a category. -/
def processJdexCat (ign : IgnorePred) (aKey : String) (areaName : String)
    (areaPath : String) (acc : JDexAcc) (e : FSEntry) : JDexAcc :=
  if ign [areaName] e.name then acc
  else
    match e with
    | .file n =>
      { acc with errors :=
          acc.errors ++
            [⟨.fileOutsideCategory, [mkFile areaPath [areaName] n]⟩] }
    | .dir n children =>
      let cat_file := mkFile areaPath [areaName] n
      match validCategoryMatchL aKey.data n.data with
      | some (k, lbl) =>
        let acc₂ := { acc with
          categories :=
            insertAppend (String.mk k) (String.mk lbl, cat_file)
              acc.categories }
        children.foldl
          (processJdexId ign (String.mk k) [areaName, n]
            (areaPath ++ "/" ++ n))
          acc₂
      | none =>
        match genericCategoryMatchL n.data with
        | some g =>
          { acc with errors :=
              acc.errors ++
                [⟨.categoryInWrongArea (String.mk [g]) aKey, [cat_file]⟩] }
        | none =>
          { acc with errors :=
              acc.errors ++ [⟨.invalidCategoryName, [cat_file]⟩] }

/-- Outer loop of `_process_nested_jdex_structure`: a file child of the JDex
root is buffered as a flat-layout candidate; a directory child is classified
as an area and recursed into. -/
def processJdexArea (ign : IgnorePred) (jdexPath : String)
    (st : JDexAcc × List String) (e : FSEntry) : JDexAcc × List String :=
  if ign [] e.name then st
  else
    match e with
    | .file n => (st.1, st.2 ++ [n])
    | .dir n children =>
      let area_file := mkFile jdexPath [] n
      match validAreaMatchL n.data with
      | some (d, lbl) =>
        let acc₂ := { st.1 with
          areas :=
            insertAppend (String.mk [d]) (String.mk lbl, area_file)
              st.1.areas }
        (children.foldl
          (processJdexCat ign (String.mk [d]) n (jdexPath ++ "/" ++ n)) acc₂,
          st.2)
      | none =>
        ({ st.1 with errors :=
            st.1.errors ++ [⟨.invalidAreaName, [area_file]⟩] }, st.2)

/-- `_process_nested_jdex_structure`, returning the accumulator and the
buffered root-level file names in scan order. -/
def processNestedJdex (ign : IgnorePred) (jdexPath : String)
    (children : List FSEntry) : JDexAcc × List String :=
  children.foldl (processJdexArea ign jdexPath) (emptyJDexAcc, [])

/-- The layout conclusion of `_get_jdex_entries`: nested if the nested pass
registered any ID or produced any error (all buffered root files become
file-outside-category errors), otherwise flat (the root files are run
through the flat-note grammars). -/
def concludeLayout (ign : IgnorePred) (altZeros : Bool) (jdexPath : String)
    (st : JDexAcc × List String) : JDexAcc :=
  let acc := st.1
  if !acc.ids.isEmpty || !acc.errors.isEmpty then
    { acc with errors :=
        acc.errors ++
          st.2.map fun n => ⟨.fileOutsideCategory, [mkFile jdexPath [] n]⟩ }
  else processFlatJdex ign altZeros jdexPath acc st.2

/-- First label registered under a key (`v[0][0]`; registries never hold
empty lists, so the default is unreachable). -/
def firstLabel (vs : List (String × File)) : String :=
  match vs with
  | (lbl, _) :: _ => lbl
  | [] => ""

/-- The header-reconciliation loop of `_get_jdex_entries`. -/
def headerStep (areas : Registry) (kv : String × List (String × File)) :
    List JDexError :=
  match lookupReg kv.1 areas with
  | none =>
    [⟨.areaHeaderWithoutArea kv.1, kv.2.map Prod.snd⟩]
  | some areaVs =>
    if kv.2.length = 1 && firstLabel kv.2 != firstLabel areaVs then
      [⟨.areaHeaderDifferentFromArea kv.1
          (printArea kv.1 ++ " " ++ firstLabel areaVs),
        kv.2.map Prod.snd⟩]
    else []

def headerReconErrors (acc : JDexAcc) : List JDexError :=
  acc.headers.flatMap (headerStep acc.areas)

/-- The full accumulator of a directory JDex after the structure passes,
layout conclusion, duplicate detection and header reconciliation. -/
def jdexFullAcc (ign : IgnorePred) (altZeros : Bool) (jdexPath : String)
    (children : List FSEntry) : JDexAcc :=
  let acc := concludeLayout ign altZeros jdexPath
    (processNestedJdex ign jdexPath children)
  let acc := { acc with
    errors := acc.errors ++
      errorIfDups (fun k fs => (⟨.duplicateArea k, fs⟩ : JDexError))
        acc.areas ++
      errorIfDups (fun k fs => (⟨.duplicateCategory k, fs⟩ : JDexError))
        acc.categories ++
      errorIfDups (fun k fs => (⟨.duplicateId k, fs⟩ : JDexError)) acc.ids ++
      errorIfDups (fun k fs => (⟨.duplicateAreaHeader k, fs⟩ : JDexError))
        acc.headers }
  { acc with errors := acc.errors ++ headerReconErrors acc }

/-- Format the canonical tables from each registry's first registered
`(label, Entry)` pair. -/
def canonicalTables (acc : JDexAcc) : JDexResults :=
  { areas := acc.areas.map fun kv =>
      (kv.1, printArea kv.1 ++ " " ++ firstLabel kv.2)
    categories := acc.categories.map fun kv =>
      (kv.1, kv.1 ++ " " ++ firstLabel kv.2)
    ids := acc.ids.map fun kv => (kv.1, kv.1 ++ " " ++ firstLabel kv.2) }

/-- The JDex input: either a single file (with its lines) or a directory. -/
inductive JDexInput where
  | singleFile (lines : List String)
  | directory (children : List FSEntry)

/-- `_get_jdex_entries`: canonical JDex information, or its error list. -/
def getJdexEntries (ign : IgnorePred) (altZeros : Bool) (jdexPath : String)
    (input : JDexInput) : Except (List JDexError) JDexResults :=
  match input with
  | .singleFile lines => .ok (processSingleFileJdex lines)
  | .directory children =>
    let acc := jdexFullAcc ign altZeros jdexPath children
    if acc.errors.isEmpty then .ok (canonicalTables acc)
    else .error acc.errors

/-! ## The reconciler (`lint_dir_and_jdex`) -/

/-- `files[0][1].name` (registries never hold empty lists, so the default
is unreachable). -/
def firstFileName (vs : List (String × File)) : String :=
  match vs with
  | (_, f) :: _ => f.name
  | [] => ""

/-- One registry entry's reconciliation errors. -/
def reconStep (mkNotIn : String → ErrorType)
    (mkDifferent : String → String → ErrorType)
    (table : List (String × String))
    (kv : String × List (String × File)) : List Error :=
  match dictGet kv.1 table with
  | none => [⟨mkNotIn kv.1, kv.2.map Prod.snd⟩]
  | some canon =>
    if kv.2.length = 1 && firstFileName kv.2 != canon then
      [⟨mkDifferent kv.1 canon, kv.2.map Prod.snd⟩]
    else []

def reconRegistry (mkNotIn : String → ErrorType)
    (mkDifferent : String → String → ErrorType)
    (table : List (String × String)) (reg : Registry) : List Error :=
  reg.flatMap (reconStep mkNotIn mkDifferent table)

/-- All reconciliation errors of `lint_dir_and_jdex` in emission order. -/
def reconErrors (results : LintResults) (jdex : JDexResults) : List Error :=
  reconRegistry .areaNotInJDex .areaDifferentFromJDex jdex.areas
      results.used_areas ++
    reconRegistry .categoryNotInJDex .categoryDifferentFromJDex
      jdex.categories results.used_categories ++
    reconRegistry .idNotInJDex .idDifferentFromJDex jdex.ids results.used_ids

/-- `lint_dir_and_jdex`: lint the primary tree, resolve the JDex, and (when
the JDex resolved) reconcile the primary registries against the canonical
tables. -/
def lintDirAndJdex (ign : IgnorePred) (altZeros : Bool) (rootPath : String)
    (rootEntries : List FSEntry) (jdexPath : String) (jdexInput : JDexInput) :
    List Error × List JDexError :=
  let results := lintDir ign rootPath rootEntries
  match getJdexEntries ign altZeros jdexPath jdexInput with
  | .error js => (results.errors, sortJdexErrors js)
  | .ok jdex =>
    (sortErrors (results.errors ++ reconErrors results jdex), [])

/-! ## Order instances for the sort keys -/

instance : IsTotal File fileLe :=
  ⟨fun f g => lawCmpFileKey.total (sortFileKey f) (sortFileKey g)⟩

instance : IsTrans File fileLe :=
  ⟨fun _ _ _ h₁ h₂ => lawCmpFileKey.le_trans h₁ h₂⟩

instance : IsTotal Error errLe :=
  ⟨fun e₁ e₂ => lawCmpErrKey.total (sortErrorKey e₁) (sortErrorKey e₂)⟩

instance : IsTrans Error errLe :=
  ⟨fun _ _ _ h₁ h₂ => lawCmpErrKey.le_trans h₁ h₂⟩

instance : IsTotal JDexError jdexErrLe :=
  ⟨fun e₁ e₂ => lawCmpErrKey.total (sortJdexErrorKey e₁) (sortJdexErrorKey e₂)⟩

instance : IsTrans JDexError jdexErrLe :=
  ⟨fun _ _ _ h₁ h₂ => lawCmpErrKey.le_trans h₁ h₂⟩

theorem sortFiles_perm (fs : List File) : List.Perm (sortFiles fs) fs :=
  List.perm_insertionSort fileLe fs

theorem sortFiles_sorted (fs : List File) : (sortFiles fs).Sorted fileLe :=
  List.sorted_insertionSort fileLe fs

theorem sortErrors_perm (es : List Error) : List.Perm (sortErrors es) es :=
  List.perm_insertionSort errLe es

theorem sortErrors_sorted (es : List Error) : (sortErrors es).Sorted errLe :=
  List.sorted_insertionSort errLe es

/-! ## Basic registry lemmas -/

/-- Keys of a registry. -/
def regKeys (d : Registry) : List String := d.map Prod.fst

theorem regKeys_insertAppend (k : String) (v : String × File) (d : Registry) :
    regKeys (insertAppend k v d) =
      if k ∈ regKeys d then regKeys d else regKeys d ++ [k] := by
  induction d with
  | nil => simp [insertAppend, regKeys]
  | cons kv rest ih =>
    by_cases h : kv.1 = k
    · cases kv
      simp_all [insertAppend, regKeys]
    · cases kv with
      | mk k₂ vs =>
        simp only [insertAppend, regKeys, List.map_cons] at *
        simp only [h, if_false]
        by_cases h₂ : k ∈ regKeys rest <;>
          simp_all [regKeys, eq_comm]

theorem lookupReg_insertAppend_self (k : String) (v : String × File)
    (d : Registry) :
    lookupReg k (insertAppend k v d) =
      some ((lookupReg k d).getD [] ++ [v]) := by
  induction d with
  | nil => simp [insertAppend, lookupReg]
  | cons kv rest ih =>
    by_cases h : kv.1 = k
    · cases kv
      simp_all [insertAppend, lookupReg]
    · cases kv with
      | mk k₂ vs => simp_all [insertAppend, lookupReg, h]

theorem lookupReg_insertAppend_other (k k' : String) (v : String × File)
    (d : Registry) (h : k' ≠ k) :
    lookupReg k' (insertAppend k v d) = lookupReg k' d := by
  induction d with
  | nil => simp [insertAppend, lookupReg, Ne.symm h]
  | cons kv rest ih =>
    by_cases h₂ : kv.1 = k
    · cases kv
      subst h₂
      simp_all [insertAppend, lookupReg, Ne.symm h]
    · cases kv with
      | mk k₂ vs =>
        simp only [insertAppend, h₂, if_false, lookupReg]
        by_cases h₃ : k₂ = k' <;> simp_all [lookupReg]

theorem mem_of_lookupReg {k : String} {vs : List (String × File)}
    {d : Registry} (h : lookupReg k d = some vs) : (k, vs) ∈ d := by
  induction d with
  | nil => simp [lookupReg] at h
  | cons kv rest ih =>
    cases kv with
    | mk k₂ vs₂ =>
      by_cases h₂ : k₂ = k <;> simp_all [lookupReg]

theorem lookupReg_eq_of_mem {k : String} {vs : List (String × File)}
    {d : Registry} (hnd : (regKeys d).Nodup) (h : (k, vs) ∈ d) :
    lookupReg k d = some vs := by
  induction d with
  | nil => simp at h
  | cons kv rest ih =>
    cases kv with
    | mk k₂ vs₂ =>
      simp only [regKeys, List.map_cons, List.nodup_cons] at hnd
      rcases List.mem_cons.mp h with h₁ | h₁
      · cases h₁
        simp [lookupReg]
      · have hk : k₂ ≠ k := fun hc => hnd.1 (by
          rw [hc]
          exact List.mem_map.mpr ⟨(k, vs), h₁, rfl⟩)
        simp [lookupReg, hk, ih hnd.2 h₁]

/-- In a registry with no duplicate keys, the value list of a key is
determined. -/
theorem reg_value_unique {k : String} {vs vs' : List (String × File)}
    {d : Registry} (hnd : (regKeys d).Nodup) (h : (k, vs) ∈ d)
    (h' : (k, vs') ∈ d) : vs = vs' := by
  have h₁ := lookupReg_eq_of_mem hnd h
  have h₂ := lookupReg_eq_of_mem hnd h'
  rw [h₁] at h₂
  exact Option.some_injective _ h₂

/-! ## The duplicate detector (`_error_if_dups`) — claim C2 -/

theorem mem_errorIfDups {E : Type} (mk : String → List File → E)
    (d : Registry) (e : E) :
    e ∈ errorIfDups mk d ↔
      ∃ kv ∈ d, 1 < kv.2.length ∧
        e = mk kv.1 (sortFiles (kv.2.map Prod.snd)) := by
  unfold errorIfDups
  simp only [List.mem_map, List.mem_filter, decide_eq_true_eq]
  constructor
  · rintro ⟨kv, ⟨hm, hl⟩, he⟩
    exact ⟨kv, hm, hl, he.symm⟩
  · rintro ⟨kv, hm, hl, he⟩
    exact ⟨kv, ⟨hm, hl⟩, he.symm⟩

theorem errorIfDups_nodup {E : Type} (mk : String → List File → E)
    (hinj : ∀ {k₁ fs₁ k₂ fs₂}, mk k₁ fs₁ = mk k₂ fs₂ → k₁ = k₂)
    (d : Registry) (hnd : (regKeys d).Nodup) : (errorIfDups mk d).Nodup := by
  unfold errorIfDups
  apply List.Nodup.map_on
  · intro kv₁ h₁ kv₂ h₂ he
    have hk : kv₁.1 = kv₂.1 := hinj he
    have hnd₂ : (regKeys (d.filter fun kv => decide (kv.2.length > 1))).Nodup := by
      unfold regKeys
      exact ((List.filter_sublist d).map Prod.fst).nodup hnd
    have := reg_value_unique hnd₂
      (show (kv₁.1, kv₁.2) ∈ _ from by simpa using h₁)
      (show (kv₁.1, kv₂.2) ∈ _ from by rw [hk]; simpa using h₂)
    cases kv₁; cases kv₂
    simp_all
  · have : (regKeys (d.filter fun kv => decide (kv.2.length > 1))).Nodup := by
      unfold regKeys
      exact ((List.filter_sublist d).map Prod.fst).nodup hnd
    unfold regKeys at this
    exact this.of_map Prod.fst

/--
C2: for every registry, duplicate detection produces exactly one
duplicate-kind error for each key whose entry list has length greater than
one, and that single error's file list contains every entry registered under
the key, sorted by (nesting path, name); a key with exactly one entry (or
with none) yields no duplicate error, and no second error citing the same
key can occur.
-/
theorem duplicate_detection_spec {E : Type} [DecidableEq E]
    (mk : String → List File → E)
    (hinj : ∀ {k₁ fs₁ k₂ fs₂}, mk k₁ fs₁ = mk k₂ fs₂ → k₁ = k₂ ∧ fs₁ = fs₂)
    (d : Registry) (hnd : (regKeys d).Nodup)
    (k : String) (vs : List (String × File)) (hmem : (k, vs) ∈ d) :
    (1 < vs.length →
      (errorIfDups mk d).count (mk k (sortFiles (vs.map Prod.snd))) = 1 ∧
      (∀ fs, mk k fs ∈ errorIfDups mk d →
        fs = sortFiles (vs.map Prod.snd)) ∧
      (sortFiles (vs.map Prod.snd)).Perm (vs.map Prod.snd) ∧
      (sortFiles (vs.map Prod.snd)).Sorted fileLe) ∧
    (vs.length ≤ 1 → ∀ fs, mk k fs ∉ errorIfDups mk d) := by
  constructor
  · intro hlen
    refine ⟨?_, ?_, sortFiles_perm _, sortFiles_sorted _⟩
    · apply List.count_eq_one_of_mem
        (errorIfDups_nodup mk (fun h => (hinj h).1) d hnd)
      exact (mem_errorIfDups mk d _).mpr ⟨(k, vs), hmem, hlen, rfl⟩
    · intro fs hfs
      rcases (mem_errorIfDups mk d _).mp hfs with ⟨kv, hm, _, he⟩
      rcases hinj he with ⟨hk, hfs₂⟩
      subst hk
      have : vs = kv.2 := reg_value_unique hnd hmem (by simpa using hm)
      rw [hfs₂, this]
  · intro hlen fs hfs
    rcases (mem_errorIfDups mk d _).mp hfs with ⟨kv, hm, hl, he⟩
    rcases hinj he with ⟨hk, _⟩
    subst hk
    have : vs = kv.2 := reg_value_unique hnd hmem (by simpa using hm)
    rw [← this] at hl
    omega

/-- Witness for C2 at a concrete registry. -/
theorem duplicate_detection_spec_witness :
    ((regKeys [("1", [("A", ⟨"10-19 A", "r/10-19 A", []⟩),
        ("B", ⟨"10-19 B", "r/10-19 B", []⟩)]),
      ("2", [("C", ⟨"20-29 C", "r/20-29 C", []⟩)])]).Nodup ∧
      ("1", [("A", (⟨"10-19 A", "r/10-19 A", []⟩ : File)),
        ("B", ⟨"10-19 B", "r/10-19 B", []⟩)]) ∈
        [("1", [("A", (⟨"10-19 A", "r/10-19 A", []⟩ : File)),
          ("B", ⟨"10-19 B", "r/10-19 B", []⟩)]),
        ("2", [("C", ⟨"20-29 C", "r/20-29 C", []⟩)])]) ∧
    ((errorIfDups (fun k fs => (⟨.duplicateArea k, fs⟩ : Error))
        [("1", [("A", ⟨"10-19 A", "r/10-19 A", []⟩),
          ("B", ⟨"10-19 B", "r/10-19 B", []⟩)]),
        ("2", [("C", ⟨"20-29 C", "r/20-29 C", []⟩)])]).count
      ⟨.duplicateArea "1",
        sortFiles [⟨"10-19 A", "r/10-19 A", []⟩, ⟨"10-19 B", "r/10-19 B", []⟩]⟩
      = 1) := by
  refine ⟨⟨by decide, by decide⟩, ?_⟩
  have h := duplicate_detection_spec
    (fun k fs => (⟨.duplicateArea k, fs⟩ : Error))
    (fun h => by
      constructor
      · exact congrArg (fun e =>
          match e.error with
          | .duplicateArea a => a
          | _ => "") h
      · exact congrArg Error.files h)
    [("1", [("A", ⟨"10-19 A", "r/10-19 A", []⟩),
      ("B", ⟨"10-19 B", "r/10-19 B", []⟩)]),
      ("2", [("C", ⟨"20-29 C", "r/20-29 C", []⟩)])]
    (by decide) "1"
    [("A", ⟨"10-19 A", "r/10-19 A", []⟩), ("B", ⟨"10-19 B", "r/10-19 B", []⟩)]
    (by decide)
  exact (h.1 (by decide)).1

/-! ## The single-file JDex — claim C5 -/

/--
C5: a single-file JDex with lines "10-19 Life Admin", "11 Projects" and
"11.01 Inbox // note" resolves to canonical tables mapping area key "1" to
the canonical name formatted from "Life Admin", category key "11" to the one
from "Projects" and id key "11.01" to the one from "Inbox"; a further line
matching none of the three line grammars leaves the result unchanged, and
the single-file layout produces no error (the resolver always returns
tables for it).
-/
theorem single_file_jdex_example :
    processSingleFileJdex
        ["10-19 Life Admin", "11 Projects", "11.01 Inbox // note"] =
      ⟨[("1", "10-09 Life Admin")], [("11", "11 Projects")],
        [("11.01", "11.01 Inbox")]⟩ ∧
    jdexLineAreaMatchL (pyStrip "not a valid line!").data = none ∧
    jdexLineCategoryMatchL (pyStrip "not a valid line!").data = none ∧
    jdexLineIdMatchL (pyStrip "not a valid line!").data = none ∧
    processSingleFileJdex
        ["10-19 Life Admin", "11 Projects", "11.01 Inbox // note",
          "not a valid line!"] =
      processSingleFileJdex
        ["10-19 Life Admin", "11 Projects", "11.01 Inbox // note"] ∧
    getJdexEntries (fun _ _ => false) false "jdex"
        (.singleFile
          ["10-19 Life Admin", "11 Projects", "11.01 Inbox // note",
            "not a valid line!"]) =
      .ok ⟨[("1", "10-09 Life Admin")], [("11", "11 Projects")],
        [("11.01", "11.01 Inbox")]⟩ := by
  exact ⟨by decide, by decide, by decide, by decide, by decide, rfl⟩

/-! ## Matcher shape lemmas -/

theorem stripLitL_some {p s r : List Char} (h : stripLitL p s = some r) :
    s = p ++ r := by
  induction p generalizing s with
  | nil => simp [stripLitL] at h; simp [h]
  | cons c cs ih =>
    cases s with
    | nil => simp [stripLitL] at h
    | cons c₂ s₂ =>
      simp only [stripLitL] at h
      by_cases hc : c₂ = c
      · subst hc
        simp only [if_pos rfl] at h
        simp [ih h]
      · simp [hc] at h

theorem validIdMatchL_some {ac s k lbl : List Char}
    (h : validIdMatchL ac s = some (k, lbl)) :
    ∃ d₁ d₂, d₁.isDigit ∧ d₂.isDigit ∧ lbl ≠ [] ∧ noNl lbl = true ∧
      k = ac ++ ['.', d₁, d₂] ∧ s = ac ++ '.' :: d₁ :: d₂ :: ' ' :: lbl := by
  unfold validIdMatchL at h
  split at h
  · simp at h
  · rename_i r hs
    have hsr := stripLitL_some hs
    split at h
    · rename_i d₁ d₂ rest
      split at h
      · rename_i hc
        simp only [Bool.and_eq_true, Bool.not_eq_true'] at hc
        simp only [Option.some_inj, Prod.mk.injEq] at h
        refine ⟨d₁, d₂, hc.1.1.1, hc.1.1.2, ?_, ?_, ?_, ?_⟩
        · rw [← h.2]
          intro hcon
          rw [hcon] at hc
          simp at hc
        · rw [← h.2]
          exact hc.2
        · rw [← h.1]
        · rw [hsr, ← h.2]
      · simp at h
    · simp at h

/-- The inbox pattern on a name of valid-ID shape under a two-digit
category key holds exactly when the two trailing digits of the key are
"01". -/
theorem inboxMatchL_shape {a b d₁ d₂ : Char} {lbl : List Char}
    (ha : a.isDigit) (hb : b.isDigit) (hlbl : lbl ≠ [])
    (hnl : noNl lbl = true) :
    inboxMatchL ([a, b] ++ '.' :: d₁ :: d₂ :: ' ' :: lbl) =
      (d₁ = '0' && d₂ = '1') := by
  show inboxMatchL (a :: b :: '.' :: d₁ :: d₂ :: ' ' :: lbl) = _
  by_cases h₁ : d₁ = '0'
  · by_cases h₂ : d₂ = '1'
    · subst h₁; subst h₂
      simp only [inboxMatchL, ha, hb, hnl, Bool.and_true, Bool.true_and]
      simp [List.isEmpty_iff, hlbl]
    · subst h₁
      have : inboxMatchL (a :: b :: '.' :: '0' :: d₂ :: ' ' :: lbl) = false := by
        unfold inboxMatchL
        split
        · rename_i heq
          exfalso
          simp only [List.cons.injEq] at heq
          exact h₂ heq.2.2.2.2.1
        · rfl
      rw [this]
      simp [h₂]
  · have : inboxMatchL (a :: b :: '.' :: d₁ :: d₂ :: ' ' :: lbl) = false := by
      unfold inboxMatchL
      split
      · rename_i heq
        exfalso
        simp only [List.cons.injEq] at heq
        exact h₁ heq.2.2.2.1
      · rfl
    rw [this]
    simp [h₁]

/-! ## Classification — claim C1 -/

/--
C1: for every non-ignored directory entry examined at the area, category or
ID level, exactly one of three outcomes occurs: (a) the pattern scoped to
the actual parent key matches and the entry is registered under the derived
key with its label (and only then is it descended into), or (b) the scoped
pattern fails but the generic pattern matches and exactly one wrong-parent
error citing the key implied by the number and the actual parent key is
appended, or (c) neither matches and exactly one invalid-name error is
appended; in cases (b) and (c) no registry changes and no descent happens.
-/
theorem classification_trichotomy (ign : IgnorePred) (st : WalkState)
    (n : String) (children : List FSEntry) :
    (∀ rootPath, ign [] n = false →
      (∀ d lbl, validAreaMatchL n.data = some (d, lbl) →
        processArea ign rootPath st (.dir n children) =
          children.foldl
            (processCat ign (String.mk [d]) n (rootPath ++ "/" ++ n))
            { st with
              used_areas :=
                insertAppend (String.mk [d])
                  (String.mk lbl, mkFile rootPath [] n) st.used_areas }) ∧
      (validAreaMatchL n.data = none →
        processArea ign rootPath st (.dir n children) =
          { st with
            errors :=
              st.errors ++ [⟨.invalidAreaName, [mkFile rootPath [] n]⟩] })) ∧
    (∀ aKey areaName areaPath, ign [areaName] n = false →
      (∀ k lbl, validCategoryMatchL aKey.data n.data = some (k, lbl) →
        processCat ign aKey areaName areaPath st (.dir n children) =
          children.foldl
            (processId ign (String.mk k) [areaName, n]
              (areaPath ++ "/" ++ n))
            { st with
              used_categories :=
                insertAppend (String.mk k)
                  (String.mk lbl, mkFile areaPath [areaName] n)
                  st.used_categories }) ∧
      (∀ g, validCategoryMatchL aKey.data n.data = none →
        genericCategoryMatchL n.data = some g →
        processCat ign aKey areaName areaPath st (.dir n children) =
          { st with
            errors :=
              st.errors ++
                [⟨.categoryInWrongArea (String.mk [g]) aKey,
                  [mkFile areaPath [areaName] n]⟩] }) ∧
      (validCategoryMatchL aKey.data n.data = none →
        genericCategoryMatchL n.data = none →
        processCat ign aKey areaName areaPath st (.dir n children) =
          { st with
            errors :=
              st.errors ++
                [⟨.invalidCategoryName, [mkFile areaPath [areaName] n]⟩] })) ∧
    (∀ acKey nested dirPath, ign nested n = false →
      (∀ k lbl, validIdMatchL acKey.data n.data = some (k, lbl) →
        processId ign acKey nested dirPath st (.dir n children) =
          (if inboxMatchL n.data && children.length != 0 then
            { st with
              used_ids :=
                insertAppend (String.mk k)
                  (String.mk lbl, mkFile dirPath nested n) st.used_ids
              errors :=
                st.errors ++
                  [⟨.nonemptyInbox children.length,
                    [mkFile dirPath nested n]⟩] }
          else
            { st with
              used_ids :=
                insertAppend (String.mk k)
                  (String.mk lbl, mkFile dirPath nested n) st.used_ids })) ∧
      (∀ g₁ g₂ g₃, validIdMatchL acKey.data n.data = none →
        genericIdMatchL n.data = some (g₁, g₂, g₃) →
        processId ign acKey nested dirPath st (.dir n children) =
          { st with
            errors :=
              st.errors ++
                [⟨.idInWrongCategory (String.mk g₁) acKey,
                  [mkFile dirPath nested n]⟩] }) ∧
      (validIdMatchL acKey.data n.data = none →
        genericIdMatchL n.data = none →
        processId ign acKey nested dirPath st (.dir n children) =
          { st with
            errors :=
              st.errors ++
                [⟨.invalidIDName, [mkFile dirPath nested n]⟩] })) := by
  refine ⟨fun rootPath hign => ⟨fun d lbl hm => ?_, fun hm => ?_⟩,
    fun aKey areaName areaPath hign =>
      ⟨fun k lbl hm => ?_, fun g hm hg => ?_, fun hm hg => ?_⟩,
    fun acKey nested dirPath hign =>
      ⟨fun k lbl hm => ?_, fun g₁ g₂ g₃ hm hg => ?_, fun hm hg => ?_⟩⟩
  · simp [processArea, FSEntry.name, hign, hm]
  · simp [processArea, FSEntry.name, hign, hm]
  · simp [processCat, FSEntry.name, hign, hm]
  · simp [processCat, FSEntry.name, hign, hm, hg]
  · simp [processCat, FSEntry.name, hign, hm, hg]
  · simp only [processId, FSEntry.name, hign, Bool.false_eq_true, if_false,
      hm]
    try split <;> rfl
  · simp [processId, FSEntry.name, hign, hm, hg]
  · simp [processId, FSEntry.name, hign, hm, hg]

/-- Witness for C1 at concrete entries (area "10-19 A" valid; category
"99 B" in area 1 wrong-parent; ID "xx" invalid). -/
theorem classification_trichotomy_witness :
    ((fun (_ : List String) (_ : String) => false) [] "10-19 A" = false ∧
      validAreaMatchL "10-19 A".data = some ('1', "A".data) ∧
      processArea (fun _ _ => false) "r" emptyWalkState
          (.dir "10-19 A" []) =
        { emptyWalkState with
          used_areas :=
            insertAppend "1" ("A", mkFile "r" [] "10-19 A")
              emptyWalkState.used_areas }) ∧
    (validCategoryMatchL ("1" : String).data "99 B".data = none ∧
      genericCategoryMatchL "99 B".data = some '9' ∧
      processCat (fun _ _ => false) "1" "10-19 A" "r/10-19 A" emptyWalkState
          (.dir "99 B" []) =
        { emptyWalkState with
          errors :=
            [⟨.categoryInWrongArea "9" "1",
              [mkFile "r/10-19 A" ["10-19 A"] "99 B"]⟩] }) := by
  constructor
  · refine ⟨rfl, by decide, ?_⟩
    have h := (classification_trichotomy (fun _ _ => false) emptyWalkState
      "10-19 A" []).1 "r" rfl
    exact (h.1 '1' "A".data (by decide)).trans (by decide)
  · refine ⟨by decide, by decide, ?_⟩
    have h := ((classification_trichotomy (fun _ _ => false) emptyWalkState
      "99 B" []).2.1 "1" "10-19 A" "r/10-19 A" rfl)
    exact (h.2.1 '9' (by decide) (by decide)).trans (by decide)

/-! ## Delta characterization of the walker

Each loop of `lint_dir` only ever appends to the error list and performs
`_insert_append` operations on the registries, and what it appends depends
only on the entry (and its parent context), not on the accumulated state.
We make those contributions explicit; this is the backbone for the
duplicate-key, determinism and invariant theorems. -/

/-- A registry operation: key and inserted value. -/
abbrev RegOp := String × String × File

/-- Apply a sequence of `_insert_append` operations. -/
def applyOps (reg : Registry) (ops : List RegOp) : Registry :=
  ops.foldl (fun r kv => insertAppend kv.1 kv.2 r) reg

theorem applyOps_append (reg : Registry) (ops₁ ops₂ : List RegOp) :
    applyOps reg (ops₁ ++ ops₂) = applyOps (applyOps reg ops₁) ops₂ := by
  unfold applyOps
  exact List.foldl_append _ _ _ _

/-- The error and registry contributions of one ID-level entry. -/
def idStep (ign : IgnorePred) (acKey : String) (nested : List String)
    (dirPath : String) (e : FSEntry) : List Error × List RegOp :=
  if ign nested e.name then ([], [])
  else
    match e with
    | .file n => ([⟨.fileOutsideId, [mkFile dirPath nested n]⟩], [])
    | .dir n children =>
      match validIdMatchL acKey.data n.data with
      | some (k, lbl) =>
        ((if inboxMatchL n.data && children.length != 0 then
            [⟨.nonemptyInbox children.length, [mkFile dirPath nested n]⟩]
          else []),
          [(String.mk k, (String.mk lbl, mkFile dirPath nested n))])
      | none =>
        match genericIdMatchL n.data with
        | some (g₁, _, _) =>
          ([⟨.idInWrongCategory (String.mk g₁) acKey,
              [mkFile dirPath nested n]⟩], [])
        | none =>
          ([⟨.invalidIDName, [mkFile dirPath nested n]⟩], [])

theorem processId_eq (ign : IgnorePred) (acKey : String)
    (nested : List String) (dirPath : String) (st : WalkState) (e : FSEntry) :
    processId ign acKey nested dirPath st e =
      { st with
        errors := st.errors ++ (idStep ign acKey nested dirPath e).1
        used_ids :=
          applyOps st.used_ids (idStep ign acKey nested dirPath e).2 } := by
  unfold processId idStep
  split
  · simp [applyOps]
  · split
    · simp [applyOps]
    · split
      · split <;> simp [applyOps, insertAppend]
      · split
        · simp [applyOps]
        · simp [applyOps]

theorem foldl_processId_eq (ign : IgnorePred) (acKey : String)
    (nested : List String) (dirPath : String) (children : List FSEntry)
    (st : WalkState) :
    children.foldl (processId ign acKey nested dirPath) st =
      { st with
        errors := st.errors ++
          children.flatMap (fun c => (idStep ign acKey nested dirPath c).1)
        used_ids :=
          applyOps st.used_ids
            (children.flatMap
              (fun c => (idStep ign acKey nested dirPath c).2)) } := by
  induction children generalizing st with
  | nil => simp [applyOps]
  | cons c cs ih =>
    simp only [List.foldl_cons, List.flatMap_cons]
    rw [processId_eq, ih]
    simp [applyOps_append, List.append_assoc]

/-- The error and registry contributions of one category-level entry. -/
def catStep (ign : IgnorePred) (aKey : String) (areaName : String)
    (areaPath : String) (e : FSEntry) :
    List Error × List RegOp × List RegOp :=
  if ign [areaName] e.name then ([], [], [])
  else
    match e with
    | .file n => ([⟨.fileOutsideId, [mkFile areaPath [areaName] n]⟩], [], [])
    | .dir n children =>
      match validCategoryMatchL aKey.data n.data with
      | some (k, lbl) =>
        (children.flatMap
            (fun c => (idStep ign (String.mk k) [areaName, n]
              (areaPath ++ "/" ++ n) c).1),
          [(String.mk k, (String.mk lbl, mkFile areaPath [areaName] n))],
          children.flatMap
            (fun c => (idStep ign (String.mk k) [areaName, n]
              (areaPath ++ "/" ++ n) c).2))
      | none =>
        match genericCategoryMatchL n.data with
        | some g =>
          ([⟨.categoryInWrongArea (String.mk [g]) aKey,
              [mkFile areaPath [areaName] n]⟩], [], [])
        | none =>
          ([⟨.invalidCategoryName, [mkFile areaPath [areaName] n]⟩], [], [])

theorem processCat_eq (ign : IgnorePred) (aKey : String) (areaName : String)
    (areaPath : String) (st : WalkState) (e : FSEntry) :
    processCat ign aKey areaName areaPath st e =
      { st with
        errors :=
          st.errors ++ (catStep ign aKey areaName areaPath e).1
        used_categories :=
          applyOps st.used_categories
            (catStep ign aKey areaName areaPath e).2.1
        used_ids :=
          applyOps st.used_ids
            (catStep ign aKey areaName areaPath e).2.2 } := by
  unfold processCat catStep
  split
  · simp [applyOps]
  · split
    · simp [applyOps]
    · split
      · rw [foldl_processId_eq]
        simp [applyOps, insertAppend]
      · split
        · simp [applyOps]
        · simp [applyOps]

theorem foldl_processCat_eq (ign : IgnorePred) (aKey : String)
    (areaName : String) (areaPath : String) (children : List FSEntry)
    (st : WalkState) :
    children.foldl (processCat ign aKey areaName areaPath) st =
      { st with
        errors := st.errors ++
          children.flatMap
            (fun c => (catStep ign aKey areaName areaPath c).1)
        used_categories :=
          applyOps st.used_categories
            (children.flatMap
              (fun c => (catStep ign aKey areaName areaPath c).2.1))
        used_ids :=
          applyOps st.used_ids
            (children.flatMap
              (fun c => (catStep ign aKey areaName areaPath c).2.2)) } := by
  induction children generalizing st with
  | nil => simp [applyOps]
  | cons c cs ih =>
    simp only [List.foldl_cons, List.flatMap_cons]
    rw [processCat_eq, ih]
    simp [applyOps_append, List.append_assoc]

/-- The error and registry contributions of one area-level entry. -/
structure AreaDelta where
  errs : List Error
  areaOps : List RegOp
  catOps : List RegOp
  idOps : List RegOp

/-- The contributions of one root-level entry. -/
def areaStep (ign : IgnorePred) (rootPath : String) (e : FSEntry) :
    AreaDelta :=
  if ign [] e.name then ⟨[], [], [], []⟩
  else
    match e with
    | .file n => ⟨[⟨.fileOutsideId, [mkFile rootPath [] n]⟩], [], [], []⟩
    | .dir n children =>
      match validAreaMatchL n.data with
      | some (d, lbl) =>
        ⟨children.flatMap
            (fun c => (catStep ign (String.mk [d]) n
              (rootPath ++ "/" ++ n) c).1),
          [(String.mk [d], (String.mk lbl, mkFile rootPath [] n))],
          children.flatMap
            (fun c => (catStep ign (String.mk [d]) n
              (rootPath ++ "/" ++ n) c).2.1),
          children.flatMap
            (fun c => (catStep ign (String.mk [d]) n
              (rootPath ++ "/" ++ n) c).2.2)⟩
      | none =>
        ⟨[⟨.invalidAreaName, [mkFile rootPath [] n]⟩], [], [], []⟩

theorem processArea_eq (ign : IgnorePred) (rootPath : String)
    (st : WalkState) (e : FSEntry) :
    processArea ign rootPath st e =
      { st with
        errors := st.errors ++ (areaStep ign rootPath e).errs
        used_areas :=
          applyOps st.used_areas (areaStep ign rootPath e).areaOps
        used_categories :=
          applyOps st.used_categories (areaStep ign rootPath e).catOps
        used_ids :=
          applyOps st.used_ids (areaStep ign rootPath e).idOps } := by
  unfold processArea areaStep
  split
  · simp [applyOps]
  · split
    · simp [applyOps]
    · split
      · rw [foldl_processCat_eq]
        simp [applyOps, insertAppend]
      · simp [applyOps]

theorem walkState_eq (ign : IgnorePred) (rootPath : String)
    (cs : List FSEntry) :
    walkState ign rootPath cs =
      { errors := cs.flatMap (fun c => (areaStep ign rootPath c).errs)
        used_areas :=
          applyOps [] (cs.flatMap (fun c => (areaStep ign rootPath c).areaOps))
        used_categories :=
          applyOps [] (cs.flatMap (fun c => (areaStep ign rootPath c).catOps))
        used_ids :=
          applyOps []
            (cs.flatMap (fun c => (areaStep ign rootPath c).idOps)) } := by
  have haux : ∀ (l : List FSEntry) (st : WalkState),
      l.foldl (processArea ign rootPath) st =
        { st with
          errors :=
            st.errors ++ l.flatMap (fun c => (areaStep ign rootPath c).errs)
          used_areas :=
            applyOps st.used_areas
              (l.flatMap (fun c => (areaStep ign rootPath c).areaOps))
          used_categories :=
            applyOps st.used_categories
              (l.flatMap (fun c => (areaStep ign rootPath c).catOps))
          used_ids :=
            applyOps st.used_ids
              (l.flatMap (fun c => (areaStep ign rootPath c).idOps)) } := by
    intro l
    induction l with
    | nil => intro st; simp [applyOps]
    | cons c cs₂ ih =>
      intro st
      simp only [List.foldl_cons, List.flatMap_cons]
      rw [processArea_eq, ih]
      simp [applyOps_append, List.append_assoc]
  unfold walkState
  rw [haux]
  simp [emptyWalkState]

/-! ## The inbox rule — claim C8 -/

/--
C8: for a non-ignored, validly-classified ID folder under a two-digit
category key: if the trailing two digits of its key are "01" (an Inbox) and
the folder contains `n > 0` entries, exactly one nonempty-inbox error
carrying the item count is appended; otherwise (not an inbox, or zero
entries) no nonempty-inbox error is appended, and in all cases the entry is
registered.
-/
theorem inbox_rule (ign : IgnorePred) (st : WalkState) (a b : Char)
    (ha : a.isDigit) (hb : b.isDigit) (nested : List String)
    (dirPath : String) (n : String) (children : List FSEntry)
    (k lbl : List Char) (hign : ign nested n = false)
    (hvalid : validIdMatchL [a, b] n.data = some (k, lbl)) :
    (processId ign (String.mk [a, b]) nested dirPath st
        (.dir n children)).errors =
      st.errors ++
        (if k.reverse.take 2 = ['1', '0'] ∧ children.length ≠ 0 then
          [⟨.nonemptyInbox children.length, [mkFile dirPath nested n]⟩]
        else []) ∧
    (processId ign (String.mk [a, b]) nested dirPath st
        (.dir n children)).used_ids =
      insertAppend (String.mk k) (String.mk lbl, mkFile dirPath nested n)
        st.used_ids := by
  rcases validIdMatchL_some hvalid with
    ⟨d₁, d₂, hd₁, hd₂, hlbl, hnl, hk, hs⟩
  have hproc := ((classification_trichotomy ign st n children).2.2
    (String.mk [a, b]) nested dirPath hign).1 k lbl hvalid
  have hinbox : inboxMatchL n.data = (d₁ = '0' && d₂ = '1') := by
    rw [show n.data = [a, b] ++ '.' :: d₁ :: d₂ :: ' ' :: lbl from hs]
    exact inboxMatchL_shape ha hb hlbl hnl
  have hkey : (k.reverse.take 2 = ['1', '0']) ↔ (d₁ = '0' ∧ d₂ = '1') := by
    rw [hk]
    constructor
    · intro hh
      simp only [List.reverse_append] at hh
      simp only [List.reverse_cons, List.reverse_nil] at hh
      simp only [List.nil_append, List.cons_append, List.append_assoc] at hh
      simp only [List.take, List.cons.injEq] at hh
      exact ⟨hh.2.1.symm ▸ rfl, hh.1.symm ▸ rfl⟩
    · rintro ⟨h₁, h₂⟩
      subst h₁; subst h₂
      rfl
  rw [hproc]
  by_cases hc : (d₁ = '0' ∧ d₂ = '1') ∧ children.length ≠ 0
  · have hbool : (inboxMatchL n.data && children.length != 0) = true := by
      rw [hinbox]
      simp [hc.1.1, hc.1.2, hc.2]
    rw [if_pos hbool, if_pos ⟨hkey.mpr hc.1, hc.2⟩]
    exact ⟨rfl, rfl⟩
  · have hbool : (inboxMatchL n.data && children.length != 0) = false := by
      rw [hinbox]
      by_cases h₁ : d₁ = '0'
      · by_cases h₂ : d₂ = '1'
        · have hlen : children.length = 0 := by
            by_contra hn
            exact hc ⟨⟨h₁, h₂⟩, hn⟩
          simp [hlen]
        · simp [h₂]
      · simp [h₁]
    rw [if_neg (by simp [hbool]), if_neg (fun hcon =>
      hc ⟨hkey.mp hcon.1, hcon.2⟩)]
    exact ⟨by simp, rfl⟩

/-- Witness for C8: "11.01 Inbox" with one entry yields the count-1 error;
the same folder empty yields none. -/
theorem inbox_rule_witness :
    (('1' : Char).isDigit ∧
      (fun (_ : List String) (_ : String) => false) ["A", "C"] "11.01 Inbox"
        = false ∧
      validIdMatchL ['1', '1'] "11.01 Inbox".data =
        some ("11.01".data, "Inbox".data)) ∧
    (processId (fun _ _ => false) (String.mk ['1', '1']) ["A", "C"] "p"
        emptyWalkState (.dir "11.01 Inbox" [.file "x"])).errors =
      [⟨.nonemptyInbox 1, [mkFile "p" ["A", "C"] "11.01 Inbox"]⟩] ∧
    (processId (fun _ _ => false) (String.mk ['1', '1']) ["A", "C"] "p"
        emptyWalkState (.dir "11.01 Inbox" [])).errors = [] := by
  refine ⟨⟨by decide, rfl, by decide⟩, ?_, ?_⟩
  · have h := (inbox_rule (fun _ _ => false) emptyWalkState '1' '1'
      (by decide) (by decide) ["A", "C"] "p" "11.01 Inbox" [.file "x"]
      "11.01".data "Inbox".data rfl (by decide)).1
    rw [h]
    decide
  · have h := (inbox_rule (fun _ _ => false) emptyWalkState '1' '1'
      (by decide) (by decide) ["A", "C"] "p" "11.01 Inbox" []
      "11.01".data "Inbox".data rfl (by decide)).1
    rw [h]
    decide

/-! ## The JDex resolver is all-or-nothing — claim C3 -/

/--
C3: the JDex resolver returns only the error list whenever any error was
produced anywhere during resolution, and returns canonical tables — built
from each registry key's first registered (label, Entry) pair — exactly when
the error list is empty.  A single-file JDex has no error channel and always
returns tables.
-/
theorem jdex_all_or_nothing (ign : IgnorePred) (altZeros : Bool)
    (jdexPath : String) :
    (∀ lines, getJdexEntries ign altZeros jdexPath (.singleFile lines) =
      .ok (processSingleFileJdex lines)) ∧
    (∀ children,
      ((jdexFullAcc ign altZeros jdexPath children).errors = [] →
        getJdexEntries ign altZeros jdexPath (.directory children) =
          .ok (canonicalTables (jdexFullAcc ign altZeros jdexPath children))) ∧
      ((jdexFullAcc ign altZeros jdexPath children).errors ≠ [] →
        getJdexEntries ign altZeros jdexPath (.directory children) =
          .error (jdexFullAcc ign altZeros jdexPath children).errors) ∧
      (∀ tables,
        getJdexEntries ign altZeros jdexPath (.directory children) =
            .ok tables →
          (jdexFullAcc ign altZeros jdexPath children).errors = [] ∧
            tables =
              canonicalTables (jdexFullAcc ign altZeros jdexPath children)) ∧
      (∀ errs,
        getJdexEntries ign altZeros jdexPath (.directory children) =
            .error errs →
          errs ≠ [] ∧
            errs = (jdexFullAcc ign altZeros jdexPath children).errors)) := by
  refine ⟨fun lines => rfl, fun children => ?_⟩
  by_cases h : (jdexFullAcc ign altZeros jdexPath children).errors = []
  · refine ⟨fun _ => ?_, fun hne => absurd h hne, fun tables ht => ?_, ?_⟩
    · simp [getJdexEntries, h]
    · constructor
      · exact h
      · simp only [getJdexEntries, h, List.isEmpty_nil, if_true,
          Except.ok.injEq] at ht
        exact ht.symm
    · intro errs herr
      simp [getJdexEntries, h] at herr
  · refine ⟨fun he => absurd he h, fun _ => ?_, fun tables ht => ?_, ?_⟩
    · simp [getJdexEntries, List.isEmpty_iff, h]
    · simp [getJdexEntries, List.isEmpty_iff, h] at ht
    · intro errs herr
      simp only [getJdexEntries, List.isEmpty_iff, if_neg h,
        Except.error.injEq] at herr
      exact ⟨herr ▸ h, herr.symm⟩

/-- Witness for C3: a directory JDex consisting of one invalidly-named
directory yields a non-empty error list and the resolver returns exactly
that list; a well-formed flat one yields tables. -/
theorem jdex_all_or_nothing_witness :
    ((jdexFullAcc (fun _ _ => false) false "j" [.dir "bad" []]).errors ≠ [] ∧
      getJdexEntries (fun _ _ => false) false "j"
          (.directory [.dir "bad" []]) =
        .error (jdexFullAcc (fun _ _ => false) false "j"
          [.dir "bad" []]).errors) ∧
    ((jdexFullAcc (fun _ _ => false) false "j"
        [.file "11.01 Inbox.md"]).errors = [] ∧
      getJdexEntries (fun _ _ => false) false "j"
          (.directory [.file "11.01 Inbox.md"]) =
        .ok (canonicalTables (jdexFullAcc (fun _ _ => false) false "j"
          [.file "11.01 Inbox.md"]))) := by
  constructor
  · exact ⟨by decide,
      ((jdex_all_or_nothing (fun _ _ => false) false "j").2
        [.dir "bad" []]).2.1 (by decide)⟩
  · exact ⟨by decide,
      ((jdex_all_or_nothing (fun _ _ => false) false "j").2
        [.file "11.01 Inbox.md"]).1 (by decide)⟩

/-! ## JDex layout conclusion — claim C7 -/

/--
C7: for a directory JDex, if the nested pass registered at least one ID or
produced at least one error the JDex is concluded nested and every buffered
root-level file becomes a file-outside-category error; otherwise it is
concluded flat and each buffered root file is classified against the
flat-note grammars — a header-note match produces no error and no ID
registration, a generic ID-note match registers the ID, and a note matching
neither produces exactly one invalid-JDex-ID-name error.
-/
theorem jdex_layout_conclusion (ign : IgnorePred) (altZeros : Bool)
    (jdexPath : String) :
    (∀ children,
      ((processNestedJdex ign jdexPath children).1.ids ≠ [] ∨
          (processNestedJdex ign jdexPath children).1.errors ≠ [] →
        concludeLayout ign altZeros jdexPath
            (processNestedJdex ign jdexPath children) =
          { (processNestedJdex ign jdexPath children).1 with
            errors := (processNestedJdex ign jdexPath children).1.errors ++
              (processNestedJdex ign jdexPath children).2.map fun n =>
                ⟨.fileOutsideCategory, [mkFile jdexPath [] n]⟩ }) ∧
      ((processNestedJdex ign jdexPath children).1.ids = [] →
        (processNestedJdex ign jdexPath children).1.errors = [] →
        concludeLayout ign altZeros jdexPath
            (processNestedJdex ign jdexPath children) =
          processFlatJdex ign altZeros jdexPath
            (processNestedJdex ign jdexPath children).1
            (processNestedJdex ign jdexPath children).2)) ∧
    (∀ acc name, ign [] name = false →
      ((∃ g, jdexNoteHeaderMatchL name.data = some g) →
        (processFlatFile ign altZeros jdexPath acc name).errors =
            acc.errors ∧
          (processFlatFile ign altZeros jdexPath acc name).ids = acc.ids) ∧
      (∀ g₁ g₂ g₃, jdexNoteHeaderMatchL name.data = none →
        jdexNoteGenericIdMatchL name.data = some (g₁, g₂, g₃) →
        (processFlatFile ign altZeros jdexPath acc name).errors =
            acc.errors ∧
          (processFlatFile ign altZeros jdexPath acc name).ids =
            insertAppend (String.mk g₁ ++ "." ++ String.mk g₂)
              (String.mk g₃, mkFile jdexPath [] name) acc.ids) ∧
      (jdexNoteHeaderMatchL name.data = none →
        jdexNoteGenericIdMatchL name.data = none →
        (processFlatFile ign altZeros jdexPath acc name).errors =
            acc.errors ++ [⟨.invalidIDName, [mkFile jdexPath [] name]⟩] ∧
          (processFlatFile ign altZeros jdexPath acc name).ids = acc.ids)) := by
  constructor
  · intro children
    refine ⟨fun hne => ?_, fun hids herrs => ?_⟩
    · unfold concludeLayout
      rw [if_pos]
      rcases hne with h | h <;>
        simp [List.isEmpty_iff, h]
    · unfold concludeLayout
      rw [if_neg]
      simp [List.isEmpty_iff, hids, herrs]
  · intro acc name hign
    refine ⟨?_, ?_, ?_⟩
    · rintro ⟨g, hm⟩
      unfold processFlatFile
      rw [if_neg (by simp [hign])]
      simp only [hm]
      cases harea : flatAreaMatchL altZeros name.data <;>
        cases hcat : flatCatMatchL altZeros name.data <;>
          simp [harea, hcat]
    · intro g₁ g₂ g₃ hm hg
      unfold processFlatFile
      rw [if_neg (by simp [hign])]
      simp only [hm, hg]
      cases harea : flatAreaMatchL altZeros name.data <;>
        cases hcat : flatCatMatchL altZeros name.data <;>
          simp [harea, hcat]
    · intro hm hg
      unfold processFlatFile
      rw [if_neg (by simp [hign])]
      simp only [hm, hg]
      cases harea : flatAreaMatchL altZeros name.data <;>
        cases hcat : flatCatMatchL altZeros name.data <;>
          simp [harea, hcat]

/-- Witness for C7 at concrete inputs: one nested JDex (with an ID note)
whose buffered root file becomes an error, and one flat note matching no
ID-shaped grammar. -/
theorem jdex_layout_conclusion_witness :
    ((processNestedJdex (fun _ _ => false) "j"
        [.dir "10-19 A" [.dir "11 C" [.file "11.01 N.md"]],
          .file "note"]).1.ids ≠ [] ∧
      concludeLayout (fun _ _ => false) false "j"
          (processNestedJdex (fun _ _ => false) "j"
            [.dir "10-19 A" [.dir "11 C" [.file "11.01 N.md"]],
              .file "note"]) =
        { (processNestedJdex (fun _ _ => false) "j"
            [.dir "10-19 A" [.dir "11 C" [.file "11.01 N.md"]],
              .file "note"]).1 with
          errors :=
            (processNestedJdex (fun _ _ => false) "j"
              [.dir "10-19 A" [.dir "11 C" [.file "11.01 N.md"]],
                .file "note"]).1.errors ++
              [⟨.fileOutsideCategory, [mkFile "j" [] "note"]⟩] }) ∧
    (jdexNoteHeaderMatchL "junk".data = none ∧
      jdexNoteGenericIdMatchL "junk".data = none ∧
      (processFlatFile (fun _ _ => false) false "j" emptyJDexAcc
          "junk").errors =
        [⟨.invalidIDName, [mkFile "j" [] "junk"]⟩]) := by
  constructor
  · refine ⟨by decide, ?_⟩
    have h := ((jdex_layout_conclusion (fun _ _ => false) false "j").1
      [.dir "10-19 A" [.dir "11 C" [.file "11.01 N.md"]], .file "note"]).1
      (Or.inl (by decide))
    rw [h]
    decide
  · refine ⟨by decide, by decide, ?_⟩
    have h := (((jdex_layout_conclusion (fun _ _ => false) false "j").2
      emptyJDexAcc "junk" rfl).2.2 (by decide) (by decide)).1
    rw [h]
    decide

/-! ## Keyed flatMap counting lemmas

Both the header-reconciliation loop and the reconciler emit, per registry
key, a list of at most one error that carries its key in its payload.  Over
a registry with no duplicate keys this pins down exact counts. -/

theorem eq_singleton_of_len_le_one {E : Type} {l : List E}
    (h₁ : l.length ≤ 1) {e : E} (h₂ : e ∈ l) : l = [e] := by
  cases l with
  | nil => simp at h₂
  | cons a rest =>
    cases rest with
    | nil => simp at h₂; rw [h₂]
    | cons b r₂ => simp at h₁

theorem flatMap_key_mem {α E : Type} (keyOf : E → Option String)
    (step : String × α → List E)
    (hkey : ∀ kv e, e ∈ step kv → keyOf e = some kv.1)
    {l : List (String × α)} (hnd : (l.map Prod.fst).Nodup)
    {k : String} {x : α} (hmem : (k, x) ∈ l)
    {e : E} (he : e ∈ l.flatMap step) (hek : keyOf e = some k) :
    e ∈ step (k, x) := by
  induction l with
  | nil => simp at hmem
  | cons kv rest ih =>
    simp only [List.flatMap_cons, List.mem_append] at he
    simp only [List.map_cons, List.nodup_cons] at hnd
    rcases List.mem_cons.mp hmem with h₁ | h₁
    · rcases he with he | he
      · rw [← h₁] at he
        exact he
      · exfalso
        rcases List.mem_flatMap.mp he with ⟨kv₂, hkv₂, he₂⟩
        have h₂ := hkey kv₂ e he₂
        rw [hek] at h₂
        have h₃ : k = kv₂.1 := Option.some_injective _ h₂
        apply hnd.1
        rw [← h₁]
        rw [h₃]
        exact List.mem_map.mpr ⟨kv₂, hkv₂, rfl⟩
    · rcases he with he | he
      · exfalso
        have h₂ := hkey kv e he
        rw [hek] at h₂
        have h₃ : k = kv.1 := Option.some_injective _ h₂
        apply hnd.1
        rw [← h₃]
        exact List.mem_map.mpr ⟨(k, x), h₁, rfl⟩
      · exact ih hnd.2 h₁ he

theorem count_flatMap_key {α E : Type} [DecidableEq E]
    (keyOf : E → Option String) (step : String × α → List E)
    (hkey : ∀ kv e, e ∈ step kv → keyOf e = some kv.1)
    (hlen : ∀ kv, (step kv).length ≤ 1)
    {l : List (String × α)} (hnd : (l.map Prod.fst).Nodup)
    {k : String} {x : α} (hmem : (k, x) ∈ l)
    {e : E} (hin : e ∈ step (k, x)) :
    (l.flatMap step).count e = 1 := by
  induction l with
  | nil => simp at hmem
  | cons kv rest ih =>
    simp only [List.flatMap_cons, List.count_append]
    simp only [List.map_cons, List.nodup_cons] at hnd
    have hek : keyOf e = some k := hkey (k, x) e hin
    rcases List.mem_cons.mp hmem with h₁ | h₁
    · have hstep : step kv = [e] := by
        rw [← h₁]
        exact eq_singleton_of_len_le_one (hlen (k, x)) hin
      rw [hstep]
      have hrest : e ∉ rest.flatMap step := by
        intro hcon
        rcases List.mem_flatMap.mp hcon with ⟨kv₂, hkv₂, he₂⟩
        have h₂ := hkey kv₂ e he₂
        rw [hek] at h₂
        have h₃ : k = kv₂.1 := Option.some_injective _ h₂
        apply hnd.1
        rw [← h₁, h₃]
        exact List.mem_map.mpr ⟨kv₂, hkv₂, rfl⟩
      rw [List.count_eq_zero.mpr hrest]
      simp
    · have hkv : e ∉ step kv := by
        intro hcon
        have h₂ := hkey kv e hcon
        rw [hek] at h₂
        have h₃ : k = kv.1 := Option.some_injective _ h₂
        apply hnd.1
        rw [← h₃]
        exact List.mem_map.mpr ⟨(k, x), h₁, rfl⟩
      rw [List.count_eq_zero.mpr hkv, ih hnd.2 h₁]

/-! ## Header reconciliation — claim C6 (corrected) -/

/-- The header key carried by a header-reconciliation error. -/
def headerErrKey (e : JDexError) : Option String :=
  match e.error with
  | .areaHeaderWithoutArea a => some a
  | .areaHeaderDifferentFromArea a _ => some a
  | _ => none

theorem headerStep_key (areas : Registry)
    (kv : String × List (String × File)) (e : JDexError)
    (he : e ∈ headerStep areas kv) : headerErrKey e = some kv.1 := by
  unfold headerStep at he
  split at he
  · simp at he
    rw [he]
    rfl
  · split at he
    · simp at he
      rw [he]
      rfl
    · simp at he

theorem headerStep_len (areas : Registry)
    (kv : String × List (String × File)) :
    (headerStep areas kv).length ≤ 1 := by
  unfold headerStep
  split
  · simp
  · split <;> simp

/--
C6 counterexample: in the flat JDex {"10.00 A.md", "10.00 B.md",
"10. X.md"}, key "1" has two registered areas and one header whose label
differs from the first area's, and the header-different-from-area error is
nevertheless emitted — refuting that the comparison is skipped whenever the
key has more than one registered entry (header or area).
-/
theorem header_skip_counterexample :
    ((lookupReg "1" (jdexFullAcc (fun _ _ => false) false "jdex"
        [.file "10.00 A.md", .file "10.00 B.md", .file "10. X.md"]).areas
      ).getD []).length = 2 ∧
    ((lookupReg "1" (jdexFullAcc (fun _ _ => false) false "jdex"
        [.file "10.00 A.md", .file "10.00 B.md", .file "10. X.md"]).headers
      ).getD []).length = 1 ∧
    (⟨.areaHeaderDifferentFromArea "1" "10-19 A",
        [mkFile "jdex" [] "10. X.md"]⟩ : JDexError) ∈
      (jdexFullAcc (fun _ _ => false) false "jdex"
        [.file "10.00 A.md", .file "10.00 B.md", .file "10. X.md"]).errors := by
  exact ⟨by decide, by decide, by decide⟩

/--
C6 (amended): for every registered header key, if no area is registered
under that key a header-without-area error is emitted listing the header's
files; a header-different-from-area error is emitted exactly when the key
has exactly one header entry and the header's label differs from the label
of the *first* registered area for that key (the number of registered areas
is not consulted); the comparison is skipped whenever the key has more than
one header entry, and then no header-reconciliation error cites that key.
-/
theorem header_reconciliation_amended (acc : JDexAcc)
    (hnd : (regKeys acc.headers).Nodup) (k : String)
    (files : List (String × File)) (hmem : (k, files) ∈ acc.headers) :
    (lookupReg k acc.areas = none →
      (headerReconErrors acc).count
        ⟨.areaHeaderWithoutArea k, files.map Prod.snd⟩ = 1) ∧
    (∀ areaVs, lookupReg k acc.areas = some areaVs →
      (files.length = 1 → firstLabel files ≠ firstLabel areaVs →
        (headerReconErrors acc).count
          ⟨.areaHeaderDifferentFromArea k
            (printArea k ++ " " ++ firstLabel areaVs),
            files.map Prod.snd⟩ = 1) ∧
      ((files.length ≠ 1 ∨ firstLabel files = firstLabel areaVs) →
        ∀ e ∈ headerReconErrors acc, headerErrKey e ≠ some k)) := by
  constructor
  · intro hnone
    apply count_flatMap_key headerErrKey (headerStep acc.areas)
      (headerStep_key acc.areas) (headerStep_len acc.areas) hnd hmem
    simp [headerStep, hnone]
  · intro areaVs hsome
    constructor
    · intro hlen hne
      apply count_flatMap_key headerErrKey (headerStep acc.areas)
        (headerStep_key acc.areas) (headerStep_len acc.areas) hnd hmem
      simp [headerStep, hsome, hlen, hne]
    · intro hskip e he hek
      have hstep := flatMap_key_mem headerErrKey (headerStep acc.areas)
        (headerStep_key acc.areas) hnd hmem he hek
      rcases hskip with h | h
      · simp [headerStep, hsome, h] at hstep
      · by_cases hl : files.length = 1
        · simp [headerStep, hsome, h, hl] at hstep
        · simp [headerStep, hsome, hl] at hstep

/-- Witness for the amended C6 at a concrete accumulator. -/
theorem header_reconciliation_amended_witness :
    ((regKeys [("1",
        [("X", (⟨"10. X.md", "j/10. X.md", []⟩ : File))])]).Nodup ∧
      ("1", [("X", (⟨"10. X.md", "j/10. X.md", []⟩ : File))]) ∈
        ([("1", [("X", (⟨"10. X.md", "j/10. X.md", []⟩ : File))])] :
          Registry)) ∧
    (headerReconErrors
        { errors := [],
          areas := [],
          categories := [],
          ids := [],
          headers :=
            [("1", [("X", ⟨"10. X.md", "j/10. X.md", []⟩)])] }).count
      ⟨.areaHeaderWithoutArea "1", [⟨"10. X.md", "j/10. X.md", []⟩]⟩ = 1 := by
  refine ⟨⟨by decide, by decide⟩, ?_⟩
  exact (header_reconciliation_amended
    { errors := [], areas := [], categories := [], ids := [],
      headers := [("1", [("X", ⟨"10. X.md", "j/10. X.md", []⟩)])] }
    (by decide) "1" [("X", ⟨"10. X.md", "j/10. X.md", []⟩)] (by decide)).1
    (by decide)

/-! ## The reconciler — claim C4 -/

/-- Error kinds that only the reconciler can produce. -/
def isReconKind : ErrorType → Bool
  | .areaNotInJDex _ => true
  | .areaDifferentFromJDex _ _ => true
  | .categoryNotInJDex _ => true
  | .categoryDifferentFromJDex _ _ => true
  | .idNotInJDex _ => true
  | .idDifferentFromJDex _ _ => true
  | _ => false

theorem idStep_kind (ign : IgnorePred) (acKey : String)
    (nested : List String) (dirPath : String) (e' : FSEntry) :
    ∀ e ∈ (idStep ign acKey nested dirPath e').1,
      isReconKind e.error = false := by
  intro e he
  unfold idStep at he
  split at he
  · simp at he
  · split at he
    · simp at he
      rw [he]
      rfl
    · split at he
      · split at he
        · simp at he
          rw [he]
          rfl
        · simp at he
      · split at he
        · simp at he
          rw [he]
          rfl
        · simp at he
          rw [he]
          rfl

theorem catStep_kind (ign : IgnorePred) (aKey : String) (areaName : String)
    (areaPath : String) (e' : FSEntry) :
    ∀ e ∈ (catStep ign aKey areaName areaPath e').1,
      isReconKind e.error = false := by
  intro e he
  unfold catStep at he
  split at he
  · simp at he
  · split at he
    · simp at he
      rw [he]
      rfl
    · split at he
      · rcases List.mem_flatMap.mp he with ⟨c, _, hc⟩
        exact idStep_kind _ _ _ _ _ e hc
      · split at he
        · simp at he
          rw [he]
          rfl
        · simp at he
          rw [he]
          rfl

theorem areaStep_kind (ign : IgnorePred) (rootPath : String) (e' : FSEntry) :
    ∀ e ∈ (areaStep ign rootPath e').errs, isReconKind e.error = false := by
  intro e he
  unfold areaStep at he
  split at he
  · simp at he
  · split at he
    · simp at he
      rw [he]
      rfl
    · split at he
      · simp only [] at he
        rcases List.mem_flatMap.mp he with ⟨c, _, hc⟩
        exact catStep_kind _ _ _ _ _ e hc
      · simp at he
        rw [he]
        rfl

/-- The walker and the duplicate detector never produce
reconciliation-kind errors. -/
theorem lintDir_no_recon_kinds (ign : IgnorePred) (rootPath : String)
    (cs : List FSEntry) :
    ∀ e ∈ (lintDir ign rootPath cs).errors, isReconKind e.error = false := by
  intro e he
  unfold lintDir at he
  simp only [] at he
  have he₂ := (sortErrors_perm _).mem_iff.mp he
  rcases List.mem_append.mp he₂ with h | h
  · rcases List.mem_append.mp h with h | h
    · rcases List.mem_append.mp h with h | h
      · rw [walkState_eq] at h
        simp only [] at h
        rcases List.mem_flatMap.mp h with ⟨c, _, hc⟩
        exact areaStep_kind _ _ _ e hc
      · rcases (mem_errorIfDups _ _ _).mp h with ⟨kv, _, _, hshape⟩
        rw [hshape]
        rfl
    · rcases (mem_errorIfDups _ _ _).mp h with ⟨kv, _, _, hshape⟩
      rw [hshape]
      rfl
  · rcases (mem_errorIfDups _ _ _).mp h with ⟨kv, _, _, hshape⟩
    rw [hshape]
    rfl

theorem regKeys_applyOps_nodup (reg : Registry) (ops : List RegOp)
    (h : (regKeys reg).Nodup) : (regKeys (applyOps reg ops)).Nodup := by
  induction ops generalizing reg with
  | nil => exact h
  | cons op rest ih =>
    apply ih
    rw [regKeys_insertAppend]
    split
    · exact h
    · rename_i hnotin
      refine h.append (List.nodup_singleton _) ?_
      intro a ha hb
      simp only [List.mem_singleton] at hb
      rw [hb] at ha
      exact hnotin ha

/-- The registries returned by `lint_dir` never repeat a key. -/
theorem lintDir_regKeys_nodup (ign : IgnorePred) (rootPath : String)
    (cs : List FSEntry) :
    (regKeys (lintDir ign rootPath cs).used_areas).Nodup ∧
    (regKeys (lintDir ign rootPath cs).used_categories).Nodup ∧
    (regKeys (lintDir ign rootPath cs).used_ids).Nodup := by
  have h : lintDir ign rootPath cs =
      { errors := (lintDir ign rootPath cs).errors
        used_areas := (walkState ign rootPath cs).used_areas
        used_categories := (walkState ign rootPath cs).used_categories
        used_ids := (walkState ign rootPath cs).used_ids } := rfl
  rw [h, walkState_eq]
  exact ⟨regKeys_applyOps_nodup [] _ (by simp [regKeys]),
    regKeys_applyOps_nodup [] _ (by simp [regKeys]),
    regKeys_applyOps_nodup [] _ (by simp [regKeys])⟩

theorem reconStep_key (mkN : String → ErrorType)
    (mkD : String → String → ErrorType) (keyOf : Error → Option String)
    (hk1 : ∀ k fs, keyOf ⟨mkN k, fs⟩ = some k)
    (hk2 : ∀ k c fs, keyOf ⟨mkD k c, fs⟩ = some k)
    (table : List (String × String)) :
    ∀ kv e, e ∈ reconStep mkN mkD table kv → keyOf e = some kv.1 := by
  intro kv e he
  unfold reconStep at he
  split at he
  · simp at he
    rw [he]
    exact hk1 _ _
  · split at he
    · simp at he
      rw [he]
      exact hk2 _ _ _
    · simp at he

theorem reconStep_len (mkN : String → ErrorType)
    (mkD : String → String → ErrorType) (table : List (String × String))
    (kv : String × List (String × File)) :
    (reconStep mkN mkD table kv).length ≤ 1 := by
  unfold reconStep
  split
  · simp
  · split <;> simp

theorem mem_reconRegistry_shape {mkN : String → ErrorType}
    {mkD : String → String → ErrorType} {table : List (String × String)}
    {reg : Registry} {e : Error}
    (he : e ∈ reconRegistry mkN mkD table reg) :
    (∃ k fs, e = ⟨mkN k, fs⟩) ∨ (∃ k c fs, e = ⟨mkD k c, fs⟩) := by
  rcases List.mem_flatMap.mp he with ⟨kv, _, hstep⟩
  unfold reconStep at hstep
  split at hstep
  · simp at hstep
    exact Or.inl ⟨kv.1, _, hstep⟩
  · split at hstep
    · simp at hstep
      exact Or.inr ⟨kv.1, _, _, hstep⟩
    · simp at hstep

/-- Per-key behaviour of one reconciliation block. -/
theorem reconRegistry_spec (mkN : String → ErrorType)
    (mkD : String → String → ErrorType) (keyOf : Error → Option String)
    (hk1 : ∀ k fs, keyOf ⟨mkN k, fs⟩ = some k)
    (hk2 : ∀ k c fs, keyOf ⟨mkD k c, fs⟩ = some k)
    (table : List (String × String)) (reg : Registry)
    (hnd : (regKeys reg).Nodup) (k : String)
    (vs : List (String × File)) (hmem : (k, vs) ∈ reg) :
    (dictGet k table = none →
      (reconRegistry mkN mkD table reg).count
          ⟨mkN k, vs.map Prod.snd⟩ = 1 ∧
        ∀ e ∈ reconRegistry mkN mkD table reg, keyOf e = some k →
          e = ⟨mkN k, vs.map Prod.snd⟩) ∧
    (∀ canon, dictGet k table = some canon →
      (vs.length = 1 → firstFileName vs ≠ canon →
        (reconRegistry mkN mkD table reg).count
          ⟨mkD k canon, vs.map Prod.snd⟩ = 1) ∧
      ((vs.length ≠ 1 ∨ firstFileName vs = canon) →
        ∀ e ∈ reconRegistry mkN mkD table reg, keyOf e ≠ some k)) := by
  constructor
  · intro hnone
    constructor
    · apply count_flatMap_key keyOf (reconStep mkN mkD table)
        (reconStep_key mkN mkD keyOf hk1 hk2 table)
        (reconStep_len mkN mkD table) hnd hmem
      simp [reconStep, hnone]
    · intro e he hek
      have hstep := flatMap_key_mem keyOf (reconStep mkN mkD table)
        (reconStep_key mkN mkD keyOf hk1 hk2 table) hnd hmem he hek
      simp [reconStep, hnone] at hstep
      exact hstep
  · intro canon hsome
    constructor
    · intro hlen hne
      apply count_flatMap_key keyOf (reconStep mkN mkD table)
        (reconStep_key mkN mkD keyOf hk1 hk2 table)
        (reconStep_len mkN mkD table) hnd hmem
      simp [reconStep, hsome, hlen, hne]
    · intro hskip e he hek
      have hstep := flatMap_key_mem keyOf (reconStep mkN mkD table)
        (reconStep_key mkN mkD keyOf hk1 hk2 table) hnd hmem he hek
      rcases hskip with h | h
      · simp [reconStep, hsome, h] at hstep
      · by_cases hl : vs.length = 1
        · simp [reconStep, hsome, h, hl] at hstep
        · simp [reconStep, hsome, hl] at hstep

/-- The key carried by an area reconciliation error. -/
def areaReconKey : Error → Option String
  | ⟨.areaNotInJDex a, _⟩ => some a
  | ⟨.areaDifferentFromJDex a _, _⟩ => some a
  | _ => none

/-- The key carried by a category reconciliation error. -/
def catReconKey : Error → Option String
  | ⟨.categoryNotInJDex c, _⟩ => some c
  | ⟨.categoryDifferentFromJDex c _, _⟩ => some c
  | _ => none

/-- The key carried by an ID reconciliation error. -/
def idReconKey : Error → Option String
  | ⟨.idNotInJDex i, _⟩ => some i
  | ⟨.idDifferentFromJDex i _, _⟩ => some i
  | _ => none

theorem count_zero_of_no_shape {mkN : String → ErrorType}
    {mkD : String → String → ErrorType} {table : List (String × String)}
    {reg : Registry} (e : Error)
    (h1 : ∀ k fs, e ≠ ⟨mkN k, fs⟩) (h2 : ∀ k c fs, e ≠ ⟨mkD k c, fs⟩) :
    (reconRegistry mkN mkD table reg).count e = 0 := by
  apply List.count_eq_zero.mpr
  intro hmem
  rcases mem_reconRegistry_shape hmem with ⟨k, fs, heq⟩ | ⟨k, c, fs, heq⟩
  · exact h1 k fs heq
  · exact h2 k c fs heq

/--
C4: for every primary registry key during reconciliation against resolved
JDex canonical tables: a key absent from the canonical table yields exactly
one not-in-JDex error carrying all of that key's entries; a present key held
by exactly one entry whose on-disk name differs textually from the canonical
name yields exactly one different-from-JDex error naming the canonical name;
a key held by more than one entry yields no different-from-JDex error; and
when the resolver returned errors instead of tables, no reconciliation error
of any kind is emitted (the primary list is exactly `lint_dir`'s output,
which contains no reconciliation-kind error).
-/
theorem reconciliation_spec (ign : IgnorePred) (altZeros : Bool)
    (rootPath : String) (rootEntries : List FSEntry) (jdexPath : String)
    (jdexInput : JDexInput) :
    (∀ js, getJdexEntries ign altZeros jdexPath jdexInput = .error js →
      lintDirAndJdex ign altZeros rootPath rootEntries jdexPath jdexInput =
        ((lintDir ign rootPath rootEntries).errors, sortJdexErrors js) ∧
      ∀ e ∈ (lintDir ign rootPath rootEntries).errors,
        isReconKind e.error = false) ∧
    (∀ jdex, getJdexEntries ign altZeros jdexPath jdexInput = .ok jdex →
      lintDirAndJdex ign altZeros rootPath rootEntries jdexPath jdexInput =
        (sortErrors ((lintDir ign rootPath rootEntries).errors ++
          reconErrors (lintDir ign rootPath rootEntries) jdex), []) ∧
      (∀ err : Error, isReconKind err.error = true →
        (lintDirAndJdex ign altZeros rootPath rootEntries jdexPath
            jdexInput).1.count err =
          (reconErrors (lintDir ign rootPath rootEntries) jdex).count err) ∧
      (∀ k vs,
        (k, vs) ∈ (lintDir ign rootPath rootEntries).used_areas →
        (dictGet k jdex.areas = none →
          (reconErrors (lintDir ign rootPath rootEntries) jdex).count
            ⟨.areaNotInJDex k, vs.map Prod.snd⟩ = 1) ∧
        (∀ canon, dictGet k jdex.areas = some canon →
          (vs.length = 1 → firstFileName vs ≠ canon →
            (reconErrors (lintDir ign rootPath rootEntries) jdex).count
              ⟨.areaDifferentFromJDex k canon, vs.map Prod.snd⟩ = 1) ∧
          (1 < vs.length → ∀ c fs,
            (⟨.areaDifferentFromJDex k c, fs⟩ : Error) ∉
              reconErrors (lintDir ign rootPath rootEntries) jdex))) ∧
      (∀ k vs,
        (k, vs) ∈ (lintDir ign rootPath rootEntries).used_categories →
        (dictGet k jdex.categories = none →
          (reconErrors (lintDir ign rootPath rootEntries) jdex).count
            ⟨.categoryNotInJDex k, vs.map Prod.snd⟩ = 1) ∧
        (∀ canon, dictGet k jdex.categories = some canon →
          (vs.length = 1 → firstFileName vs ≠ canon →
            (reconErrors (lintDir ign rootPath rootEntries) jdex).count
              ⟨.categoryDifferentFromJDex k canon, vs.map Prod.snd⟩ = 1) ∧
          (1 < vs.length → ∀ c fs,
            (⟨.categoryDifferentFromJDex k c, fs⟩ : Error) ∉
              reconErrors (lintDir ign rootPath rootEntries) jdex))) ∧
      (∀ k vs,
        (k, vs) ∈ (lintDir ign rootPath rootEntries).used_ids →
        (dictGet k jdex.ids = none →
          (reconErrors (lintDir ign rootPath rootEntries) jdex).count
            ⟨.idNotInJDex k, vs.map Prod.snd⟩ = 1) ∧
        (∀ canon, dictGet k jdex.ids = some canon →
          (vs.length = 1 → firstFileName vs ≠ canon →
            (reconErrors (lintDir ign rootPath rootEntries) jdex).count
              ⟨.idDifferentFromJDex k canon, vs.map Prod.snd⟩ = 1) ∧
          (1 < vs.length → ∀ c fs,
            (⟨.idDifferentFromJDex k c, fs⟩ : Error) ∉
              reconErrors (lintDir ign rootPath rootEntries) jdex)))) := by
  constructor
  · intro js herr
    constructor
    · unfold lintDirAndJdex
      rw [herr]
    · exact lintDir_no_recon_kinds ign rootPath rootEntries
  · intro jdex hok
    have hfin : lintDirAndJdex ign altZeros rootPath rootEntries jdexPath
        jdexInput =
        (sortErrors ((lintDir ign rootPath rootEntries).errors ++
          reconErrors (lintDir ign rootPath rootEntries) jdex), []) := by
      unfold lintDirAndJdex
      rw [hok]
    refine ⟨hfin, ?_, ?_, ?_, ?_⟩
    · intro err hkind
      rw [hfin]
      simp only []
      rw [(sortErrors_perm _).count_eq, List.count_append]
      have hzero :
          (lintDir ign rootPath rootEntries).errors.count err = 0 := by
        apply List.count_eq_zero.mpr
        intro hmem
        have h := lintDir_no_recon_kinds ign rootPath rootEntries err hmem
        rw [hkind] at h
        exact absurd h (by simp)
      rw [hzero]
      simp
    · -- areas
      intro k vs hmem
      have hnd := (lintDir_regKeys_nodup ign rootPath rootEntries).1
      have hspec := reconRegistry_spec .areaNotInJDex .areaDifferentFromJDex
        areaReconKey (fun _ _ => rfl) (fun _ _ _ => rfl) jdex.areas
        (lintDir ign rootPath rootEntries).used_areas hnd k vs hmem
      constructor
      · intro hnone
        unfold reconErrors
        rw [List.append_assoc, List.count_append, List.count_append]
        rw [(hspec.1 hnone).1]
        rw [count_zero_of_no_shape _ (by intro k' fs' h; simp at h)
          (by intro k' c' fs' h; simp at h)]
        rw [count_zero_of_no_shape _ (by intro k' fs' h; simp at h)
          (by intro k' c' fs' h; simp at h)]
      · intro canon hsome
        constructor
        · intro hlen hne
          unfold reconErrors
          rw [List.append_assoc, List.count_append, List.count_append]
          rw [((hspec.2 canon hsome).1 hlen hne)]
          rw [count_zero_of_no_shape _ (by intro k' fs' h; simp at h)
            (by intro k' c' fs' h; simp at h)]
          rw [count_zero_of_no_shape _ (by intro k' fs' h; simp at h)
            (by intro k' c' fs' h; simp at h)]
        · intro hgt c fs hmem₂
          unfold reconErrors at hmem₂
          rw [List.append_assoc] at hmem₂
          rcases List.mem_append.mp hmem₂ with h | h
          · exact (hspec.2 canon hsome).2 (Or.inl (by omega)) _ h rfl
          · rcases List.mem_append.mp h with h | h <;>
            · rcases mem_reconRegistry_shape h with ⟨k', fs', heq⟩ |
                ⟨k', c', fs', heq⟩ <;> simp at heq
    · -- categories
      intro k vs hmem
      have hnd := (lintDir_regKeys_nodup ign rootPath rootEntries).2.1
      have hspec := reconRegistry_spec .categoryNotInJDex
        .categoryDifferentFromJDex catReconKey (fun _ _ => rfl)
        (fun _ _ _ => rfl) jdex.categories
        (lintDir ign rootPath rootEntries).used_categories hnd k vs hmem
      constructor
      · intro hnone
        unfold reconErrors
        rw [List.append_assoc, List.count_append, List.count_append]
        rw [(hspec.1 hnone).1]
        rw [count_zero_of_no_shape _ (by intro k' fs' h; simp at h)
          (by intro k' c' fs' h; simp at h)]
        rw [count_zero_of_no_shape _ (by intro k' fs' h; simp at h)
          (by intro k' c' fs' h; simp at h)]
      · intro canon hsome
        constructor
        · intro hlen hne
          unfold reconErrors
          rw [List.append_assoc, List.count_append, List.count_append]
          rw [((hspec.2 canon hsome).1 hlen hne)]
          rw [count_zero_of_no_shape _ (by intro k' fs' h; simp at h)
            (by intro k' c' fs' h; simp at h)]
          rw [count_zero_of_no_shape _ (by intro k' fs' h; simp at h)
            (by intro k' c' fs' h; simp at h)]
        · intro hgt c fs hmem₂
          unfold reconErrors at hmem₂
          rw [List.append_assoc] at hmem₂
          rcases List.mem_append.mp hmem₂ with h | h
          · rcases mem_reconRegistry_shape h with ⟨k', fs', heq⟩ |
              ⟨k', c', fs', heq⟩ <;> simp at heq
          · rcases List.mem_append.mp h with h | h
            · exact (hspec.2 canon hsome).2 (Or.inl (by omega)) _ h rfl
            · rcases mem_reconRegistry_shape h with ⟨k', fs', heq⟩ |
                ⟨k', c', fs', heq⟩ <;> simp at heq
    · -- ids
      intro k vs hmem
      have hnd := (lintDir_regKeys_nodup ign rootPath rootEntries).2.2
      have hspec := reconRegistry_spec .idNotInJDex .idDifferentFromJDex
        idReconKey (fun _ _ => rfl) (fun _ _ _ => rfl) jdex.ids
        (lintDir ign rootPath rootEntries).used_ids hnd k vs hmem
      constructor
      · intro hnone
        unfold reconErrors
        rw [List.append_assoc, List.count_append, List.count_append]
        rw [(hspec.1 hnone).1]
        rw [count_zero_of_no_shape _ (by intro k' fs' h; simp at h)
          (by intro k' c' fs' h; simp at h)]
        rw [count_zero_of_no_shape _ (by intro k' fs' h; simp at h)
          (by intro k' c' fs' h; simp at h)]
      · intro canon hsome
        constructor
        · intro hlen hne
          unfold reconErrors
          rw [List.append_assoc, List.count_append, List.count_append]
          rw [((hspec.2 canon hsome).1 hlen hne)]
          rw [count_zero_of_no_shape _ (by intro k' fs' h; simp at h)
            (by intro k' c' fs' h; simp at h)]
          rw [count_zero_of_no_shape _ (by intro k' fs' h; simp at h)
            (by intro k' c' fs' h; simp at h)]
        · intro hgt c fs hmem₂
          unfold reconErrors at hmem₂
          rw [List.append_assoc] at hmem₂
          rcases List.mem_append.mp hmem₂ with h | h
          · rcases mem_reconRegistry_shape h with ⟨k', fs', heq⟩ |
              ⟨k', c', fs', heq⟩ <;> simp at heq
          · rcases List.mem_append.mp h with h | h
            · rcases mem_reconRegistry_shape h with ⟨k', fs', heq⟩ |
                ⟨k', c', fs', heq⟩ <;> simp at heq
            · exact (hspec.2 canon hsome).2 (Or.inl (by omega)) _ h rfl

/-- Witness for C4: area "1" on disk named "10-19 Life Admin" against a
JDex declaring "10-09 Personal Admin" yields exactly one
area-different-from-JDex error. -/
theorem reconciliation_spec_witness :
    (getJdexEntries (fun _ _ => false) false "j"
        (.singleFile ["10-19 Personal Admin"]) =
      .ok (processSingleFileJdex ["10-19 Personal Admin"]) ∧
      ("1", [("Life Admin",
        mkFile "r" [] "10-19 Life Admin")]) ∈
        (lintDir (fun _ _ => false) "r"
          [.dir "10-19 Life Admin" []]).used_areas ∧
      dictGet "1" (processSingleFileJdex ["10-19 Personal Admin"]).areas =
        some "10-09 Personal Admin" ∧
      firstFileName [("Life Admin", mkFile "r" [] "10-19 Life Admin")] ≠
        "10-09 Personal Admin") ∧
    (reconErrors (lintDir (fun _ _ => false) "r"
        [.dir "10-19 Life Admin" []])
        (processSingleFileJdex ["10-19 Personal Admin"])).count
      ⟨.areaDifferentFromJDex "1" "10-09 Personal Admin",
        [mkFile "r" [] "10-19 Life Admin"]⟩ = 1 := by
  refine ⟨⟨rfl, by decide, by decide, by decide⟩, ?_⟩
  have h := ((reconciliation_spec (fun _ _ => false) false "r"
    [.dir "10-19 Life Admin" []] "j"
    (.singleFile ["10-19 Personal Admin"])).2
    (processSingleFileJdex ["10-19 Personal Admin"]) rfl).2.2.1 "1"
    [("Life Admin", mkFile "r" [] "10-19 Life Admin")] (by decide)
  exact ((h.2 "10-09 Personal Admin" (by decide)).1 (by decide) (by decide))

/-! ## Registry key invariant — claim C10 -/

theorem validAreaMatchL_some {s : List Char} {d : Char} {lbl : List Char}
    (h : validAreaMatchL s = some (d, lbl)) :
    d.isDigit ∧ lbl ≠ [] ∧ noNl lbl = true ∧
      s = d :: '0' :: '-' :: d :: '9' :: ' ' :: lbl := by
  unfold validAreaMatchL at h
  split at h
  · rename_i d₀ d₂ rest
    split at h
    · rename_i hc
      simp only [Bool.and_eq_true, Bool.not_eq_true', decide_eq_true_eq] at hc
      simp only [Option.some_inj, Prod.mk.injEq] at h
      obtain ⟨hd, hr⟩ := h
      refine ⟨?_, ?_, ?_, ?_⟩
      · rw [← hd]
        exact hc.1.1.1
      · rw [← hr]
        intro hcon
        rw [hcon] at hc
        simp at hc
      · rw [← hr]
        exact hc.2
      · rw [← hd, ← hr, hc.1.1.2]
    · simp at h
  · simp at h

theorem validCategoryMatchL_some {a s k lbl : List Char}
    (h : validCategoryMatchL a s = some (k, lbl)) :
    ∃ c, c.isDigit ∧ lbl ≠ [] ∧ noNl lbl = true ∧ k = a ++ [c] ∧
      s = a ++ c :: ' ' :: lbl := by
  unfold validCategoryMatchL at h
  split at h
  · simp at h
  · rename_i r hs
    have hsr := stripLitL_some hs
    split at h
    · rename_i c rest
      split at h
      · rename_i hc
        simp only [Bool.and_eq_true, Bool.not_eq_true'] at hc
        simp only [Option.some_inj, Prod.mk.injEq] at h
        refine ⟨c, hc.1.1, ?_, ?_, ?_, ?_⟩
        · rw [← h.2]
          intro hcon
          rw [hcon] at hc
          simp at hc
        · rw [← h.2]
          exact hc.2
        · rw [← h.1]
        · rw [hsr, ← h.2]
      · simp at h
    · simp at h

theorem mem_regKeys_applyOps (reg : Registry) (ops : List RegOp)
    (k : String) :
    k ∈ regKeys (applyOps reg ops) ↔
      k ∈ regKeys reg ∨ k ∈ ops.map Prod.fst := by
  induction ops generalizing reg with
  | nil => simp [applyOps]
  | cons op rest ih =>
    have hstep : applyOps reg (op :: rest) =
        applyOps (insertAppend op.1 op.2 reg) rest := rfl
    rw [hstep, ih, regKeys_insertAppend]
    by_cases hmem : op.1 ∈ regKeys reg
    · rw [if_pos hmem]
      by_cases hk : k = op.1 <;> simp [hk, hmem]
    · rw [if_neg hmem]
      by_cases hk : k = op.1 <;> simp [hk, List.mem_append]
      all_goals tauto

theorem valsOf_applyOps (reg : Registry) (ops : List RegOp) (k : String) :
    (lookupReg k (applyOps reg ops)).getD [] =
      (lookupReg k reg).getD [] ++
        (ops.filter fun op => decide (op.1 = k)).map Prod.snd := by
  induction ops generalizing reg with
  | nil => simp [applyOps]
  | cons op rest ih =>
    have hstep : applyOps reg (op :: rest) =
        applyOps (insertAppend op.1 op.2 reg) rest := rfl
    rw [hstep, ih]
    by_cases hk : op.1 = k
    · subst hk
      rw [lookupReg_insertAppend_self]
      simp
    · rw [lookupReg_insertAppend_other _ _ _ _ (Ne.symm hk)]
      simp [hk]

theorem idStep_ops_shape (ign : IgnorePred) (acKey : String)
    (nested : List String) (dirPath : String) (c : FSEntry) :
    ∀ op ∈ (idStep ign acKey nested dirPath c).2,
      ∃ d₁ d₂, d₁.isDigit ∧ d₂.isDigit ∧
        op.1 = String.mk (acKey.data ++ ['.', d₁, d₂]) := by
  intro op hop
  by_cases hig : ign nested c.name
  · simp [idStep, hig] at hop
  · cases c with
    | file n =>
      simp only [FSEntry.name] at hig
      simp [idStep, FSEntry.name, hig] at hop
    | dir n children =>
      simp only [FSEntry.name] at hig
      cases hm : validIdMatchL acKey.data n.data with
      | some kl =>
        obtain ⟨k, lbl⟩ := kl
        simp only [idStep, FSEntry.name, hig, Bool.false_eq_true, if_false,
          hm, List.mem_singleton] at hop
        rcases validIdMatchL_some hm with ⟨d₁, d₂, hd₁, hd₂, _, _, hk, _⟩
        refine ⟨d₁, d₂, hd₁, hd₂, ?_⟩
        rw [hop]
        simp only []
        rw [hk]
      | none =>
        cases hg : genericIdMatchL n.data with
        | some g => simp [idStep, FSEntry.name, hig, hm, hg] at hop
        | none => simp [idStep, FSEntry.name, hig, hm, hg] at hop

theorem catStep_ops_shape (ign : IgnorePred) (aKey : String)
    (areaName : String) (areaPath : String) (c : FSEntry) :
    (∀ op ∈ (catStep ign aKey areaName areaPath c).2.1,
      ∃ ch, ch.isDigit ∧ op.1 = String.mk (aKey.data ++ [ch])) ∧
    (∀ op ∈ (catStep ign aKey areaName areaPath c).2.2,
      ∃ op₂ ∈ (catStep ign aKey areaName areaPath c).2.1, ∃ d₁ d₂,
        d₁.isDigit ∧ d₂.isDigit ∧
        op.1 = String.mk (op₂.1.data ++ ['.', d₁, d₂])) := by
  by_cases hig : ign [areaName] c.name
  · constructor <;> intro op hop <;> simp [catStep, hig] at hop
  · cases c with
    | file n =>
      simp only [FSEntry.name] at hig
      constructor <;> intro op hop <;> simp [catStep, FSEntry.name, hig] at hop
    | dir n children =>
      simp only [FSEntry.name] at hig
      cases hm : validCategoryMatchL aKey.data n.data with
      | some kl =>
        obtain ⟨k, lbl⟩ := kl
        constructor
        · intro op hop
          simp only [catStep, FSEntry.name, hig, Bool.false_eq_true,
            if_false, hm, List.mem_singleton] at hop
          rcases validCategoryMatchL_some hm with ⟨ch, hch, _, _, hk, _⟩
          refine ⟨ch, hch, ?_⟩
          rw [hop]
          simp only []
          rw [hk]
        · intro op hop
          simp only [catStep, FSEntry.name, hig, Bool.false_eq_true,
            if_false, hm] at hop ⊢
          rcases List.mem_flatMap.mp hop with ⟨gc, _, hgc⟩
          rcases idStep_ops_shape ign (String.mk k) [areaName, n]
            (areaPath ++ "/" ++ n) gc op hgc with ⟨d₁, d₂, hd₁, hd₂, hshape⟩
          exact ⟨(String.mk k,
            (String.mk lbl, mkFile areaPath [areaName] n)),
            List.mem_singleton.mpr rfl, d₁, d₂, hd₁, hd₂, hshape⟩
      | none =>
        cases hg : genericCategoryMatchL n.data with
        | some g =>
          constructor <;> intro op hop <;>
            simp [catStep, FSEntry.name, hig, hm, hg] at hop
        | none =>
          constructor <;> intro op hop <;>
            simp [catStep, FSEntry.name, hig, hm, hg] at hop

theorem areaStep_ops_shape (ign : IgnorePred) (rootPath : String)
    (e : FSEntry) :
    (∀ op ∈ (areaStep ign rootPath e).areaOps,
      ∃ d, d.isDigit ∧ op.1 = String.mk [d]) ∧
    (∀ op ∈ (areaStep ign rootPath e).catOps,
      ∃ a ch, a.isDigit ∧ ch.isDigit ∧ op.1 = String.mk [a, ch] ∧
        ∃ op₂ ∈ (areaStep ign rootPath e).areaOps,
          op₂.1 = String.mk [a]) ∧
    (∀ op ∈ (areaStep ign rootPath e).idOps,
      ∃ op₂ ∈ (areaStep ign rootPath e).catOps, ∃ d₁ d₂,
        d₁.isDigit ∧ d₂.isDigit ∧
        op.1 = String.mk (op₂.1.data ++ ['.', d₁, d₂])) := by
  by_cases hig : ign [] e.name
  · refine ⟨?_, ?_, ?_⟩ <;> intro op hop <;> simp [areaStep, hig] at hop
  · cases e with
    | file n =>
      simp only [FSEntry.name] at hig
      refine ⟨?_, ?_, ?_⟩ <;> intro op hop <;> simp [areaStep, FSEntry.name, hig] at hop
    | dir n children =>
      simp only [FSEntry.name] at hig
      cases hm : validAreaMatchL n.data with
      | some dl =>
        obtain ⟨d, lbl⟩ := dl
        have hd := (validAreaMatchL_some hm).1
        refine ⟨?_, ?_, ?_⟩
        · intro op hop
          simp only [areaStep, FSEntry.name, hig, Bool.false_eq_true,
            if_false, hm, List.mem_singleton] at hop
          exact ⟨d, hd, by rw [hop]⟩
        · intro op hop
          simp only [areaStep, FSEntry.name, hig, Bool.false_eq_true,
            if_false, hm] at hop ⊢
          rcases List.mem_flatMap.mp hop with ⟨c, _, hc⟩
          rcases (catStep_ops_shape ign (String.mk [d]) n
            (rootPath ++ "/" ++ n) c).1 op hc with ⟨ch, hch, hshape⟩
          exact ⟨d, ch, hd, hch, hshape,
            (String.mk [d], (String.mk lbl, mkFile rootPath [] n)),
            List.mem_singleton.mpr rfl, rfl⟩
        · intro op hop
          simp only [areaStep, FSEntry.name, hig, Bool.false_eq_true,
            if_false, hm] at hop ⊢
          rcases List.mem_flatMap.mp hop with ⟨c, hcmem, hc⟩
          rcases (catStep_ops_shape ign (String.mk [d]) n
            (rootPath ++ "/" ++ n) c).2 op hc with
            ⟨op₂, hop₂, d₁, d₂, hd₁, hd₂, hshape⟩
          exact ⟨op₂, List.mem_flatMap.mpr ⟨c, hcmem, hop₂⟩,
            d₁, d₂, hd₁, hd₂, hshape⟩
      | none =>
        refine ⟨?_, ?_, ?_⟩ <;> intro op hop <;>
          simp [areaStep, FSEntry.name, hig, hm] at hop

/--
C10: the registries returned by `lint_dir` satisfy the well-formed-key
invariant: every `used_areas` key is a single decimal digit; every
`used_categories` key is a two-digit string whose first digit is a key
present in `used_areas`; and every `used_ids` key has the form "cc.dd" with
"cc" a key present in `used_categories` and "dd" two digits.
-/
theorem registry_key_invariant (ign : IgnorePred) (rootPath : String)
    (cs : List FSEntry) :
    (∀ k vs, (k, vs) ∈ (lintDir ign rootPath cs).used_areas →
      ∃ d, d.isDigit ∧ k = String.mk [d]) ∧
    (∀ k vs, (k, vs) ∈ (lintDir ign rootPath cs).used_categories →
      ∃ a c, a.isDigit ∧ c.isDigit ∧ k = String.mk [a, c] ∧
        String.mk [a] ∈ regKeys (lintDir ign rootPath cs).used_areas) ∧
    (∀ k vs, (k, vs) ∈ (lintDir ign rootPath cs).used_ids →
      ∃ cc d₁ d₂, cc ∈ regKeys (lintDir ign rootPath cs).used_categories ∧
        d₁.isDigit ∧ d₂.isDigit ∧
        k = String.mk (cc.data ++ ['.', d₁, d₂])) := by
  have hdir : ∀ r : LintResults, r = lintDir ign rootPath cs →
      r.used_areas = (walkState ign rootPath cs).used_areas ∧
      r.used_categories = (walkState ign rootPath cs).used_categories ∧
      r.used_ids = (walkState ign rootPath cs).used_ids := by
    intro r hr
    rw [hr]
    exact ⟨rfl, rfl, rfl⟩
  obtain ⟨hA, hC, hI⟩ := hdir _ rfl
  rw [walkState_eq] at hA hC hI
  refine ⟨?_, ?_, ?_⟩
  · intro k vs hmem
    have hk : k ∈ regKeys (lintDir ign rootPath cs).used_areas :=
      List.mem_map.mpr ⟨(k, vs), hmem, rfl⟩
    rw [hA] at hk
    rcases (mem_regKeys_applyOps _ _ _).mp hk with h | h
    · simp [regKeys] at h
    · rcases List.mem_map.mp h with ⟨op, hop, hk₂⟩
      rcases List.mem_flatMap.mp hop with ⟨e, _, hope⟩
      rcases (areaStep_ops_shape ign rootPath e).1 op hope with ⟨d, hd, hs⟩
      exact ⟨d, hd, by rw [← hk₂, hs]⟩
  · intro k vs hmem
    have hk : k ∈ regKeys (lintDir ign rootPath cs).used_categories :=
      List.mem_map.mpr ⟨(k, vs), hmem, rfl⟩
    rw [hC] at hk
    rcases (mem_regKeys_applyOps _ _ _).mp hk with h | h
    · simp [regKeys] at h
    · rcases List.mem_map.mp h with ⟨op, hop, hk₂⟩
      rcases List.mem_flatMap.mp hop with ⟨e, hemem, hope⟩
      rcases (areaStep_ops_shape ign rootPath e).2.1 op hope with
        ⟨a, ch, ha, hch, hs, op₂, hop₂, hs₂⟩
      refine ⟨a, ch, ha, hch, by rw [← hk₂, hs], ?_⟩
      rw [hA]
      apply (mem_regKeys_applyOps _ _ _).mpr
      right
      rw [← hs₂]
      exact List.mem_map.mpr ⟨op₂,
        List.mem_flatMap.mpr ⟨e, hemem, hop₂⟩, rfl⟩
  · intro k vs hmem
    have hk : k ∈ regKeys (lintDir ign rootPath cs).used_ids :=
      List.mem_map.mpr ⟨(k, vs), hmem, rfl⟩
    rw [hI] at hk
    rcases (mem_regKeys_applyOps _ _ _).mp hk with h | h
    · simp [regKeys] at h
    · rcases List.mem_map.mp h with ⟨op, hop, hk₂⟩
      rcases List.mem_flatMap.mp hop with ⟨e, hemem, hope⟩
      rcases (areaStep_ops_shape ign rootPath e).2.2 op hope with
        ⟨op₂, hop₂, d₁, d₂, hd₁, hd₂, hs⟩
      refine ⟨op₂.1, d₁, d₂, ?_, hd₁, hd₂, by rw [← hk₂, hs]⟩
      rw [hC]
      apply (mem_regKeys_applyOps _ _ _).mpr
      right
      exact List.mem_map.mpr ⟨op₂,
        List.mem_flatMap.mpr ⟨e, hemem, hop₂⟩, rfl⟩

/-- Witness for C10 at a concrete tree. -/
theorem registry_key_invariant_witness :
    (("11", [("P",
        mkFile "r/10-19 A" ["10-19 A"] "11 P")]) ∈
      (lintDir (fun _ _ => false) "r"
        [.dir "10-19 A" [.dir "11 P" []]]).used_categories) ∧
    (∃ a c, a.isDigit ∧ c.isDigit ∧ ("11" : String) = String.mk [a, c] ∧
      String.mk [a] ∈ regKeys (lintDir (fun _ _ => false) "r"
        [.dir "10-19 A" [.dir "11 P" []]]).used_areas) := by
  refine ⟨by decide, ?_⟩
  exact (registry_key_invariant (fun _ _ => false) "r"
    [.dir "10-19 A" [.dir "11 P" []]]).2.1 "11"
    [("P", mkFile "r/10-19 A" ["10-19 A"] "11 P")] (by decide)

/-! ## Determinism of the final error list — claim C9

"The same unchanged tree under a different filesystem iteration order" is a
forest whose sibling lists are permuted at every level the walker visits,
with the subtrees otherwise identical.  On a real filesystem sibling names
are unique, which is the well-formedness assumption below. -/

/-- Same tree up to sibling iteration order, to nesting depth `d`: at depth
0 the snapshots must be identical; otherwise names agree and the child
lists are pointwise-related permutations of each other. -/
def SameTreeD : Nat → FSEntry → FSEntry → Prop
  | 0, t₁, t₂ => t₁ = t₂
  | _ + 1, .file n₁, .file n₂ => n₁ = n₂
  | d + 1, .dir n₁ c₁, .dir n₂ c₂ =>
    n₁ = n₂ ∧ ∃ c', List.Forall₂ (SameTreeD d) c₁ c' ∧ List.Perm c' c₂
  | _ + 1, .file _, .dir _ _ => False
  | _ + 1, .dir _ _, .file _ => False

/-- Two scan orders of the same root: depth 3 covers every level `lint_dir`
recurses into (area, category, ID, and the counted ID contents). -/
def SameForest (l₁ l₂ : List FSEntry) : Prop :=
  ∃ l', List.Forall₂ (SameTreeD 3) l₁ l' ∧ List.Perm l' l₂

/-- The names of a sibling list. -/
def dirNames (l : List FSEntry) : List String := l.map FSEntry.name

/-- Sibling names are unique at every level the walker visits. -/
def ForestWf (cs : List FSEntry) : Prop :=
  (dirNames cs).Nodup ∧
    ∀ e ∈ cs, ∀ n cats, e = FSEntry.dir n cats →
      (dirNames cats).Nodup ∧
        ∀ c ∈ cats, ∀ m ids, c = FSEntry.dir m ids → (dirNames ids).Nodup

theorem sameTreeD_name_eq {d : Nat} {t₁ t₂ : FSEntry}
    (h : SameTreeD (d + 1) t₁ t₂) : t₁.name = t₂.name := by
  cases t₁ <;> cases t₂ <;> simp_all [SameTreeD, FSEntry.name]

theorem sameTreeD_len_eq {d : Nat} {n₁ n₂ : String}
    {c₁ c₂ : List FSEntry} (h : SameTreeD (d + 1) (.dir n₁ c₁) (.dir n₂ c₂)) :
    c₁.length = c₂.length := by
  obtain ⟨-, c', hf, hp⟩ := h
  rw [hf.length_eq, hp.length_eq]

theorem flatMap_perm_of_forall₂ {β : Type} (f : FSEntry → List β)
    {r : FSEntry → FSEntry → Prop}
    (hf : ∀ t₁ t₂, r t₁ t₂ → List.Perm (f t₁) (f t₂))
    {l₁ l' : List FSEntry} (h : List.Forall₂ r l₁ l') :
    List.Perm (l₁.flatMap f) (l'.flatMap f) := by
  induction h with
  | nil => exact List.Perm.refl _
  | cons ht _ ih =>
    simp only [List.flatMap_cons]
    exact (hf _ _ ht).append ih

theorem sameForest_flatMap_perm {β : Type} (f : FSEntry → List β)
    (hf : ∀ t₁ t₂, SameTreeD 3 t₁ t₂ → List.Perm (f t₁) (f t₂))
    {l₁ l₂ : List FSEntry} (h : SameForest l₁ l₂) :
    List.Perm (l₁.flatMap f) (l₂.flatMap f) := by
  obtain ⟨l', hforall, hperm⟩ := h
  exact (flatMap_perm_of_forall₂ f hf hforall).trans
    (hperm.flatMap_right f)

/-- `idStep` depends only on the entry's name and child count, so it is
identical on related snapshots. -/
theorem idStep_eq_of_same (ign : IgnorePred) (acKey : String)
    (nested : List String) (dirPath : String) {d : Nat} {t₁ t₂ : FSEntry}
    (h : SameTreeD (d + 1) t₁ t₂) :
    idStep ign acKey nested dirPath t₁ =
      idStep ign acKey nested dirPath t₂ := by
  cases t₁ with
  | file n₁ =>
    cases t₂ with
    | file n₂ =>
      have : n₁ = n₂ := h
      rw [this]
    | dir n₂ c₂ => exact absurd h (by simp [SameTreeD])
  | dir n₁ c₁ =>
    cases t₂ with
    | file n₂ => exact absurd h (by simp [SameTreeD])
    | dir n₂ c₂ =>
      have hn : n₁ = n₂ := h.1
      have hl : c₁.length = c₂.length := sameTreeD_len_eq h
      subst hn
      unfold idStep
      simp only [FSEntry.name]
      rw [hl]

theorem catStep_perm_of_same (ign : IgnorePred) (aKey : String)
    (areaName : String) (areaPath : String) {t₁ t₂ : FSEntry}
    (h : SameTreeD 2 t₁ t₂) :
    List.Perm (catStep ign aKey areaName areaPath t₁).1
        (catStep ign aKey areaName areaPath t₂).1 ∧
    (catStep ign aKey areaName areaPath t₁).2.1 =
      (catStep ign aKey areaName areaPath t₂).2.1 ∧
    List.Perm (catStep ign aKey areaName areaPath t₁).2.2
      (catStep ign aKey areaName areaPath t₂).2.2 := by
  cases t₁ with
  | file n₁ =>
    cases t₂ with
    | file n₂ =>
      have : n₁ = n₂ := h
      rw [this]
      exact ⟨List.Perm.refl _, rfl, List.Perm.refl _⟩
    | dir n₂ c₂ => exact absurd h (by simp [SameTreeD])
  | dir n₁ c₁ =>
    cases t₂ with
    | file n₂ => exact absurd h (by simp [SameTreeD])
    | dir n₂ c₂ =>
      have hn : n₁ = n₂ := h.1
      subst hn
      obtain ⟨-, c', hforall, hperm⟩ := h
      have hchild : ∀ f : FSEntry → List RegOp,
          (∀ u₁ u₂, SameTreeD 1 u₁ u₂ → f u₁ = f u₂) →
          True := fun _ _ => trivial
      unfold catStep
      simp only [FSEntry.name]
      by_cases hig : ign [areaName] n₁
      · simp [hig]
      · simp only [hig, Bool.false_eq_true, if_false]
        cases hm : validCategoryMatchL aKey.data n₁.data with
        | some kl =>
          obtain ⟨k, lbl⟩ := kl
          simp only []
          have herr : List.Perm
              (c₁.flatMap (fun c => (idStep ign (String.mk k) [areaName, n₁]
                (areaPath ++ "/" ++ n₁) c).1))
              (c₂.flatMap (fun c => (idStep ign (String.mk k) [areaName, n₁]
                (areaPath ++ "/" ++ n₁) c).1)) := by
            refine (flatMap_perm_of_forall₂ _ ?_ hforall).trans
              (hperm.flatMap_right _)
            intro u₁ u₂ hu
            rw [idStep_eq_of_same ign (String.mk k) [areaName, n₁]
              (areaPath ++ "/" ++ n₁) hu]
          have hops : List.Perm
              (c₁.flatMap (fun c => (idStep ign (String.mk k) [areaName, n₁]
                (areaPath ++ "/" ++ n₁) c).2))
              (c₂.flatMap (fun c => (idStep ign (String.mk k) [areaName, n₁]
                (areaPath ++ "/" ++ n₁) c).2)) := by
            refine (flatMap_perm_of_forall₂ _ ?_ hforall).trans
              (hperm.flatMap_right _)
            intro u₁ u₂ hu
            rw [idStep_eq_of_same ign (String.mk k) [areaName, n₁]
              (areaPath ++ "/" ++ n₁) hu]
          exact ⟨herr, by trivial, hops⟩
        | none =>
          cases hg : genericCategoryMatchL n₁.data <;>
            exact ⟨List.Perm.refl _, rfl, List.Perm.refl _⟩

theorem areaStep_perm_of_same (ign : IgnorePred) (rootPath : String)
    {t₁ t₂ : FSEntry} (h : SameTreeD 3 t₁ t₂) :
    List.Perm (areaStep ign rootPath t₁).errs
        (areaStep ign rootPath t₂).errs ∧
    (areaStep ign rootPath t₁).areaOps =
      (areaStep ign rootPath t₂).areaOps ∧
    List.Perm (areaStep ign rootPath t₁).catOps
        (areaStep ign rootPath t₂).catOps ∧
    List.Perm (areaStep ign rootPath t₁).idOps
      (areaStep ign rootPath t₂).idOps := by
  cases t₁ with
  | file n₁ =>
    cases t₂ with
    | file n₂ =>
      have : n₁ = n₂ := h
      rw [this]
      exact ⟨List.Perm.refl _, rfl, List.Perm.refl _, List.Perm.refl _⟩
    | dir n₂ c₂ => exact absurd h (by simp [SameTreeD])
  | dir n₁ c₁ =>
    cases t₂ with
    | file n₂ => exact absurd h (by simp [SameTreeD])
    | dir n₂ c₂ =>
      have hn : n₁ = n₂ := h.1
      subst hn
      obtain ⟨-, c', hforall, hperm⟩ := h
      unfold areaStep
      simp only [FSEntry.name]
      by_cases hig : ign [] n₁
      · simp [hig]
      · simp only [hig, Bool.false_eq_true, if_false]
        cases hm : validAreaMatchL n₁.data with
        | some dl =>
          obtain ⟨d, lbl⟩ := dl
          simp only []
          refine ⟨?_, by trivial, ?_, ?_⟩
          · refine (flatMap_perm_of_forall₂ _ ?_ hforall).trans
              (hperm.flatMap_right _)
            intro u₁ u₂ hu
            exact (catStep_perm_of_same ign (String.mk [d]) n₁
              (rootPath ++ "/" ++ n₁) hu).1
          · refine (flatMap_perm_of_forall₂ _ ?_ hforall).trans
              (hperm.flatMap_right _)
            intro u₁ u₂ hu
            rw [(catStep_perm_of_same ign (String.mk [d]) n₁
              (rootPath ++ "/" ++ n₁) hu).2.1]
          · refine (flatMap_perm_of_forall₂ _ ?_ hforall).trans
              (hperm.flatMap_right _)
            intro u₁ u₂ hu
            exact (catStep_perm_of_same ign (String.mk [d]) n₁
              (rootPath ++ "/" ++ n₁) hu).2.2
        | none =>
          exact ⟨List.Perm.refl _, rfl, List.Perm.refl _, List.Perm.refl _⟩

/-- The traversal contributions of the two snapshots are permutations of
each other. -/
theorem walk_perm_of_same (ign : IgnorePred) (rootPath : String)
    {cs₁ cs₂ : List FSEntry} (h : SameForest cs₁ cs₂) :
    List.Perm (cs₁.flatMap (fun c => (areaStep ign rootPath c).errs))
        (cs₂.flatMap (fun c => (areaStep ign rootPath c).errs)) ∧
    List.Perm (cs₁.flatMap (fun c => (areaStep ign rootPath c).areaOps))
        (cs₂.flatMap (fun c => (areaStep ign rootPath c).areaOps)) ∧
    List.Perm (cs₁.flatMap (fun c => (areaStep ign rootPath c).catOps))
        (cs₂.flatMap (fun c => (areaStep ign rootPath c).catOps)) ∧
    List.Perm (cs₁.flatMap (fun c => (areaStep ign rootPath c).idOps))
      (cs₂.flatMap (fun c => (areaStep ign rootPath c).idOps)) :=
  ⟨sameForest_flatMap_perm _
      (fun _ _ hu => (areaStep_perm_of_same ign rootPath hu).1) h,
    sameForest_flatMap_perm _
      (fun _ _ hu => by rw [(areaStep_perm_of_same ign rootPath hu).2.1]) h,
    sameForest_flatMap_perm _
      (fun _ _ hu => (areaStep_perm_of_same ign rootPath hu).2.2.1) h,
    sameForest_flatMap_perm _
      (fun _ _ hu => (areaStep_perm_of_same ign rootPath hu).2.2.2) h⟩

theorem cmp_eq_of_le_le {α : Type} {c : α → α → Ordering} (hlaw : LawCmp c)
    {a b : α} (h₁ : c a b ≠ .gt) (h₂ : c b a ≠ .gt) : c a b = .eq := by
  have hs := hlaw.symm a b
  cases hc : c b a
  · rw [hc] at hs
    simp only [Ordering.swap] at hs
    exact absurd hs h₁
  · rw [hc] at hs
    simpa [Ordering.swap] using hs
  · exact absurd hc h₂

/-- A stable sort of a list whose sort keys never repeat is independent of
the input order. -/
theorem sortErrors_eq_of_perm_nodup {L₁ L₂ : List Error}
    (hperm : List.Perm L₁ L₂) (hnd : (L₁.map sortErrorKey).Nodup) :
    sortErrors L₁ = sortErrors L₂ := by
  have hanti : ∀ a b, a ∈ sortErrors L₁ → b ∈ sortErrors L₂ →
      errLe a b → errLe b a → a = b := by
    intro a b ha hb hab hba
    have ha₁ : a ∈ L₁ := (sortErrors_perm L₁).subset ha
    have hb₁ : b ∈ L₁ := hperm.symm.subset ((sortErrors_perm L₂).subset hb)
    have hkey : sortErrorKey a = sortErrorKey b :=
      lawCmpErrKey.eq_eq (cmp_eq_of_le_le lawCmpErrKey hab hba)
    exact List.inj_on_of_nodup_map hnd ha₁ hb₁ hkey
  exact List.Perm.eq_of_sorted hanti (sortErrors_sorted L₁)
    (sortErrors_sorted L₂)
    (((sortErrors_perm L₁).trans hperm).trans (sortErrors_perm L₂).symm)

theorem sortFiles_eq_of_perm_nodup {v₁ v₂ : List File}
    (hperm : List.Perm v₁ v₂) (hnd : (v₁.map sortFileKey).Nodup) :
    sortFiles v₁ = sortFiles v₂ := by
  have hanti : ∀ a b, a ∈ sortFiles v₁ → b ∈ sortFiles v₂ →
      fileLe a b → fileLe b a → a = b := by
    intro a b ha hb hab hba
    have ha₁ : a ∈ v₁ := (sortFiles_perm v₁).subset ha
    have hb₁ : b ∈ v₁ := hperm.symm.subset ((sortFiles_perm v₂).subset hb)
    have hkey : sortFileKey a = sortFileKey b :=
      lawCmpFileKey.eq_eq (cmp_eq_of_le_le lawCmpFileKey hab hba)
    exact List.inj_on_of_nodup_map hnd ha₁ hb₁ hkey
  exact List.Perm.eq_of_sorted hanti (sortFiles_sorted v₁)
    (sortFiles_sorted v₂)
    (((sortFiles_perm v₁).trans hperm).trans (sortFiles_perm v₂).symm)

theorem nodup_flatMap_of_disjoint {α γ : Type} (f : α → List γ)
    (l : List α) (hn : ∀ a ∈ l, (f a).Nodup)
    (hdisj : l.Pairwise fun a b => ∀ x ∈ f a, x ∉ f b) :
    (l.flatMap f).Nodup := by
  induction l with
  | nil => simp
  | cons a rest ih =>
    simp only [List.flatMap_cons]
    apply List.Nodup.append
    · exact hn a (by simp)
    · exact ih (fun b hb => hn b (by simp [hb])) (List.Pairwise.of_cons hdisj)
    · intro x hxa hxr
      rcases List.mem_flatMap.mp hxr with ⟨b, hb, hxb⟩
      exact (List.rel_of_pairwise_cons hdisj hb) x hxa hxb

theorem flatMap_map_sublist {α β γ : Type} (f : α → List β) (g : β → γ)
    (h : α → γ) (hlen : ∀ a, (f a).length ≤ 1)
    (hval : ∀ a, ∀ b ∈ f a, g b = h a) (l : List α) :
    ((l.flatMap f).map g).Sublist (l.map h) := by
  induction l with
  | nil => simp
  | cons a rest ih =>
    simp only [List.flatMap_cons, List.map_append, List.map_cons]
    cases hfa : f a with
    | nil =>
      simp only [List.map_nil, List.nil_append]
      exact ih.cons _
    | cons b rest₂ =>
      have hr₂ : rest₂ = [] := by
        have := hlen a
        rw [hfa] at this
        simp at this
        exact this
      subst hr₂
      have hg : g b = h a := hval a b (by rw [hfa]; simp)
      simp only [List.map_cons, List.map_nil, List.nil_append,
        List.cons_append, hg]
      exact ih.cons₂ _

/-- The file-key list of an error (its position key in the sort order). -/
def errFileKeys (e : Error) : List (List String × String) :=
  e.files.map sortFileKey

theorem nodup_map_of_names {γ : Type} (l : List FSEntry) (h : FSEntry → γ)
    (hdet : ∀ a b, h a = h b → FSEntry.name a = FSEntry.name b)
    (hnd : (dirNames l).Nodup) : (l.map h).Nodup := by
  have hnd₂ : l.Pairwise (fun a b => FSEntry.name a ≠ FSEntry.name b) :=
    List.pairwise_map.mp hnd
  exact List.pairwise_map.mpr
    (hnd₂.imp fun hne heq => hne (hdet _ _ heq))

theorem idStep_bounds (ign : IgnorePred) (acKey : String)
    (nested : List String) (dirPath : String) (c : FSEntry) :
    (idStep ign acKey nested dirPath c).1.length ≤ 1 ∧
    (idStep ign acKey nested dirPath c).2.length ≤ 1 ∧
    (∀ e ∈ (idStep ign acKey nested dirPath c).1,
      errFileKeys e = [(nested, c.name)]) ∧
    (∀ op ∈ (idStep ign acKey nested dirPath c).2,
      sortFileKey op.2.2 = (nested, c.name)) := by
  by_cases hig : ign nested c.name
  · simp [idStep, hig]
  · cases c with
    | file n =>
      simp only [FSEntry.name] at hig
      simp [idStep, FSEntry.name, hig, errFileKeys, mkFile, sortFileKey]
    | dir n children =>
      simp only [FSEntry.name] at hig
      cases hm : validIdMatchL acKey.data n.data with
      | some kl =>
        obtain ⟨k, lbl⟩ := kl
        simp only [idStep, FSEntry.name, hig, Bool.false_eq_true, if_false,
          hm]
        constructor
        · split <;> simp
        constructor
        · simp
        constructor
        · intro e he
          split at he <;> simp at he <;>
            simp [he, errFileKeys, mkFile, sortFileKey]
        · intro op hop
          simp at hop
          simp [hop, mkFile, sortFileKey]
      | none =>
        cases hg : genericIdMatchL n.data with
        | some g =>
          obtain ⟨g₁, g₂, g₃⟩ := g
          simp [idStep, FSEntry.name, hig, hm, hg, errFileKeys, mkFile,
            sortFileKey]
        | none =>
          simp [idStep, FSEntry.name, hig, hm, hg, errFileKeys, mkFile,
            sortFileKey]

theorem catStep_bounds (ign : IgnorePred) (aKey : String)
    (areaName : String) (areaPath : String) (c : FSEntry) :
    (catStep ign aKey areaName areaPath c).2.1.length ≤ 1 ∧
    (∀ op ∈ (catStep ign aKey areaName areaPath c).2.1,
      sortFileKey op.2.2 = ([areaName], c.name)) ∧
    (∀ op ∈ (catStep ign aKey areaName areaPath c).2.2,
      (sortFileKey op.2.2).1 = [areaName, c.name]) ∧
    (∀ e ∈ (catStep ign aKey areaName areaPath c).1, ∃ fk,
      errFileKeys e = [fk] ∧
        (fk = (([areaName], c.name) : List String × String) ∨
          fk.1 = [areaName, c.name])) := by
  by_cases hig : ign [areaName] c.name
  · simp [catStep, hig]
  · cases c with
    | file n =>
      simp only [FSEntry.name] at hig
      simp [catStep, FSEntry.name, hig, errFileKeys, mkFile, sortFileKey]
      exact ⟨[areaName], n, ⟨rfl, rfl⟩, Or.inl ⟨rfl, rfl⟩⟩
    | dir n children =>
      simp only [FSEntry.name] at hig
      cases hm : validCategoryMatchL aKey.data n.data with
      | some kl =>
        obtain ⟨k, lbl⟩ := kl
        simp only [catStep, FSEntry.name, hig, Bool.false_eq_true, if_false,
          hm]
        refine ⟨by simp, ?_, ?_, ?_⟩
        · intro op hop
          simp at hop
          simp [hop, mkFile, sortFileKey]
        · intro op hop
          rcases List.mem_flatMap.mp hop with ⟨gc, _, hgc⟩
          rw [(idStep_bounds ign (String.mk k) [areaName, n]
            (areaPath ++ "/" ++ n) gc).2.2.2 op hgc]
        · intro e he
          rcases List.mem_flatMap.mp he with ⟨gc, _, hgc⟩
          refine ⟨([areaName, n], gc.name), ?_, Or.inr rfl⟩
          exact (idStep_bounds ign (String.mk k) [areaName, n]
            (areaPath ++ "/" ++ n) gc).2.2.1 e hgc
      | none =>
        cases hg : genericCategoryMatchL n.data with
        | some g =>
          simp [catStep, FSEntry.name, hig, hm, hg, errFileKeys, mkFile,
            sortFileKey]
          exact ⟨[areaName], n, ⟨rfl, rfl⟩, Or.inl ⟨rfl, rfl⟩⟩
        | none =>
          simp [catStep, FSEntry.name, hig, hm, hg, errFileKeys, mkFile,
            sortFileKey]
          exact ⟨[areaName], n, ⟨rfl, rfl⟩, Or.inl ⟨rfl, rfl⟩⟩

/-- Within one category entry, the id operations and the errors produced
have pairwise-distinct position keys (grandchild names are unique). -/
theorem catStep_nodup (ign : IgnorePred) (aKey : String) (areaName : String)
    (areaPath : String) (c : FSEntry)
    (hwf : ∀ m ids, c = FSEntry.dir m ids → (dirNames ids).Nodup) :
    (((catStep ign aKey areaName areaPath c).2.2).map
      (fun op => sortFileKey op.2.2)).Nodup ∧
    (((catStep ign aKey areaName areaPath c).1).map errFileKeys).Nodup := by
  by_cases hig : ign [areaName] c.name
  · simp [catStep, hig]
  · cases c with
    | file n =>
      simp only [FSEntry.name] at hig
      simp [catStep, FSEntry.name, hig]
    | dir n children =>
      simp only [FSEntry.name] at hig
      have hnd : (dirNames children).Nodup := hwf n children rfl
      cases hm : validCategoryMatchL aKey.data n.data with
      | some kl =>
        obtain ⟨k, lbl⟩ := kl
        simp only [catStep, FSEntry.name, hig, Bool.false_eq_true, if_false,
          hm]
        constructor
        · apply List.Nodup.sublist
            (flatMap_map_sublist _ _
              (fun gc => (([areaName, n], gc.name) : List String × String))
              (fun gc => (idStep_bounds ign (String.mk k) [areaName, n]
                (areaPath ++ "/" ++ n) gc).2.1)
              (fun gc op hop => (idStep_bounds ign (String.mk k) [areaName, n]
                (areaPath ++ "/" ++ n) gc).2.2.2 op hop) children)
          exact nodup_map_of_names children
            (fun gc => (([areaName, n], gc.name) : List String × String))
            (fun a b heq => by simpa using congrArg Prod.snd heq) hnd
        · apply List.Nodup.sublist
            (flatMap_map_sublist _ _
              (fun gc => ([(([areaName, n], gc.name) :
                List String × String)] : List (List String × String)))
              (fun gc => (idStep_bounds ign (String.mk k) [areaName, n]
                (areaPath ++ "/" ++ n) gc).1)
              (fun gc e he => (idStep_bounds ign (String.mk k) [areaName, n]
                (areaPath ++ "/" ++ n) gc).2.2.1 e he) children)
          refine nodup_map_of_names children
            (fun gc => ([(([areaName, n], gc.name) : List String × String)] :
              List (List String × String)))
            (fun a b heq => ?_) hnd
          simpa using heq
      | none =>
        cases hg : genericCategoryMatchL n.data with
        | some g => simp [catStep, FSEntry.name, hig, hm, hg]
        | none => simp [catStep, FSEntry.name, hig, hm, hg]

theorem map_flatMap_eq {α β γ : Type} (f : α → List β) (g : β → γ)
    (l : List α) :
    (l.flatMap f).map g = l.flatMap (fun a => (f a).map g) := by
  induction l with
  | nil => rfl
  | cons a r ih => simp only [List.flatMap_cons, List.map_append, ih]

theorem areaStep_bounds (ign : IgnorePred) (rootPath : String) (e : FSEntry) :
    (areaStep ign rootPath e).areaOps.length ≤ 1 ∧
    (∀ op ∈ (areaStep ign rootPath e).areaOps,
      sortFileKey op.2.2 = (([] : List String), e.name)) ∧
    (∀ op ∈ (areaStep ign rootPath e).catOps,
      (sortFileKey op.2.2).1 = [e.name]) ∧
    (∀ op ∈ (areaStep ign rootPath e).idOps,
      ∃ t, (sortFileKey op.2.2).1 = e.name :: t) ∧
    (∀ err ∈ (areaStep ign rootPath e).errs, ∃ fk,
      errFileKeys err = [fk] ∧
        (fk = (((([] : List String), e.name)) : List String × String) ∨
          ∃ t, fk.1 = e.name :: t)) := by
  by_cases hig : ign [] e.name
  · simp [areaStep, hig]
  · cases e with
    | file n =>
      simp only [FSEntry.name] at hig
      simp [areaStep, FSEntry.name, hig, errFileKeys, mkFile, sortFileKey]
      exact ⟨[], n, ⟨rfl, rfl⟩, Or.inl ⟨rfl, rfl⟩⟩
    | dir n children =>
      simp only [FSEntry.name] at hig
      cases hm : validAreaMatchL n.data with
      | some dl =>
        obtain ⟨d, lbl⟩ := dl
        simp only [areaStep, FSEntry.name, hig, Bool.false_eq_true, if_false,
          hm]
        refine ⟨by simp, ?_, ?_, ?_, ?_⟩
        · intro op hop
          simp at hop
          simp [hop, mkFile, sortFileKey]
        · intro op hop
          rcases List.mem_flatMap.mp hop with ⟨c, _, hc⟩
          rw [(catStep_bounds ign (String.mk [d]) n
            (rootPath ++ "/" ++ n) c).2.1 op hc]
        · intro op hop
          rcases List.mem_flatMap.mp hop with ⟨c, _, hc⟩
          exact ⟨[c.name], (catStep_bounds ign (String.mk [d]) n
            (rootPath ++ "/" ++ n) c).2.2.1 op hc⟩
        · intro err herr
          rcases List.mem_flatMap.mp herr with ⟨c, _, hc⟩
          obtain ⟨fk, hk, hcase⟩ := (catStep_bounds ign (String.mk [d]) n
            (rootPath ++ "/" ++ n) c).2.2.2 err hc
          refine ⟨fk, hk, Or.inr ?_⟩
          rcases hcase with h | h
          · exact ⟨[], by rw [h]⟩
          · exact ⟨[c.name], h⟩
      | none =>
        simp [areaStep, FSEntry.name, hig, hm, errFileKeys, mkFile,
          sortFileKey]
        exact ⟨[], n, ⟨rfl, rfl⟩, Or.inl ⟨rfl, rfl⟩⟩

/-- Within one area entry, the category operations, id operations and
errors produced have pairwise-distinct position keys, provided sibling
names below the area are unique. -/
theorem areaStep_nodup (ign : IgnorePred) (rootPath : String) (e : FSEntry)
    (hwf : ∀ m cats, e = FSEntry.dir m cats → (dirNames cats).Nodup ∧
      ∀ c ∈ cats, ∀ m₂ ids, c = FSEntry.dir m₂ ids → (dirNames ids).Nodup) :
    ((areaStep ign rootPath e).catOps.map
      (fun op => sortFileKey op.2.2)).Nodup ∧
    ((areaStep ign rootPath e).idOps.map
      (fun op => sortFileKey op.2.2)).Nodup ∧
    ((areaStep ign rootPath e).errs.map errFileKeys).Nodup := by
  by_cases hig : ign [] e.name
  · simp [areaStep, hig]
  · cases e with
    | file n =>
      simp only [FSEntry.name] at hig
      simp [areaStep, FSEntry.name, hig]
    | dir n children =>
      simp only [FSEntry.name] at hig
      obtain ⟨hnd, hwf₂⟩ := hwf n children rfl
      have hp : children.Pairwise
          (fun a b => FSEntry.name a ≠ FSEntry.name b) :=
        List.pairwise_map.mp hnd
      cases hm : validAreaMatchL n.data with
      | some dl =>
        obtain ⟨d, lbl⟩ := dl
        simp only [areaStep, FSEntry.name, hig, Bool.false_eq_true, if_false,
          hm]
        refine ⟨?_, ?_, ?_⟩
        · apply List.Nodup.sublist
            (flatMap_map_sublist _ _
              (fun c => (([n], c.name) : List String × String))
              (fun c => (catStep_bounds ign (String.mk [d]) n
                (rootPath ++ "/" ++ n) c).1)
              (fun c op hop => (catStep_bounds ign (String.mk [d]) n
                (rootPath ++ "/" ++ n) c).2.1 op hop) children)
          refine nodup_map_of_names children
            (fun c => (([n], c.name) : List String × String))
            (fun a b heq => ?_) hnd
          simpa using heq
        · rw [map_flatMap_eq]
          apply nodup_flatMap_of_disjoint
          · intro c hc
            exact (catStep_nodup ign (String.mk [d]) n (rootPath ++ "/" ++ n)
              c (fun m₂ ids hc₂ => hwf₂ c hc m₂ ids hc₂)).1
          · refine hp.imp ?_
            intro a b hne x hxa hxb
            rcases List.mem_map.mp hxa with ⟨op, hop, hx⟩
            rcases List.mem_map.mp hxb with ⟨op₂, hop₂, hx₂⟩
            have h₁ := (catStep_bounds ign (String.mk [d]) n
              (rootPath ++ "/" ++ n) a).2.2.1 op hop
            have h₂ := (catStep_bounds ign (String.mk [d]) n
              (rootPath ++ "/" ++ n) b).2.2.1 op₂ hop₂
            rw [hx] at h₁
            rw [hx₂] at h₂
            have hn₂ : ([n, FSEntry.name a] : List String) =
                [n, FSEntry.name b] := by rw [← h₁, ← h₂]
            simp at hn₂
            exact hne hn₂
        · rw [map_flatMap_eq]
          apply nodup_flatMap_of_disjoint
          · intro c hc
            exact (catStep_nodup ign (String.mk [d]) n (rootPath ++ "/" ++ n)
              c (fun m₂ ids hc₂ => hwf₂ c hc m₂ ids hc₂)).2
          · refine hp.imp ?_
            intro a b hne x hxa hxb
            rcases List.mem_map.mp hxa with ⟨e₁, he₁, hx₁⟩
            rcases List.mem_map.mp hxb with ⟨e₂, he₂, hx₂⟩
            obtain ⟨fk₁, hk₁, hc₁⟩ := (catStep_bounds ign (String.mk [d]) n
              (rootPath ++ "/" ++ n) a).2.2.2 e₁ he₁
            obtain ⟨fk₂, hk₂, hc₂⟩ := (catStep_bounds ign (String.mk [d]) n
              (rootPath ++ "/" ++ n) b).2.2.2 e₂ he₂
            have hfk : fk₁ = fk₂ := by
              have h12 : ([fk₁] : List (List String × String)) = [fk₂] := by
                rw [← hk₁, ← hk₂, hx₁, hx₂]
              simpa using h12
            rcases hc₁ with h₁ | h₁ <;> rcases hc₂ with h₂ | h₂
            · apply hne
              have hpair : (([n], FSEntry.name a) : List String × String) =
                  ([n], FSEntry.name b) := by rw [← h₁, hfk, h₂]
              simpa using hpair
            · have h₁x : fk₁.1 = [n] := by rw [h₁]
              rw [hfk, h₂] at h₁x
              simp at h₁x
            · have h₂x : fk₂.1 = [n] := by rw [h₂]
              rw [← hfk, h₁] at h₂x
              simp at h₂x
            · apply hne
              have hn₂ : ([n, FSEntry.name a] : List String) =
                  [n, FSEntry.name b] := by rw [← h₁, hfk, h₂]
              simpa using hn₂
      | none =>
        simp [areaStep, FSEntry.name, hig, hm]

/-- Under sibling-name uniqueness, every registry operation list and the
traversal error list of the whole walk have pairwise-distinct position
keys. -/
theorem walk_nodup (ign : IgnorePred) (rootPath : String) (cs : List FSEntry)
    (hwf : ForestWf cs) :
    ((cs.flatMap (fun c => (areaStep ign rootPath c).areaOps)).map
      (fun op => sortFileKey op.2.2)).Nodup ∧
    ((cs.flatMap (fun c => (areaStep ign rootPath c).catOps)).map
      (fun op => sortFileKey op.2.2)).Nodup ∧
    ((cs.flatMap (fun c => (areaStep ign rootPath c).idOps)).map
      (fun op => sortFileKey op.2.2)).Nodup ∧
    ((cs.flatMap (fun c => (areaStep ign rootPath c).errs)).map
      errFileKeys).Nodup := by
  obtain ⟨hnd, hwf₂⟩ := hwf
  have hp : cs.Pairwise (fun a b => FSEntry.name a ≠ FSEntry.name b) :=
    List.pairwise_map.mp hnd
  refine ⟨?_, ?_, ?_, ?_⟩
  · apply List.Nodup.sublist
      (flatMap_map_sublist _ _
        (fun c => (((([] : List String), c.name)) : List String × String))
        (fun c => (areaStep_bounds ign rootPath c).1)
        (fun c op hop => (areaStep_bounds ign rootPath c).2.1 op hop) cs)
    refine nodup_map_of_names cs
      (fun c => (((([] : List String), c.name)) : List String × String))
      (fun a b heq => ?_) hnd
    simpa using heq
  · rw [map_flatMap_eq]
    apply nodup_flatMap_of_disjoint
    · intro c hc
      exact (areaStep_nodup ign rootPath c
        (fun m cats hcs => hwf₂ c hc m cats hcs)).1
    · refine hp.imp ?_
      intro a b hne x hxa hxb
      rcases List.mem_map.mp hxa with ⟨op, hop, hx⟩
      rcases List.mem_map.mp hxb with ⟨op₂, hop₂, hx₂⟩
      have h₁ := (areaStep_bounds ign rootPath a).2.2.1 op hop
      have h₂ := (areaStep_bounds ign rootPath b).2.2.1 op₂ hop₂
      rw [hx] at h₁
      rw [hx₂] at h₂
      have hn₂ : ([FSEntry.name a] : List String) = [FSEntry.name b] := by
        rw [← h₁, ← h₂]
      simp at hn₂
      exact hne hn₂
  · rw [map_flatMap_eq]
    apply nodup_flatMap_of_disjoint
    · intro c hc
      exact (areaStep_nodup ign rootPath c
        (fun m cats hcs => hwf₂ c hc m cats hcs)).2.1
    · refine hp.imp ?_
      intro a b hne x hxa hxb
      rcases List.mem_map.mp hxa with ⟨op, hop, hx⟩
      rcases List.mem_map.mp hxb with ⟨op₂, hop₂, hx₂⟩
      obtain ⟨t₁, h₁⟩ := (areaStep_bounds ign rootPath a).2.2.2.1 op hop
      obtain ⟨t₂, h₂⟩ := (areaStep_bounds ign rootPath b).2.2.2.1 op₂ hop₂
      rw [hx] at h₁
      rw [hx₂] at h₂
      have hn₂ : (FSEntry.name a :: t₁ : List String) =
          FSEntry.name b :: t₂ := by rw [← h₁, ← h₂]
      simp at hn₂
      exact hne hn₂.1
  · rw [map_flatMap_eq]
    apply nodup_flatMap_of_disjoint
    · intro c hc
      exact (areaStep_nodup ign rootPath c
        (fun m cats hcs => hwf₂ c hc m cats hcs)).2.2
    · refine hp.imp ?_
      intro a b hne x hxa hxb
      rcases List.mem_map.mp hxa with ⟨e₁, he₁, hx₁⟩
      rcases List.mem_map.mp hxb with ⟨e₂, he₂, hx₂⟩
      obtain ⟨fk₁, hk₁, hc₁⟩ :=
        (areaStep_bounds ign rootPath a).2.2.2.2 e₁ he₁
      obtain ⟨fk₂, hk₂, hc₂⟩ :=
        (areaStep_bounds ign rootPath b).2.2.2.2 e₂ he₂
      have hfk : fk₁ = fk₂ := by
        have h12 : ([fk₁] : List (List String × String)) = [fk₂] := by
          rw [← hk₁, ← hk₂, hx₁, hx₂]
        simpa using h12
      rcases hc₁ with h₁ | ⟨t₁, h₁⟩ <;> rcases hc₂ with h₂ | ⟨t₂, h₂⟩
      · apply hne
        have hpair : ((([] : List String), FSEntry.name a) :
            List String × String) = ([], FSEntry.name b) := by
          rw [← h₁, hfk, h₂]
        simpa using hpair
      · have h₁x : fk₁.1 = [] := by rw [h₁]
        rw [hfk, h₂] at h₁x
        simp at h₁x
      · have h₂x : fk₂.1 = [] := by rw [h₂]
        rw [← hfk, h₁] at h₂x
        simp at h₂x
      · apply hne
        have hn₂ : (FSEntry.name a :: t₁ : List String) =
            FSEntry.name b :: t₂ := by rw [← h₁, hfk, h₂]
        simp at hn₂
        exact hn₂.1

/-- At the ID level every registered key is the leading slice of the folder
name (`acKey.cc` of `acKey.cc label`). -/
theorem idStep_key_take (ign : IgnorePred) (acKey : String)
    (nested : List String) (dirPath : String) (c : FSEntry) :
    ∀ op ∈ (idStep ign acKey nested dirPath c).2,
      op.1.data.length = acKey.data.length + 3 ∧
      op.1.data = op.2.2.name.data.take (acKey.data.length + 3) := by
  intro op hop
  by_cases hig : ign nested c.name
  · simp [idStep, hig] at hop
  · cases c with
    | file n =>
      simp only [FSEntry.name] at hig
      simp [idStep, FSEntry.name, hig] at hop
    | dir n children =>
      simp only [FSEntry.name] at hig
      cases hm : validIdMatchL acKey.data n.data with
      | some kl =>
        obtain ⟨k, lbl⟩ := kl
        simp only [idStep, FSEntry.name, hig, Bool.false_eq_true, if_false,
          hm, List.mem_singleton] at hop
        obtain ⟨d₁, d₂, _, _, _, _, hk, hs⟩ := validIdMatchL_some hm
        subst hop
        have hlen : k.length = acKey.data.length + 3 := by simp [hk]
        refine ⟨hlen, ?_⟩
        have hn : n.data = k ++ ' ' :: lbl := by
          rw [hs, hk]
          simp
        show k = n.data.take (acKey.data.length + 3)
        rw [hn, ← hlen, List.take_left]
      | none =>
        cases hg : genericIdMatchL n.data with
        | some g => simp [idStep, FSEntry.name, hig, hm, hg] at hop
        | none => simp [idStep, FSEntry.name, hig, hm, hg] at hop

/-- At the category level every registered key is the leading slice of the
folder name, and the same holds one level deeper for ids. -/
theorem catStep_key_take (ign : IgnorePred) (aKey : String)
    (areaName : String) (areaPath : String) (c : FSEntry) :
    (∀ op ∈ (catStep ign aKey areaName areaPath c).2.1,
      op.1.data.length = aKey.data.length + 1 ∧
      op.1.data = op.2.2.name.data.take (aKey.data.length + 1)) ∧
    (∀ op ∈ (catStep ign aKey areaName areaPath c).2.2,
      op.1.data.length = aKey.data.length + 4 ∧
      op.1.data = op.2.2.name.data.take (aKey.data.length + 4)) := by
  by_cases hig : ign [areaName] c.name
  · constructor <;> intro op hop <;> simp [catStep, hig] at hop
  · cases c with
    | file n =>
      simp only [FSEntry.name] at hig
      constructor <;> intro op hop <;>
        simp [catStep, FSEntry.name, hig] at hop
    | dir n children =>
      simp only [FSEntry.name] at hig
      cases hm : validCategoryMatchL aKey.data n.data with
      | some kl =>
        obtain ⟨k, lbl⟩ := kl
        obtain ⟨ch, _, _, _, hk, hs⟩ := validCategoryMatchL_some hm
        have hklen : k.length = aKey.data.length + 1 := by simp [hk]
        constructor
        · intro op hop
          simp only [catStep, FSEntry.name, hig, Bool.false_eq_true,
            if_false, hm, List.mem_singleton] at hop
          subst hop
          refine ⟨hklen, ?_⟩
          have hn : n.data = k ++ ' ' :: lbl := by
            rw [hs, hk]
            simp
          show k = n.data.take (aKey.data.length + 1)
          rw [hn, ← hklen, List.take_left]
        · intro op hop
          simp only [catStep, FSEntry.name, hig, Bool.false_eq_true,
            if_false, hm] at hop
          rcases List.mem_flatMap.mp hop with ⟨gc, _, hgc⟩
          have h := idStep_key_take ign (String.mk k) [areaName, n]
            (areaPath ++ "/" ++ n) gc op hgc
          have hsk : (String.mk k).data.length = aKey.data.length + 1 :=
            hklen
          rw [hsk] at h
          exact h
      | none =>
        cases hg : genericCategoryMatchL n.data with
        | some g =>
          constructor <;> intro op hop <;>
            simp [catStep, FSEntry.name, hig, hm, hg] at hop
        | none =>
          constructor <;> intro op hop <;>
            simp [catStep, FSEntry.name, hig, hm, hg] at hop

/-- At the top of the walk: every area key is the first character of its
folder name, every category key its first two characters, every id key its
first five characters. -/
theorem areaStep_key_take (ign : IgnorePred) (rootPath : String)
    (e : FSEntry) :
    (∀ op ∈ (areaStep ign rootPath e).areaOps,
      op.1.data.length = 1 ∧ op.1.data = op.2.2.name.data.take 1) ∧
    (∀ op ∈ (areaStep ign rootPath e).catOps,
      op.1.data.length = 2 ∧ op.1.data = op.2.2.name.data.take 2) ∧
    (∀ op ∈ (areaStep ign rootPath e).idOps,
      op.1.data.length = 5 ∧ op.1.data = op.2.2.name.data.take 5) := by
  by_cases hig : ign [] e.name
  · refine ⟨?_, ?_, ?_⟩ <;> intro op hop <;> simp [areaStep, hig] at hop
  · cases e with
    | file n =>
      simp only [FSEntry.name] at hig
      refine ⟨?_, ?_, ?_⟩ <;> intro op hop <;>
        simp [areaStep, FSEntry.name, hig] at hop
    | dir n children =>
      simp only [FSEntry.name] at hig
      cases hm : validAreaMatchL n.data with
      | some dl =>
        obtain ⟨d, lbl⟩ := dl
        obtain ⟨_, _, _, hs⟩ := validAreaMatchL_some hm
        refine ⟨?_, ?_, ?_⟩
        · intro op hop
          simp only [areaStep, FSEntry.name, hig, Bool.false_eq_true,
            if_false, hm, List.mem_singleton] at hop
          subst hop
          refine ⟨rfl, ?_⟩
          show [d] = n.data.take 1
          rw [hs]
          rfl
        · intro op hop
          simp only [areaStep, FSEntry.name, hig, Bool.false_eq_true,
            if_false, hm] at hop
          rcases List.mem_flatMap.mp hop with ⟨c, _, hc⟩
          exact (catStep_key_take ign (String.mk [d]) n
            (rootPath ++ "/" ++ n) c).1 op hc
        · intro op hop
          simp only [areaStep, FSEntry.name, hig, Bool.false_eq_true,
            if_false, hm] at hop
          rcases List.mem_flatMap.mp hop with ⟨c, _, hc⟩
          exact (catStep_key_take ign (String.mk [d]) n
            (rootPath ++ "/" ++ n) c).2 op hc
      | none =>
        refine ⟨?_, ?_, ?_⟩ <;> intro op hop <;>
          simp [areaStep, FSEntry.name, hig, hm] at hop

/-- The keys of a registry that trigger a duplicate error. -/
def dupKeys (reg : Registry) : List String :=
  (reg.filter fun kv => decide (kv.2.length > 1)).map Prod.fst

theorem dupKeys_nodup {reg : Registry} (hnd : (regKeys reg).Nodup) :
    (dupKeys reg).Nodup := by
  apply List.Nodup.sublist ((List.filter_sublist reg).map Prod.fst)
  exact hnd

/-- `_error_if_dups` rewritten as a map over the duplicated keys, looking
each key's entries back up in the registry. -/
theorem errorIfDups_eq_map {E : Type} (mk : String → List File → E)
    (reg : Registry) (hnd : (regKeys reg).Nodup) :
    errorIfDups mk reg = (dupKeys reg).map
      (fun k =>
        mk k (sortFiles (((lookupReg k reg).getD []).map Prod.snd))) := by
  unfold errorIfDups dupKeys
  rw [List.map_map]
  apply List.map_congr_left
  intro kv hkv
  have hmem : kv ∈ reg := List.mem_of_mem_filter hkv
  have hlook : lookupReg kv.1 reg = some kv.2 :=
    lookupReg_eq_of_mem hnd hmem
  simp [Function.comp, hlook]

theorem mem_dupKeys {reg : Registry} (hnd : (regKeys reg).Nodup)
    (k : String) :
    k ∈ dupKeys reg ↔ 1 < ((lookupReg k reg).getD []).length := by
  unfold dupKeys
  constructor
  · intro hk
    rcases List.mem_map.mp hk with ⟨kv, hkv, hfst⟩
    have hmem : kv ∈ reg := List.mem_of_mem_filter hkv
    have hgt := List.of_mem_filter hkv
    have hlook : lookupReg kv.1 reg = some kv.2 :=
      lookupReg_eq_of_mem hnd hmem
    rw [← hfst, hlook]
    simpa using hgt
  · intro hlen
    cases hl : lookupReg k reg with
    | none =>
      rw [hl] at hlen
      simp at hlen
    | some vs =>
      rw [hl] at hlen
      simp at hlen
      have hmem := mem_of_lookupReg hl
      exact List.mem_map.mpr
        ⟨(k, vs), List.mem_filter.mpr ⟨hmem, by simpa using hlen⟩, rfl⟩

theorem valsOf_applyOps_nil (ops : List RegOp) (k : String) :
    (lookupReg k (applyOps [] ops)).getD [] =
      (ops.filter fun op => decide (op.1 = k)).map Prod.snd := by
  rw [valsOf_applyOps]
  simp [lookupReg]

/-- The duplicate errors computed from a registry built by a list of
register operations depend only on the multiset of operations, provided no
two operations carry the same positioned file. -/
theorem errorIfDups_perm {E : Type} (mk : String → List File → E)
    (ops₁ ops₂ : List RegOp) (hperm : List.Perm ops₁ ops₂)
    (hnd : (ops₁.map (fun op => sortFileKey op.2.2)).Nodup) :
    List.Perm (errorIfDups mk (applyOps [] ops₁))
      (errorIfDups mk (applyOps [] ops₂)) := by
  have hk₁ : (regKeys (applyOps [] ops₁)).Nodup :=
    regKeys_applyOps_nodup [] ops₁ (by simp [regKeys])
  have hk₂ : (regKeys (applyOps [] ops₂)).Nodup :=
    regKeys_applyOps_nodup [] ops₂ (by simp [regKeys])
  rw [errorIfDups_eq_map mk _ hk₁, errorIfDups_eq_map mk _ hk₂]
  have hvals : ∀ k : String,
      sortFiles (((lookupReg k (applyOps [] ops₁)).getD []).map Prod.snd) =
      sortFiles (((lookupReg k (applyOps [] ops₂)).getD []).map Prod.snd) := by
    intro k
    rw [valsOf_applyOps_nil, valsOf_applyOps_nil, List.map_map,
      List.map_map]
    apply sortFiles_eq_of_perm_nodup
    · exact (hperm.filter _).map _
    · rw [List.map_map]
      apply List.Nodup.sublist
        ((List.filter_sublist ops₁).map
          (fun op => sortFileKey op.2.2))
      exact hnd
  have hfun : ((dupKeys (applyOps [] ops₁)).map fun k =>
      mk k (sortFiles
        (((lookupReg k (applyOps [] ops₁)).getD []).map Prod.snd))) =
      ((dupKeys (applyOps [] ops₁)).map fun k =>
      mk k (sortFiles
        (((lookupReg k (applyOps [] ops₂)).getD []).map Prod.snd))) := by
    apply List.map_congr_left
    intro k _
    rw [hvals k]
  rw [hfun]
  apply List.Perm.map
  apply (List.perm_ext_iff_of_nodup (dupKeys_nodup hk₁)
    (dupKeys_nodup hk₂)).mpr
  intro k
  rw [mem_dupKeys hk₁, mem_dupKeys hk₂, valsOf_applyOps_nil,
    valsOf_applyOps_nil, List.length_map, List.length_map,
    (hperm.filter _).length_eq]

/-- The error kinds produced only by duplicate detection. -/
def isDupKind : ErrorType → Bool
  | .duplicateArea _ => true
  | .duplicateCategory _ => true
  | .duplicateId _ => true
  | _ => false

theorem idStep_dup_kind (ign : IgnorePred) (acKey : String)
    (nested : List String) (dirPath : String) (e' : FSEntry) :
    ∀ e ∈ (idStep ign acKey nested dirPath e').1,
      isDupKind e.error = false := by
  intro e he
  unfold idStep at he
  split at he
  · simp at he
  · split at he
    · simp at he
      rw [he]
      rfl
    · split at he
      · split at he
        · simp at he
          rw [he]
          rfl
        · simp at he
      · split at he
        · simp at he
          rw [he]
          rfl
        · simp at he
          rw [he]
          rfl

theorem catStep_dup_kind (ign : IgnorePred) (aKey : String)
    (areaName : String) (areaPath : String) (e' : FSEntry) :
    ∀ e ∈ (catStep ign aKey areaName areaPath e').1,
      isDupKind e.error = false := by
  intro e he
  unfold catStep at he
  split at he
  · simp at he
  · split at he
    · simp at he
      rw [he]
      rfl
    · split at he
      · rcases List.mem_flatMap.mp he with ⟨c, _, hc⟩
        exact idStep_dup_kind _ _ _ _ _ e hc
      · split at he
        · simp at he
          rw [he]
          rfl
        · simp at he
          rw [he]
          rfl

theorem areaStep_dup_kind (ign : IgnorePred) (rootPath : String)
    (e' : FSEntry) :
    ∀ e ∈ (areaStep ign rootPath e').errs, isDupKind e.error = false := by
  intro e he
  unfold areaStep at he
  split at he
  · simp at he
  · split at he
    · simp at he
      rw [he]
      rfl
    · split at he
      · simp only [] at he
        rcases List.mem_flatMap.mp he with ⟨c, _, hc⟩
        exact catStep_dup_kind _ _ _ _ _ e hc
      · simp at he
        rw [he]
        rfl

theorem dup_typeName_ne (t₁ t₂ : ErrorType) (h₁ : isDupKind t₁ = false)
    (h₂ : isDupKind t₂ = true) :
    ErrorType.typeName t₁ ≠ ErrorType.typeName t₂ := by
  cases t₁ <;> cases t₂ <;> simp_all [isDupKind, ErrorType.typeName]

theorem nodup_map_sortErrorKey (l : List Error)
    (h : (l.map errFileKeys).Nodup) : (l.map sortErrorKey).Nodup := by
  have h₂ := List.pairwise_map.mp h
  refine List.pairwise_map.mpr (h₂.imp ?_)
  intro a b hne heq
  exact hne (congrArg Prod.snd heq)

/-- Distinct duplicated keys give distinct duplicate errors, because the
registered file names determine the key (its leading `m` characters). -/
theorem dup_block_nodup (mk : String → List File → Error)
    (hfiles : ∀ k fs, (mk k fs).files = fs)
    (ops : List RegOp) (m : Nat)
    (hkey : ∀ op ∈ ops, op.1.data = op.2.2.name.data.take m) :
    ((errorIfDups mk (applyOps [] ops)).map sortErrorKey).Nodup := by
  have hnd0 : (regKeys (applyOps [] ops)).Nodup :=
    regKeys_applyOps_nodup [] ops (by simp [regKeys])
  rw [errorIfDups_eq_map mk _ hnd0, List.map_map]
  apply List.Nodup.map_on ?_ (dupKeys_nodup hnd0)
  intro k₁ hk₁ k₂ hk₂ heq
  have hv : ∀ k : String,
      ((lookupReg k (applyOps [] ops)).getD []).map Prod.snd =
        (ops.filter fun op => decide (op.1 = k)).map
          (fun op => op.2.2) := by
    intro k
    rw [valsOf_applyOps_nil, List.map_map]
    rfl
  have h2 := congrArg Prod.snd heq
  simp only [Function.comp, sortErrorKey, hfiles, hv] at h2
  have hlen₁ : 1 < ((lookupReg k₁ (applyOps [] ops)).getD []).length :=
    (mem_dupKeys hnd0 k₁).mp hk₁
  cases hsf : sortFiles ((ops.filter fun op => decide (op.1 = k₁)).map
      (fun op => op.2.2)) with
  | nil =>
    exfalso
    have hl := (sortFiles_perm ((ops.filter fun op =>
      decide (op.1 = k₁)).map (fun op => op.2.2))).length_eq
    rw [hsf] at hl
    simp only [List.length_nil, List.length_map] at hl
    rw [valsOf_applyOps_nil, List.length_map] at hlen₁
    omega
  | cons f₁ rest =>
    have hf₁ : f₁ ∈ sortFiles ((ops.filter fun op =>
        decide (op.1 = k₁)).map (fun op => op.2.2)) := by
      rw [hsf]
      exact List.mem_cons_self _ _
    have hx : sortFileKey f₁ ∈ (sortFiles ((ops.filter fun op =>
        decide (op.1 = k₂)).map (fun op => op.2.2))).map sortFileKey := by
      rw [← h2]
      exact List.mem_map_of_mem _ hf₁
    rcases List.mem_map.mp hx with ⟨f₂, hf₂, hkeq⟩
    have hf₁v := (sortFiles_perm _).subset hf₁
    have hf₂v := (sortFiles_perm _).subset hf₂
    rcases List.mem_map.mp hf₁v with ⟨op₁, hop₁, hop₁f⟩
    rcases List.mem_map.mp hf₂v with ⟨op₂, hop₂, hop₂f⟩
    have hk₁d : op₁.1 = k₁ := by simpa using List.of_mem_filter hop₁
    have hk₂d : op₂.1 = k₂ := by simpa using List.of_mem_filter hop₂
    have hkey₁ := hkey op₁ (List.mem_of_mem_filter hop₁)
    have hkey₂ := hkey op₂ (List.mem_of_mem_filter hop₂)
    have hname : f₂.name = f₁.name := congrArg Prod.snd hkeq
    have hnm : op₂.2.2.name = op₁.2.2.name := by
      rw [hop₁f, hop₂f]
      exact hname
    apply String.ext
    rw [← hk₁d, ← hk₂d, hkey₁, hkey₂, hnm]

/-- `lint_dir`'s final error list, written out as the stable sort of the
traversal errors followed by the three duplicate-detection passes. -/
theorem lintDir_errors_eq (ign : IgnorePred) (rootPath : String)
    (cs : List FSEntry) :
    (lintDir ign rootPath cs).errors =
      sortErrors
        (cs.flatMap (fun c => (areaStep ign rootPath c).errs) ++
          errorIfDups (fun k fs => (⟨.duplicateArea k, fs⟩ : Error))
            (applyOps []
              (cs.flatMap (fun c => (areaStep ign rootPath c).areaOps))) ++
          errorIfDups (fun k fs => (⟨.duplicateCategory k, fs⟩ : Error))
            (applyOps []
              (cs.flatMap (fun c => (areaStep ign rootPath c).catOps))) ++
          errorIfDups (fun k fs => (⟨.duplicateId k, fs⟩ : Error))
            (applyOps []
              (cs.flatMap (fun c => (areaStep ign rootPath c).idOps)))) := by
  unfold lintDir
  rw [walkState_eq]

/-- With unique sibling names, no two errors of a lint run share a sort
key. -/
theorem lintDir_key_nodup (ign : IgnorePred) (rootPath : String)
    (cs : List FSEntry) (hwf : ForestWf cs) :
    ((cs.flatMap (fun c => (areaStep ign rootPath c).errs) ++
      errorIfDups (fun k fs => (⟨.duplicateArea k, fs⟩ : Error))
        (applyOps []
          (cs.flatMap (fun c => (areaStep ign rootPath c).areaOps))) ++
      errorIfDups (fun k fs => (⟨.duplicateCategory k, fs⟩ : Error))
        (applyOps []
          (cs.flatMap (fun c => (areaStep ign rootPath c).catOps))) ++
      errorIfDups (fun k fs => (⟨.duplicateId k, fs⟩ : Error))
        (applyOps []
          (cs.flatMap (fun c => (areaStep ign rootPath c).idOps)))).map
      sortErrorKey).Nodup := by
  have hN := walk_nodup ign rootPath cs hwf
  have hW : ((cs.flatMap (fun c => (areaStep ign rootPath c).errs)).map
      sortErrorKey).Nodup := nodup_map_sortErrorKey _ hN.2.2.2
  have hA := dup_block_nodup (fun k fs => (⟨.duplicateArea k, fs⟩ : Error))
    (fun _ _ => rfl)
    (cs.flatMap (fun c => (areaStep ign rootPath c).areaOps)) 1
    (by
      intro op hop
      rcases List.mem_flatMap.mp hop with ⟨c, _, hc⟩
      exact ((areaStep_key_take ign rootPath c).1 op hc).2)
  have hC := dup_block_nodup
    (fun k fs => (⟨.duplicateCategory k, fs⟩ : Error)) (fun _ _ => rfl)
    (cs.flatMap (fun c => (areaStep ign rootPath c).catOps)) 2
    (by
      intro op hop
      rcases List.mem_flatMap.mp hop with ⟨c, _, hc⟩
      exact ((areaStep_key_take ign rootPath c).2.1 op hc).2)
  have hI := dup_block_nodup (fun k fs => (⟨.duplicateId k, fs⟩ : Error))
    (fun _ _ => rfl)
    (cs.flatMap (fun c => (areaStep ign rootPath c).idOps)) 5
    (by
      intro op hop
      rcases List.mem_flatMap.mp hop with ⟨c, _, hc⟩
      exact ((areaStep_key_take ign rootPath c).2.2 op hc).2)
  have hWshape : ∀ x ∈ (cs.flatMap
      (fun c => (areaStep ign rootPath c).errs)).map sortErrorKey,
      ∃ t : ErrorType, isDupKind t = false ∧
        x.1 = ErrorType.typeName t := by
    intro x hx
    rcases List.mem_map.mp hx with ⟨e, he, hxe⟩
    rcases List.mem_flatMap.mp he with ⟨c, _, hc⟩
    refine ⟨e.error, areaStep_dup_kind ign rootPath c e hc, ?_⟩
    rw [← hxe]
    rfl
  have hAshape : ∀ x ∈ (errorIfDups
      (fun k fs => (⟨.duplicateArea k, fs⟩ : Error))
      (applyOps [] (cs.flatMap
        (fun c => (areaStep ign rootPath c).areaOps)))).map sortErrorKey,
      x.1 = "DUPLICATE_AREA" := by
    intro x hx
    rcases List.mem_map.mp hx with ⟨e, he, hxe⟩
    rcases (mem_errorIfDups _ _ _).mp he with ⟨kv, _, _, hshape⟩
    rw [← hxe, hshape]
    rfl
  have hCshape : ∀ x ∈ (errorIfDups
      (fun k fs => (⟨.duplicateCategory k, fs⟩ : Error))
      (applyOps [] (cs.flatMap
        (fun c => (areaStep ign rootPath c).catOps)))).map sortErrorKey,
      x.1 = "DUPLICATE_CATEGORY" := by
    intro x hx
    rcases List.mem_map.mp hx with ⟨e, he, hxe⟩
    rcases (mem_errorIfDups _ _ _).mp he with ⟨kv, _, _, hshape⟩
    rw [← hxe, hshape]
    rfl
  have hIshape : ∀ x ∈ (errorIfDups
      (fun k fs => (⟨.duplicateId k, fs⟩ : Error))
      (applyOps [] (cs.flatMap
        (fun c => (areaStep ign rootPath c).idOps)))).map sortErrorKey,
      x.1 = "DUPLICATE_ID" := by
    intro x hx
    rcases List.mem_map.mp hx with ⟨e, he, hxe⟩
    rcases (mem_errorIfDups _ _ _).mp he with ⟨kv, _, _, hshape⟩
    rw [← hxe, hshape]
    rfl
  simp only [List.map_append]
  apply List.Nodup.append
  · apply List.Nodup.append
    · apply List.Nodup.append
      · exact hW
      · exact hA
      · intro x hxW hxA
        obtain ⟨t, hdf, hxt⟩ := hWshape x hxW
        have hxa := hAshape x hxA
        exact dup_typeName_ne t (.duplicateArea "") hdf rfl
          (by rw [← hxt]; exact hxa)
    · exact hC
    · intro x hx hxC
      have hxc := hCshape x hxC
      rcases List.mem_append.mp hx with hxW | hxA
      · obtain ⟨t, hdf, hxt⟩ := hWshape x hxW
        exact dup_typeName_ne t (.duplicateCategory "") hdf rfl
          (by rw [← hxt]; exact hxc)
      · have hxa := hAshape x hxA
        rw [hxa] at hxc
        exact absurd hxc (by decide)
  · exact hI
  · intro x hx hxI
    have hxi := hIshape x hxI
    rcases List.mem_append.mp hx with hx' | hxC
    · rcases List.mem_append.mp hx' with hxW | hxA
      · obtain ⟨t, hdf, hxt⟩ := hWshape x hxW
        exact dup_typeName_ne t (.duplicateId "") hdf rfl
          (by rw [← hxt]; exact hxi)
      · have hxa := hAshape x hxA
        rw [hxa] at hxi
        exact absurd hxi (by decide)
    · have hxc := hCshape x hxC
      rw [hxc] at hxi
      exact absurd hxi (by decide)

/-- C9: for every fixed tree (unique sibling names, as on a real
filesystem), the final error list of `lint_dir` is sorted by `_sort_error`'s
key (error kind name, then the affected entries' (nesting-path list, name)
keys), and two runs over the same tree that enumerate directories in
different orders produce identical error lists. -/
theorem deterministic_sorted_output (ign : IgnorePred) (rootPath : String)
    (cs₁ cs₂ : List FSEntry) (hwf : ForestWf cs₁)
    (hsame : SameForest cs₁ cs₂) :
    List.Sorted errLe (lintDir ign rootPath cs₁).errors ∧
    (lintDir ign rootPath cs₁).errors =
      (lintDir ign rootPath cs₂).errors := by
  constructor
  · rw [lintDir_errors_eq]
    exact sortErrors_sorted _
  · rw [lintDir_errors_eq ign rootPath cs₁,
      lintDir_errors_eq ign rootPath cs₂]
    refine sortErrors_eq_of_perm_nodup ?_ ?_
    · obtain ⟨hpW, hpA, hpC, hpI⟩ := walk_perm_of_same ign rootPath hsame
      have hN := walk_nodup ign rootPath cs₁ hwf
      exact ((hpW.append (errorIfDups_perm _ _ _ hpA hN.1)).append
          (errorIfDups_perm _ _ _ hpC hN.2.1)).append
        (errorIfDups_perm _ _ _ hpI hN.2.2.1)
    · exact lintDir_key_nodup ign rootPath cs₁ hwf

theorem deterministic_sorted_output_witness :
    List.Sorted errLe (lintDir (fun _ _ => false) "r"
        [FSEntry.file "b", FSEntry.file "a"]).errors ∧
    (lintDir (fun _ _ => false) "r"
        [FSEntry.file "b", FSEntry.file "a"]).errors =
      (lintDir (fun _ _ => false) "r"
        [FSEntry.file "a", FSEntry.file "b"]).errors :=
  deterministic_sorted_output (fun _ _ => false) "r"
    [FSEntry.file "b", FSEntry.file "a"]
    [FSEntry.file "a", FSEntry.file "b"]
    ⟨by decide, by
      intro e he n cats hc
      simp at he
      rcases he with rfl | rfl <;> simp at hc⟩
    ⟨[FSEntry.file "b", FSEntry.file "a"],
      List.Forall₂.cons rfl (List.Forall₂.cons rfl List.Forall₂.nil),
      by decide⟩

end Jdlint
